import Mathlib

/-!
# sec: chunked passphrase encryption of a byte stream

A shallow embedding of `main.go` (`encryptStream`, `decryptStream`,
`incrementNonce`) together with the parts of the Go standard library the
three functions call (`io.Reader`, `io.Writer`, `io.ReadFull`, `copy`,
`binary.LittleEndian`), followed by the properties of the container format.

The key-derivation function and the AEAD cipher are external: they are the
fields of `CryptoLib`, and every fact used about them is an explicit
hypothesis of the theorem that uses it.
-/

namespace Sec

/-! ## Constants (`main.go`, the `const` block) -/

/-- One octet. -/
abbrev Byte := Fin 256

def ChunkSize : Nat := 64 * 1024
def KeySize : Nat := 32
def SaltSize : Nat := 32
def NonceSize : Nat := 24

/-! ## Errors -/

/-- Error values that can reach the caller of the two stream functions. -/
inductive Err where
  /-- The sentinel `io.EOF`. -/
  | EOF
  /-- The sentinel `io.ErrUnexpectedEOF`. -/
  | ErrUnexpectedEOF
  /-- A value built by `fmt.Errorf(msg)`. -/
  | errorf (msg : String)
  /-- The error of `chacha20poly1305.NewX` for a key that is not 32 bytes long. -/
  | badKeyLength
  /-- Any other error value handed out by a source, a sink or the random source. -/
  | other (id : Nat) (msg : String)
  deriving DecidableEq, Repr

/-- The `Error()` method: the message of an error value. -/
def Err.Error : Err → String
  | .EOF => "EOF"
  | .ErrUnexpectedEOF => "unexpected EOF"
  | .errorf msg => msg
  | .badKeyLength => "chacha20poly1305: bad key length"
  | .other _ msg => msg

/-- The error `decryptStream` builds when `aead.Open` fails (`main.go`, line 177). -/
def authError : Err := .errorf "bad password or corrupt data"

/-! ## `encoding/binary`, little endian -/

/-- The conversion `byte(x)`: the low eight bits. -/
def toByte (x : Nat) : Byte := ⟨x % 256, Nat.mod_lt x (by decide)⟩

/-- `binary.LittleEndian.Uint64(b)`; `none` is the bounds panic of `_ = b[7]`. -/
def Uint64 (b : List Byte) : Option Nat :=
  match b with
  | b0 :: b1 :: b2 :: b3 :: b4 :: b5 :: b6 :: b7 :: _ =>
    some (b0.val ||| b1.val <<< 8 ||| b2.val <<< 16 ||| b3.val <<< 24 |||
      b4.val <<< 32 ||| b5.val <<< 40 ||| b6.val <<< 48 ||| b7.val <<< 56)
  | _ => none

/-- `binary.LittleEndian.PutUint64(b, v)`: the new contents of `b`;
`none` is the bounds panic of `_ = b[7]`. -/
def PutUint64 (b : List Byte) (v : Nat) : Option (List Byte) :=
  if b.length < 8 then none
  else some ([toByte v, toByte (v >>> 8), toByte (v >>> 16), toByte (v >>> 24),
    toByte (v >>> 32), toByte (v >>> 40), toByte (v >>> 48), toByte (v >>> 56)] ++ b.drop 8)

/-! ## `incrementNonce` (`main.go`, lines 194-199) -/

/-- The contents of `nonce` after `incrementNonce(nonce)`. The function works in
place on the slice `counter := nonce[16:]`, so the first 16 bytes are the old
ones; `val++` is on a `uint64`. `none` is a slice-bounds panic. -/
def incrementNonce (nonce : List Byte) : Option (List Byte) :=
  if nonce.length < 16 then none
  else
    let counter := nonce.drop 16
    match Uint64 counter with
    | none => none
    | some val =>
      let val := (val + 1) % 2 ^ 64
      match PutUint64 counter val with
      | none => none
      | some counter1 => some (nonce.take 16 ++ counter1)

/-- The nonce after `i` calls of `incrementNonce`. -/
def incrementNonceN : Nat → List Byte → Option (List Byte)
  | 0, nonce => some nonce
  | i + 1, nonce => (incrementNonce nonce).bind (incrementNonceN i)

/-- The counter of a nonce: bytes 16..23 read as a little-endian `uint64`. -/
def counterOf (nonce : List Byte) : Option Nat := Uint64 (nonce.drop 16)

/-! ## Sources, sinks and the random source

A source is a script: the packets it still holds, each with the error it reports
together with the last bytes of the packet. One `Read` hands out bytes of the
first packet only, at most as many as the buffer takes, so a script fixes how
the bytes are split over the reads (one packet holding everything is a file read
in full buffers; several short packets are a pipe). A script that is used up
reports `io.EOF`. -/

/-- One packet of a source. -/
structure ReadEvent where
  data : List Byte
  err : Option Err
  deriving DecidableEq, Repr

/-- An `io.Reader`. -/
abbrev Reader := List ReadEvent

/-- `n, err := r.Read(buf)` with `len(buf) = cap`: the bytes `buf[:n]`, `err`, and
the source afterwards. -/
def Reader.Read (r : Reader) (cap : Nat) : List Byte × Option Err × Reader :=
  match r with
  | [] => ([], some Err.EOF, [])
  | e :: rest =>
    if e.data.length ≤ cap then (e.data, e.err, rest)
    else (e.data.take cap, none, ⟨e.data.drop cap, e.err⟩ :: rest)

/-- A source that holds the bytes `p` and delivers a full buffer per read while
enough bytes remain. -/
def Reader.ofBytes (p : List Byte) : Reader := [⟨p, none⟩]

/-- The bytes a source holds. -/
def Reader.bytes (r : Reader) : List Byte := (r.map ReadEvent.data).flatten

/-- A bound on the number of `Read` calls (with a non-empty buffer) that do not
report an error: every such call uses up a packet or at least one byte. -/
def Reader.fuel (r : Reader) : Nat := (r.map fun e => e.data.length + 1).sum + 1

/-- What one `Write` call of a sink does. -/
inductive WriteOutcome where
  /-- All bytes are taken. -/
  | ok
  /-- Only the first `n` bytes are taken and `err` is returned. -/
  | fail (n : Nat) (err : Err)
  deriving DecidableEq, Repr

/-- An `io.Writer`: the bytes written so far and the outcomes of the coming `Write`
calls (once the plan is used up every call succeeds). -/
structure Writer where
  data : List Byte
  plan : List WriteOutcome
  deriving DecidableEq, Repr

/-- `_, err := w.Write(p)`. -/
def Writer.Write (w : Writer) (p : List Byte) : Writer × Option Err :=
  match w.plan with
  | [] => (⟨w.data ++ p, []⟩, none)
  | .ok :: rest => (⟨w.data ++ p, rest⟩, none)
  | .fail n err :: rest => (⟨w.data ++ p.take n, rest⟩, some err)

/-- An empty sink on which no write fails. -/
def Writer.new : Writer := ⟨[], []⟩

/-- The random source behind `crypto/rand.Read`: the bytes it will hand out, and
for each coming call whether it fails. -/
structure Rand where
  stream : Nat → Byte
  fails : List (Option Err)

/-- `_, err := rand.Read(buf)` with `len(buf) = n`: the contents of `buf`, `err`,
and the random source afterwards. -/
def Rand.Read (g : Rand) (n : Nat) : List Byte × Option Err × Rand :=
  match g.fails with
  | some err :: rest => (List.replicate n 0, some err, ⟨g.stream, rest⟩)
  | _ => ((List.range n).map g.stream, none, ⟨fun i => g.stream (n + i), g.fails.tail⟩)

/-- The builtin `copy(dst, src)`: the contents of `dst` afterwards. -/
def copy (dst src : List Byte) : List Byte := src.take dst.length ++ dst.drop src.length

/-- The loop of `io.ReadAtLeast` as `io.ReadFull(r, buf)` runs it (`min = len(buf)`):
`acc` is `buf[:n]`. `none` when the fuel runs out. -/
def ReadFull.loop (bufLen : Nat) : Nat → Reader → List Byte → Option Err →
    Option (List Byte × Option Err × Reader)
  | 0, _, _, _ => none
  | fuel + 1, r, acc, err =>
    if acc.length < bufLen ∧ err = none then
      match Reader.Read r (bufLen - acc.length) with
      | (data, err1, r1) => ReadFull.loop bufLen fuel r1 (acc ++ data) err1
    else some (acc, err, r)

/-- `_, err := io.ReadFull(r, buf)` with `len(buf) = bufLen`, `buf` zeroed before:
the contents of `buf`, `err`, and the source afterwards. -/
def ReadFull (r : Reader) (bufLen : Nat) : Option (List Byte × Option Err × Reader) :=
  match ReadFull.loop bufLen (Reader.fuel r + 1) r [] none with
  | none => none
  | some (acc, err, r1) =>
    let buf := copy (List.replicate bufLen 0) acc
    if acc.length ≥ bufLen then some (buf, none, r1)
    else if acc.length > 0 ∧ err = some Err.EOF then some (buf, some Err.ErrUnexpectedEOF, r1)
    else some (buf, err, r1)

/-! ## The external cryptography -/

/-- The functions of `golang.org/x/crypto` that `main.go` calls: `argon2.IDKey`, and
the `Seal`, `Open` and `Overhead` methods of the AEAD that `chacha20poly1305.NewX`
returns (the AEAD value is represented by its key; `dst` is always `nil`). -/
structure CryptoLib where
  IDKey : (password salt : List Byte) → (time memory threads keyLen : Nat) → List Byte
  Seal : (key nonce plaintext additionalData : List Byte) → List Byte
  Open : (key nonce ciphertext additionalData : List Byte) → Option (List Byte)
  Overhead : Nat

/-- `chacha20poly1305.NewX(key)`: it refuses a key that is not `KeySize` bytes long. -/
def NewX (key : List Byte) : Except Err (List Byte) :=
  if key.length ≠ KeySize then .error Err.badKeyLength else .ok key

/-! ## `encryptStream` and `decryptStream` (`main.go`, lines 104-192) -/

/-- How a call ends. -/
inductive Outcome where
  /-- The function returned `err` (`none` is `nil`). -/
  | returned (err : Option Err)
  /-- A run-time panic (a slice index out of range). -/
  | panicked
  /-- The fuel of the embedding ran out before the function returned. -/
  | unfinished
  deriving DecidableEq, Repr

/-- The variables of the chunk loop. `calls` is not in the program: it records, in
order, the nonce and the input of every `aead.Seal` (or `aead.Open`) call. -/
structure State where
  inp : Reader
  out : Writer
  chunkNonce : List Byte
  calls : List (List Byte × List Byte)

/-- The end of a call: how it ended and the state it left. -/
structure Run where
  ret : Outcome
  inp : Reader
  out : Writer
  chunkNonce : List Byte
  calls : List (List Byte × List Byte)

/-- End the call in state `s`. -/
def State.finish (s : State) (ret : Outcome) : Run :=
  ⟨ret, s.inp, s.out, s.chunkNonce, s.calls⟩

/-- The block `if n > 0 { ... }` of the loop of `encryptStream` with `data = buf[:n]`:
either the call ends (`.error`) or the loop goes on to test `readErr`. -/
def encryptChunk (L : CryptoLib) (aead : List Byte) (s : State) (data : List Byte) :
    Except Run State :=
  if data.length > 0 then
    let ciphertext := L.Seal aead s.chunkNonce data []
    let calls := s.calls ++ [(s.chunkNonce, data)]
    match s.out.Write ciphertext with
    | (out, some err) => .error ⟨.returned (some err), s.inp, out, s.chunkNonce, calls⟩
    | (out, none) =>
      match incrementNonce s.chunkNonce with
      | none => .error ⟨.panicked, s.inp, out, s.chunkNonce, calls⟩
      | some chunkNonce => .ok ⟨s.inp, out, chunkNonce, calls⟩
  else .ok s

/-- The `for` loop of `encryptStream`. -/
def encryptLoop (L : CryptoLib) (aead : List Byte) : Nat → State → Run
  | 0, s => s.finish .unfinished
  | fuel + 1, s =>
    match Reader.Read s.inp ChunkSize with
    | (data, readErr, inp) =>
      match encryptChunk L aead ⟨inp, s.out, s.chunkNonce, s.calls⟩ data with
      | .error r => r
      | .ok s1 =>
        match readErr with
        | some err =>
          if err = Err.EOF then s1.finish (.returned none)
          else s1.finish (.returned (some err))
        | none => encryptLoop L aead fuel s1

/-- `encryptStream(in, out, password)`, with `rnd` the state of `crypto/rand`. -/
def encryptStream (L : CryptoLib) (rnd : Rand) (inp : Reader) (out : Writer)
    (password : List Byte) : Run :=
  match rnd.Read SaltSize with
  | (_, some err, _) => ⟨.returned (some err), inp, out, [], []⟩
  | (salt, none, rnd1) =>
    match rnd1.Read NonceSize with
    | (_, some err, _) => ⟨.returned (some err), inp, out, [], []⟩
    | (nonce, none, _) =>
      match out.Write salt with
      | (out1, some err) => ⟨.returned (some err), inp, out1, [], []⟩
      | (out1, none) =>
        match out1.Write nonce with
        | (out2, some err) => ⟨.returned (some err), inp, out2, [], []⟩
        | (out2, none) =>
          let key := L.IDKey password salt 1 (64 * 1024) 4 32
          match NewX key with
          | .error err => ⟨.returned (some err), inp, out2, [], []⟩
          | .ok aead =>
            let chunkNonce := copy (List.replicate NonceSize 0) nonce
            encryptLoop L aead (Reader.fuel inp) ⟨inp, out2, chunkNonce, []⟩

/-- The block `if n > 0 { ... }` of the loop of `decryptStream` with `data = buf[:n]`. -/
def decryptChunk (L : CryptoLib) (aead : List Byte) (s : State) (data : List Byte) :
    Except Run State :=
  if data.length > 0 then
    let calls := s.calls ++ [(s.chunkNonce, data)]
    match L.Open aead s.chunkNonce data [] with
    | none => .error ⟨.returned (some authError), s.inp, s.out, s.chunkNonce, calls⟩
    | some plaintext =>
      match s.out.Write plaintext with
      | (out, some err) => .error ⟨.returned (some err), s.inp, out, s.chunkNonce, calls⟩
      | (out, none) =>
        match incrementNonce s.chunkNonce with
        | none => .error ⟨.panicked, s.inp, out, s.chunkNonce, calls⟩
        | some chunkNonce => .ok ⟨s.inp, out, chunkNonce, calls⟩
  else .ok s

/-- The `for` loop of `decryptStream`; `encChunkSize` is the length of `buf`. -/
def decryptLoop (L : CryptoLib) (aead : List Byte) (encChunkSize : Nat) : Nat → State → Run
  | 0, s => s.finish .unfinished
  | fuel + 1, s =>
    match Reader.Read s.inp encChunkSize with
    | (data, readErr, inp) =>
      match decryptChunk L aead ⟨inp, s.out, s.chunkNonce, s.calls⟩ data with
      | .error r => r
      | .ok s1 =>
        match readErr with
        | some err =>
          if err = Err.EOF then s1.finish (.returned none)
          else s1.finish (.returned (some err))
        | none => decryptLoop L aead encChunkSize fuel s1

/-- `decryptStream(in, out, password)`. -/
def decryptStream (L : CryptoLib) (inp : Reader) (out : Writer) (password : List Byte) : Run :=
  match ReadFull inp SaltSize with
  | none => ⟨.unfinished, inp, out, [], []⟩
  | some (_, some err, inp1) => ⟨.returned (some err), inp1, out, [], []⟩
  | some (salt, none, inp1) =>
    match ReadFull inp1 NonceSize with
    | none => ⟨.unfinished, inp1, out, [], []⟩
    | some (_, some err, inp2) => ⟨.returned (some err), inp2, out, [], []⟩
    | some (nonce, none, inp2) =>
      let key := L.IDKey password salt 1 (64 * 1024) 4 32
      match NewX key with
      | .error err => ⟨.returned (some err), inp2, out, [], []⟩
      | .ok aead =>
        let encChunkSize := ChunkSize + L.Overhead
        let chunkNonce := copy (List.replicate NonceSize 0) nonce
        decryptLoop L aead encChunkSize (Reader.fuel inp2) ⟨inp2, out, chunkNonce, []⟩

/-! ## The container format, as the specification words it -/

/-- The salt `encryptStream` draws from the random source `rnd`. -/
def drawnSalt (rnd : Rand) : List Byte := (rnd.Read SaltSize).1

/-- The base nonce `encryptStream` draws from the random source `rnd`. -/
def drawnNonce (rnd : Rand) : List Byte := ((rnd.Read SaltSize).2.2.Read NonceSize).1

/-- The key both stream functions derive: `argon2.IDKey(password, salt, 1, 64*1024, 4, 32)`. -/
def deriveKey (L : CryptoLib) (password salt : List Byte) : List Byte :=
  L.IDKey password salt 1 (64 * 1024) 4 32

/-- Worker of `chunksOf`. -/
def chunksOf.go (size : Nat) : Nat → List Byte → List (List Byte)
  | 0, _ => []
  | fuel + 1, p => if p = [] then [] else p.take size :: chunksOf.go size fuel (p.drop size)

/-- The consecutive slices of `p` of `size` bytes each; the last one holds what
is left. -/
def chunksOf (size : Nat) (p : List Byte) : List (List Byte) := chunksOf.go size p.length p

/-- A list of slices in which only the last may be shorter than `size` and none
is empty. -/
def Framed (size : Nat) : List (List Byte) → Prop
  | [] => True
  | [c] => 0 < c.length ∧ c.length ≤ size
  | c :: d :: rest => c.length = size ∧ Framed size (d :: rest)

/-- The nonce of chunk `i`: the base nonce after `i` calls of `incrementNonce`. -/
def chunkNonceAt (base : List Byte) (i : Nat) : List Byte := (incrementNonceN i base).getD []

/-- The chunks sealed in order, the first under the nonce of chunk `k`, the next
under that of chunk `k + 1`, and so on. -/
def sealFrom (L : CryptoLib) (key base : List Byte) : Nat → List (List Byte) → List (List Byte)
  | _, [] => []
  | k, c :: cs => L.Seal key (chunkNonceAt base k) c [] :: sealFrom L key base (k + 1) cs

/-- Chunk `i` sealed under the nonce of chunk `i`, for every chunk. -/
def sealChunks (L : CryptoLib) (key base : List Byte) (chunks : List (List Byte)) :
    List (List Byte) :=
  sealFrom L key base 0 chunks

/-- Blocks opened in order, block `i` under the nonce of chunk `i + k`, up to the
first one that does not open: the plaintexts, and whether every block opened. -/
def openChunks (L : CryptoLib) (key base : List Byte) : Nat → List (List Byte) →
    List (List Byte) × Bool
  | _, [] => ([], true)
  | k, c :: cs =>
    match L.Open key (chunkNonceAt base k) c [] with
    | none => ([], false)
    | some p => ((p :: (openChunks L key base (k + 1) cs).1), (openChunks L key base (k + 1) cs).2)

/-- Byte `pos` of `s` with bit `bit` inverted. -/
def flipBit (s : List Byte) (pos bit : Nat) : List Byte :=
  match s[pos]? with
  | none => s
  | some b => s.set pos (toByte (b.val ^^^ (1 <<< bit)))

/-- The reads of a loop with a buffer of `cap` bytes reach, with no error reported
before, a read that delivers between 1 and 15 bytes. -/
inductive ShortReadAhead (cap : Nat) : Reader → Prop where
  | here (r : Reader) : 1 ≤ (Reader.Read r cap).1.length → (Reader.Read r cap).1.length ≤ 15 →
      ShortReadAhead cap r
  | later (r : Reader) : (Reader.Read r cap).2.1 = none →
      ShortReadAhead cap (Reader.Read r cap).2.2 → ShortReadAhead cap r

/-- A source given by what its reads deliver: read `j` delivers packet `j` with no
error (each packet is taken to fit the buffer). -/
def Reader.ofReads (packets : List (List Byte)) : Reader := packets.map fun d => ⟨d, none⟩

/-- The record of the cipher calls for the chunks in order, the first under the
nonce of chunk `k`: nonce and input of each call. -/
def callsFrom (base : List Byte) : Nat → List (List Byte) → List (List Byte × List Byte)
  | _, [] => []
  | k, c :: cs => (chunkNonceAt base k, c) :: callsFrom base (k + 1) cs

/-! ## Small ciphers and random sources for concrete runs

Instances of `CryptoLib` that can be evaluated. In `toyLib` the key is cut from
the passphrase and the salt, and the tag of a chunk is a 16-byte mix of key and
nonce: it has the framing of the real cipher (16 bytes of overhead, a ciphertext
shorter than the tag is refused), not its secrecy. `idealLib` seals in the same
way and opens only what a given table lists. -/

/-- The key: the first `keyLen` bytes of passphrase, salt and zero padding. -/
def toyIDKey (password salt : List Byte) (_time _memory _threads keyLen : Nat) : List Byte :=
  (password ++ salt ++ List.replicate keyLen 0).take keyLen

/-- The first 16 bytes of a buffer, zero padded. -/
def pad16 (l : List Byte) : List Byte := (l ++ List.replicate 16 0).take 16

/-- The 16-byte tag of the small cipher: key bytes plus nonce bytes 8..23. -/
def toyTag (key nonce : List Byte) : List Byte :=
  List.zipWith (fun a b => a + b) (pad16 key) (pad16 (nonce.drop 8))

/-- `Seal` of the small cipher: the plaintext followed by the tag. -/
def toySeal (key nonce plaintext _ad : List Byte) : List Byte :=
  plaintext ++ toyTag key nonce

/-- `Open` of the small cipher: the bytes before the tag, if the tag is right. -/
def toyOpen (key nonce ciphertext _ad : List Byte) : Option (List Byte) :=
  if ciphertext.length < 16 then none
  else if ciphertext.drop (ciphertext.length - 16) = toyTag key nonce then
    some (ciphertext.take (ciphertext.length - 16))
  else none

/-- The small cipher. -/
def toyLib : CryptoLib := ⟨toyIDKey, toySeal, toyOpen, 16⟩

/-- `Open` of an idealised cipher: it accepts exactly the ciphertexts that `toySeal`
made of the chunks listed in `table`, each under the nonce listed with it. -/
def idealOpen (table : List (List Byte × List Byte)) (key nonce ciphertext _ad : List Byte) :
    Option (List Byte) :=
  match table.find? (fun e => e.1 = nonce ∧ toySeal key e.1 e.2 [] = ciphertext) with
  | some e => some e.2
  | none => none

/-- The small cipher with the idealised `Open`. -/
def idealLib (table : List (List Byte × List Byte)) : CryptoLib :=
  ⟨toyIDKey, toySeal, idealOpen table, 16⟩

/-- A random source that hands out the bytes 0, 1, 2, ... and never fails. -/
def countingRand : Rand := ⟨fun i => toByte i, []⟩

/-- A random source that hands out only bytes `0xff`: the counter of the base
nonce it gives is `2 ^ 64 - 1`. -/
def onesRand : Rand := ⟨fun _ => 255, []⟩

/-- An error of a source that is not end of input. -/
def ioError : Err := .other 5 "input/output error"

/-- An error of a sink. -/
def diskFull : Err := .other 28 "no space left on device"

/-- A salt of zero bytes, for concrete streams. -/
def sampleSalt : List Byte := List.replicate 32 0

/-- A base nonce of zero bytes, for concrete streams. -/
def sampleNonce : List Byte := List.replicate 24 0

/-- The chunk the small cipher seals from the plaintext `[7]` under the passphrase
`[9]`, `sampleSalt` and `sampleNonce`. -/
def sampleBlock : List Byte :=
  toySeal (deriveKey toyLib [9] sampleSalt) sampleNonce [7] []

/-- A source that delivers `sampleSalt` and `sampleNonce` and then goes on as
`after`. -/
def sampleSource (after : Reader) : Reader := Reader.ofBytes (sampleSalt ++ sampleNonce) ++ after

/-- What a source delivers after the header: `sampleBlock`, then a read of no byte
that reports `ioError`, then more. -/
def sampleReadError : Reader :=
  Reader.ofReads [sampleBlock] ++ ⟨[], some ioError⟩ :: [⟨[4], none⟩]

/-- What a source delivers after the header: `sampleBlock`, then three bytes that do
not open, then more. -/
def sampleBadChunk : Reader :=
  Reader.ofReads [sampleBlock] ++ ⟨[1, 2, 3], none⟩ :: [⟨[4], none⟩]

/-- A plaintext of one full chunk and one byte more. -/
def twoChunks : List Byte := List.replicate ChunkSize 7 ++ [8]

/-- Ten bytes, as one read of a pipe may deliver. -/
def tenBytes : List Byte := [0, 1, 2, 3, 4, 5, 6, 7, 8, 9]

/-- Ten more bytes. -/
def tenMore : List Byte := [10, 11, 12, 13, 14, 15, 16, 17, 18, 19]

/-- The chunk the small cipher seals from the plaintext `[8]` as the second chunk
of the stream of `sampleBlock`. -/
def sampleBlock2 : List Byte :=
  toySeal (deriveKey toyLib [9] sampleSalt) (chunkNonceAt sampleNonce 1) [8] []

/-- What a source delivers after the header: `sampleBlock`, then a read that
delivers `data` and reports `ioError`, then more. -/
def sampleReadErrorWith (data : List Byte) : Reader :=
  Reader.ofReads [sampleBlock] ++ ⟨data, some ioError⟩ :: [⟨[4], none⟩]

/-! ## Theorems -/

/-! ### Little-endian counters and `incrementNonce` -/

theorem toByte_val (x : Nat) : (toByte x).val = x % 256 := rfl

theorem Uint64_eq_sum (b0 b1 b2 b3 b4 b5 b6 b7 : Byte) (t : List Byte) :
    Uint64 (b0 :: b1 :: b2 :: b3 :: b4 :: b5 :: b6 :: b7 :: t) =
      some (b0.val + b1.val * 2 ^ 8 + b2.val * 2 ^ 16 + b3.val * 2 ^ 24 + b4.val * 2 ^ 32 +
        b5.val * 2 ^ 40 + b6.val * 2 ^ 48 + b7.val * 2 ^ 56) := by
  have h0 := b0.isLt
  have h1 := b1.isLt
  have h2 := b2.isLt
  have h3 := b3.isLt
  have h4 := b4.isLt
  have h5 := b5.isLt
  have h6 := b6.isLt
  have h7 := b7.isLt
  have step : ∀ (k x y : Nat), x < 2 ^ k → x ||| y <<< k = x + y * 2 ^ k := by
    intro k x y hx
    rw [Nat.or_comm, Nat.shiftLeft_eq, Nat.mul_comm y, ← Nat.mul_add_lt_is_or hx, Nat.add_comm]
  simp only [Uint64, Option.some.injEq]
  rw [step 8 _ _ (by omega), step 16 _ _ (by omega), step 24 _ _ (by omega),
    step 32 _ _ (by omega), step 40 _ _ (by omega), step 48 _ _ (by omega),
    step 56 _ _ (by omega)]

theorem Uint64_PutUint64 (b : List Byte) (v : Nat) (hb : 8 ≤ b.length) (hv : v < 2 ^ 64) :
    ∃ c, PutUint64 b v = some c ∧ c.length = b.length ∧ Uint64 c = some v := by
  refine ⟨_, by simp only [PutUint64, if_neg (Nat.not_lt.mpr hb)]; rfl, ?_, ?_⟩
  · simp only [List.length_append, List.length_cons, List.length_nil, List.length_drop]
    omega
  · simp only [List.cons_append, List.nil_append, Uint64_eq_sum, toByte_val,
      Nat.shiftRight_eq_div_pow, Option.some.injEq]
    omega

theorem exists_eight (b : List Byte) (h : 8 ≤ b.length) :
    ∃ b0 b1 b2 b3 b4 b5 b6 b7 t, b = b0 :: b1 :: b2 :: b3 :: b4 :: b5 :: b6 :: b7 :: t := by
  match b, h with
  | b0 :: b1 :: b2 :: b3 :: b4 :: b5 :: b6 :: b7 :: t, _ =>
    exact ⟨b0, b1, b2, b3, b4, b5, b6, b7, t, rfl⟩

theorem Uint64_lt (b : List Byte) (h : 8 ≤ b.length) :
    ∃ v, Uint64 b = some v ∧ v < 2 ^ 64 := by
  obtain ⟨b0, b1, b2, b3, b4, b5, b6, b7, t, rfl⟩ := exists_eight b h
  refine ⟨_, Uint64_eq_sum _ _ _ _ _ _ _ _ _, ?_⟩
  have h0 := b0.isLt
  have h1 := b1.isLt
  have h2 := b2.isLt
  have h3 := b3.isLt
  have h4 := b4.isLt
  have h5 := b5.isLt
  have h6 := b6.isLt
  have h7 := b7.isLt
  omega

theorem Uint64_eq_none (b : List Byte) (h : b.length < 8) : Uint64 b = none := by
  match b, h with
  | [], _ => rfl
  | [_], _ => rfl
  | [_, _], _ => rfl
  | [_, _, _], _ => rfl
  | [_, _, _, _], _ => rfl
  | [_, _, _, _, _], _ => rfl
  | [_, _, _, _, _, _], _ => rfl
  | [_, _, _, _, _, _, _], _ => rfl
  | _ :: _ :: _ :: _ :: _ :: _ :: _ :: _ :: _, h =>
    simp only [List.length_cons] at h
    omega

/-- What one call of `incrementNonce` does to a buffer of at least 24 bytes. -/
theorem incrementNonce_spec (nonce : List Byte) (h : 24 ≤ nonce.length) :
    ∃ v n1, counterOf nonce = some v ∧ v < 2 ^ 64 ∧ incrementNonce nonce = some n1 ∧
      n1.length = nonce.length ∧ n1.take 16 = nonce.take 16 ∧
      counterOf n1 = some ((v + 1) % 2 ^ 64) := by
  have hc : 8 ≤ (nonce.drop 16).length := by rw [List.length_drop]; omega
  obtain ⟨v, hv, hlt⟩ := Uint64_lt _ hc
  obtain ⟨c, hput, hclen, hcv⟩ :=
    Uint64_PutUint64 (nonce.drop 16) ((v + 1) % 2 ^ 64) hc (Nat.mod_lt _ (by decide))
  have h16 : (nonce.take 16).length = 16 := by rw [List.length_take]; omega
  refine ⟨v, nonce.take 16 ++ c, hv, hlt, ?_, ?_, ?_, ?_⟩
  · have : ¬ nonce.length < 16 := by omega
    simp only [incrementNonce, if_neg this, hv, hput]
  · rw [List.length_append, h16, hclen, List.length_drop]; omega
  · rw [List.take_append_of_le_length (by omega), List.take_take]; simp
  · rw [counterOf, List.drop_append_of_le_length (by omega), List.drop_of_length_le (by omega)]
    simpa using hcv

theorem incrementNonceN_succ (i : Nat) (b : List Byte) :
    incrementNonceN (i + 1) b = (incrementNonceN i b).bind incrementNonce := by
  induction i generalizing b with
  | zero => simp [incrementNonceN]
  | succ n ih =>
    show (incrementNonce b).bind (incrementNonceN (n + 1)) = _
    cases h : incrementNonce b with
    | none => simp [incrementNonceN, h]
    | some b1 =>
      have := ih b1
      simp only [incrementNonceN, h, Option.some_bind] at this ⊢
      exact this

/-- What `i` calls of `incrementNonce` do to a buffer of at least 24 bytes. -/
theorem incrementNonceN_spec (b : List Byte) (h : 24 ≤ b.length) :
    ∃ v, counterOf b = some v ∧ v < 2 ^ 64 ∧ ∀ i, ∃ bi, incrementNonceN i b = some bi ∧
      bi.length = b.length ∧ bi.take 16 = b.take 16 ∧
      counterOf bi = some ((v + i) % 2 ^ 64) := by
  obtain ⟨v, _, hv, hlt, _⟩ := incrementNonce_spec b h
  refine ⟨v, hv, hlt, ?_⟩
  intro i
  induction i with
  | zero => exact ⟨b, rfl, rfl, rfl, by rw [hv, Nat.add_zero, Nat.mod_eq_of_lt hlt]⟩
  | succ n ih =>
    obtain ⟨bn, hbn, hlen, htake, hcnt⟩ := ih
    obtain ⟨w, b1, hw, _, hinc, hlen1, htake1, hcnt1⟩ := incrementNonce_spec bn (by omega)
    refine ⟨b1, ?_, by omega, by rw [htake1, htake], ?_⟩
    · rw [incrementNonceN_succ, hbn]; exact hinc
    · rw [hcnt1]
      rw [hcnt] at hw
      have : w = (v + n) % 2 ^ 64 := (Option.some.inj hw).symm
      subst this
      congr 1
      omega

theorem incrementNonceN_chunkNonceAt (base : List Byte) (h : 24 ≤ base.length) (i : Nat) :
    incrementNonceN i base = some (chunkNonceAt base i) := by
  obtain ⟨_, _, _, hi⟩ := incrementNonceN_spec base h
  obtain ⟨bi, hbi, _⟩ := hi i
  simp [chunkNonceAt, hbi]

theorem chunkNonceAt_zero (base : List Byte) : chunkNonceAt base 0 = base := rfl

theorem chunkNonceAt_length (base : List Byte) (h : 24 ≤ base.length) (i : Nat) :
    (chunkNonceAt base i).length = base.length := by
  obtain ⟨_, _, _, hi⟩ := incrementNonceN_spec base h
  obtain ⟨bi, hbi, hlen, _⟩ := hi i
  simp [chunkNonceAt, hbi, hlen]

theorem incrementNonce_chunkNonceAt (base : List Byte) (h : 24 ≤ base.length) (i : Nat) :
    incrementNonce (chunkNonceAt base i) = some (chunkNonceAt base (i + 1)) := by
  have h1 := incrementNonceN_chunkNonceAt base h (i + 1)
  rw [incrementNonceN_succ, incrementNonceN_chunkNonceAt base h i] at h1
  exact h1

theorem counterOf_chunkNonceAt (base : List Byte) (h : 24 ≤ base.length) (v : Nat)
    (hv : counterOf base = some v) (i : Nat) :
    counterOf (chunkNonceAt base i) = some ((v + i) % 2 ^ 64) := by
  obtain ⟨w, hw, _, hi⟩ := incrementNonceN_spec base h
  obtain ⟨bi, hbi, _, _, hcnt⟩ := hi i
  rw [hv] at hw
  have : w = v := (Option.some.inj hw).symm
  subst this
  simp [chunkNonceAt, hbi, hcnt]

/-- Two chunk indices less than `2 ^ 64` apart have different nonces. -/
theorem chunkNonceAt_ne (base : List Byte) (h : 24 ≤ base.length) (i j : Nat) (hij : i < j)
    (hd : j - i < 2 ^ 64) : chunkNonceAt base i ≠ chunkNonceAt base j := by
  obtain ⟨v, hv, _, _⟩ := incrementNonceN_spec base h
  intro heq
  have hi := counterOf_chunkNonceAt base h v hv i
  have hj := counterOf_chunkNonceAt base h v hv j
  rw [heq, hj] at hi
  have := Option.some.inj hi
  omega

/-- The nonces of chunks 0, ..., n - 1 are pairwise different when `n ≤ 2 ^ 64`. -/
theorem chunkNonceAt_nodup (base : List Byte) (hb : 24 ≤ base.length) (n : Nat)
    (hn : n ≤ 2 ^ 64) : ((List.range n).map (chunkNonceAt base)).Nodup := by
  refine (List.nodup_map_iff_inj_on (List.nodup_range n)).mpr ?_
  intro i hi j hj heq
  rw [List.mem_range] at hi hj
  by_contra hne
  rcases Nat.lt_or_gt_of_ne hne with h | h
  · exact chunkNonceAt_ne base hb i j h (by omega) heq
  · exact chunkNonceAt_ne base hb j i h (by omega) heq.symm

/-- The counters of the nonces of chunks 0, 1, 2, ... of a base nonce with counter
`v` are `v`, `v + 1`, ... modulo `2 ^ 64`. -/
theorem counters_of_calls (base : List Byte) (hb : 24 ≤ base.length) (v : Nat)
    (hv : counterOf base = some v) (calls : List (List Byte × List Byte))
    (h : calls.map Prod.fst = (List.range calls.length).map (chunkNonceAt base)) :
    calls.map (fun c => counterOf c.1) =
      (List.range calls.length).map (fun i => some ((v + i) % 2 ^ 64)) := by
  have : calls.map (fun c => counterOf c.1) = (calls.map Prod.fst).map counterOf := by
    rw [List.map_map]; rfl
  rw [this, h, List.map_map]
  refine List.map_congr_left ?_
  intro i _
  exact counterOf_chunkNonceAt _ hb v hv i

/-! ### Slices of a byte string -/

theorem chunksOf_go_nil (size fuel : Nat) : chunksOf.go size fuel [] = [] := by
  cases fuel <;> simp [chunksOf.go]

theorem chunksOf_go_fuel (size : Nat) (hs : 0 < size) :
    ∀ (fuel1 fuel2 : Nat) (p : List Byte), p.length ≤ fuel1 → p.length ≤ fuel2 →
      chunksOf.go size fuel1 p = chunksOf.go size fuel2 p := by
  intro fuel1
  induction fuel1 with
  | zero =>
    intro fuel2 p h1 _
    have : p = [] := List.length_eq_zero.mp (Nat.le_zero.mp h1)
    subst this
    simp [chunksOf_go_nil]
  | succ n ih =>
    intro fuel2 p h1 h2
    cases fuel2 with
    | zero =>
      have : p = [] := List.length_eq_zero.mp (Nat.le_zero.mp h2)
      subst this
      simp [chunksOf_go_nil]
    | succ m =>
      by_cases hp : p = []
      · simp [chunksOf.go, hp]
      · have hlen : 0 < p.length := List.length_pos.mpr hp
        simp only [chunksOf.go, if_neg hp]
        rw [ih m (p.drop size) (by rw [List.length_drop]; omega) (by rw [List.length_drop]; omega)]

theorem chunksOf_nil (size : Nat) : chunksOf size [] = [] := rfl

theorem chunksOf_cons (size : Nat) (hs : 0 < size) (p : List Byte) (hp : p ≠ []) :
    chunksOf size p = p.take size :: chunksOf size (p.drop size) := by
  have hlen : 0 < p.length := List.length_pos.mpr hp
  obtain ⟨n, hn⟩ : ∃ n, p.length = n + 1 := ⟨p.length - 1, by omega⟩
  unfold chunksOf
  rw [hn]
  simp only [chunksOf.go, if_neg hp]
  rw [chunksOf_go_fuel size hs n (p.drop size).length (p.drop size)
    (by rw [List.length_drop]; omega) (Nat.le_refl _)]

/-- Strong induction on a byte string along `drop size`. -/
theorem drop_induction (size : Nat) (hs : 0 < size) (motive : List Byte → Prop)
    (nil : motive [])
    (step : ∀ p, p ≠ [] → motive (p.drop size) → motive p) : ∀ p, motive p := by
  intro p
  generalize hn : p.length = n
  induction n using Nat.strong_induction_on generalizing p with
  | _ n ih =>
    by_cases hp : p = []
    · subst hp; exact nil
    · have hlen : 0 < p.length := List.length_pos.mpr hp
      exact step p hp (ih (p.drop size).length (by rw [List.length_drop]; omega) _ rfl)

theorem flatten_chunksOf (size : Nat) (hs : 0 < size) (p : List Byte) :
    (chunksOf size p).flatten = p := by
  induction p using drop_induction size hs with
  | nil => rfl
  | step p hp ih =>
    rw [chunksOf_cons size hs p hp, List.flatten_cons, ih, List.take_append_drop]

theorem chunksOf_framed (size : Nat) (hs : 0 < size) (p : List Byte) :
    Framed size (chunksOf size p) := by
  induction p using drop_induction size hs with
  | nil => exact trivial
  | step p hp ih =>
    have hlen : 0 < p.length := List.length_pos.mpr hp
    rw [chunksOf_cons size hs p hp]
    by_cases hd : p.drop size = []
    · rw [hd, chunksOf_nil]
      have : p.length ≤ size := by
        have := congrArg List.length hd
        rw [List.length_drop] at this; simp at this; omega
      simp only [Framed, List.length_take]
      omega
    · rw [chunksOf_cons size hs _ hd] at ih ⊢
      have : size < p.length := by
        have := List.length_pos.mpr hd
        rw [List.length_drop] at this; omega
      refine ⟨?_, ih⟩
      rw [List.length_take]; omega

theorem chunksOf_flatten (size : Nat) (hs : 0 < size) :
    ∀ bs : List (List Byte), Framed size bs → chunksOf size bs.flatten = bs
  | [], _ => rfl
  | [c], h => by
    have hc : c ≠ [] := List.length_pos.mp h.1
    simp only [List.flatten_cons, List.flatten_nil, List.append_nil]
    rw [chunksOf_cons size hs c hc, List.take_of_length_le h.2, List.drop_of_length_le h.2,
      chunksOf_nil]
  | c :: d :: rest, h => by
    have ih := chunksOf_flatten size hs (d :: rest) h.2
    have hc : c.length = size := h.1
    have hne : (c :: d :: rest).flatten ≠ [] := by
      intro h0
      have := congrArg List.length h0
      simp only [List.flatten_cons, List.length_append, List.length_nil] at this
      omega
    rw [chunksOf_cons size hs _ hne]
    simp only [List.flatten_cons] at ih ⊢
    rw [List.take_left' hc, List.drop_left' hc, ih]

theorem chunksOf_length_congr (size : Nat) (hs : 0 < size) (x : List Byte) :
    ∀ y : List Byte, y.length = x.length → (chunksOf size y).length = (chunksOf size x).length := by
  induction x using drop_induction size hs with
  | nil =>
    intro y hy
    have : y = [] := List.length_eq_zero.mp hy
    rw [this]
  | step x hx ih =>
    intro y hy
    have hy0 : y ≠ [] := by
      intro h0
      rw [h0] at hy
      exact hx (List.length_eq_zero.mp hy.symm)
    rw [chunksOf_cons size hs x hx, chunksOf_cons size hs y hy0, List.length_cons,
      List.length_cons, ih (y.drop size) (by rw [List.length_drop, List.length_drop, hy])]

theorem Framed_mem (size : Nat) (hs : 0 < size) :
    ∀ cs : List (List Byte), Framed size cs → ∀ c ∈ cs, 0 < c.length ∧ c.length ≤ size
  | [], _, c, hc => by simp at hc
  | [d], h, c, hc => by
    simp only [List.mem_singleton] at hc
    subst hc
    exact h
  | d :: e :: rest, h, c, hc => by
    rcases List.mem_cons.mp hc with rfl | hc
    · have := h.1
      omega
    · exact Framed_mem size hs (e :: rest) h.2 c hc

theorem Framed_dropLast (size : Nat) :
    ∀ cs : List (List Byte), Framed size cs → ∀ c ∈ cs.dropLast, c.length = size
  | [], _, c, hc => by simp at hc
  | [d], _, c, hc => by simp at hc
  | d :: e :: rest, h, c, hc => by
    rw [List.dropLast_cons₂] at hc
    rcases List.mem_cons.mp hc with rfl | hc
    · exact h.1
    · exact Framed_dropLast size (e :: rest) h.2 c hc

theorem take_ne_nil (p : List Byte) (n : Nat) (hn : 0 < n) (hp : p ≠ []) : p.take n ≠ [] := by
  intro h0
  have h1 := congrArg List.length h0
  have h2 := List.length_pos.mpr hp
  simp only [List.length_take, List.length_nil] at h1
  omega

theorem take_flatten_prefix (cs : List (List Byte)) (j : Nat) :
    (cs.take j).flatten <+: cs.flatten := by
  conv => rhs; rw [← List.take_append_drop j cs, List.flatten_append]
  exact List.prefix_append _ _

/-! ### Sources, sinks, the random source and `io.ReadFull` -/

theorem Read_nil (cap : Nat) : Reader.Read [] cap = ([], some Err.EOF, []) := rfl

theorem Read_ofBytes_le (x : List Byte) (cap : Nat) (h : x.length ≤ cap) :
    Reader.Read (Reader.ofBytes x) cap = (x, none, []) := by
  simp [Reader.Read, Reader.ofBytes, h]

theorem Read_ofBytes_gt (x : List Byte) (cap : Nat) (h : cap < x.length) :
    Reader.Read (Reader.ofBytes x) cap = (x.take cap, none, Reader.ofBytes (x.drop cap)) := by
  simp [Reader.Read, Reader.ofBytes, Nat.not_le.mpr h]

/-- One `Read`: the bytes delivered are the next bytes the source holds and fit
the buffer. -/
theorem Read_bytes (r : Reader) (cap : Nat) :
    (Reader.Read r cap).1 ++ Reader.bytes (Reader.Read r cap).2.2 = Reader.bytes r ∧
    (Reader.Read r cap).1.length ≤ cap := by
  cases r with
  | nil => simp [Reader.Read, Reader.bytes]
  | cons e rest =>
    by_cases h : e.data.length ≤ cap
    · simp [Reader.Read, Reader.bytes, h]
    · simp only [Reader.Read, if_neg h, Reader.bytes, List.map_cons, List.flatten_cons,
        List.length_take]
      exact ⟨by rw [← List.append_assoc, List.take_append_drop], Nat.min_le_left _ _⟩

/-- One `Read` of a source whose only error is end of input. -/
theorem Read_clean (r : Reader) (cap : Nat)
    (h : ∀ e ∈ r, e.err = none ∨ e.err = some Err.EOF) :
    ((Reader.Read r cap).2.1 = none ∨ (Reader.Read r cap).2.1 = some Err.EOF) ∧
    (∀ e ∈ (Reader.Read r cap).2.2, e.err = none ∨ e.err = some Err.EOF) := by
  cases r with
  | nil => simp [Reader.Read]
  | cons e rest =>
    have he := h e (List.mem_cons_self _ _)
    have hrest : ∀ e1 ∈ rest, e1.err = none ∨ e1.err = some Err.EOF :=
      fun e1 h1 => h e1 (List.mem_cons_of_mem _ h1)
    by_cases hle : e.data.length ≤ cap
    · simp only [Reader.Read, if_pos hle]
      exact ⟨he, hrest⟩
    · simp only [Reader.Read, if_neg hle]
      refine ⟨Or.inl trivial, ?_⟩
      intro e1 h1
      rcases List.mem_cons.mp h1 with rfl | h1
      · exact he
      · exact hrest e1 h1

/-- A `Read` into a non-empty buffer that reports no error uses up fuel. -/
theorem Read_fuel (r : Reader) (cap : Nat) (hcap : 0 < cap)
    (h : (Reader.Read r cap).2.1 = none) :
    Reader.fuel (Reader.Read r cap).2.2 < Reader.fuel r := by
  cases r with
  | nil => simp [Reader.Read] at h
  | cons e rest =>
    by_cases hle : e.data.length ≤ cap
    · simp only [Reader.Read, if_pos hle, Reader.fuel, List.map_cons, List.sum_cons]
      omega
    · simp only [Reader.Read, if_neg hle, Reader.fuel, List.map_cons, List.sum_cons,
        List.length_drop]
      omega

theorem fuel_ofBytes (x : List Byte) : Reader.fuel (Reader.ofBytes x) = x.length + 2 := by
  simp [Reader.fuel, Reader.ofBytes]

theorem fuel_nil : Reader.fuel [] = 1 := rfl

theorem fuel_ge_length (inp : Reader) : inp.length + 1 ≤ Reader.fuel inp := by
  unfold Reader.fuel
  induction inp with
  | nil => simp
  | cons e rest ih => simp only [List.map_cons, List.sum_cons, List.length_cons] at ih ⊢; omega

theorem Write_none (w : Writer) (p : List Byte) (h : (w.Write p).2 = none) :
    (w.Write p).1.data = w.data ++ p := by
  unfold Writer.Write at h ⊢
  split <;> simp_all

theorem Write_new (d p : List Byte) : Writer.Write ⟨d, []⟩ p = (⟨d ++ p, []⟩, none) := rfl

theorem Rand_Read_length (g : Rand) (n : Nat) : (g.Read n).1.length = n := by
  unfold Rand.Read
  split <;> simp

theorem drawnSalt_length (rnd : Rand) : (drawnSalt rnd).length = 32 := Rand_Read_length _ _

theorem drawnNonce_length (rnd : Rand) : (drawnNonce rnd).length = 24 := Rand_Read_length _ _

theorem copy_replicate (n : Nat) (src : List Byte) (h : src.length = n) :
    copy (List.replicate n 0) src = src := by
  subst h
  simp [copy]

theorem copy_length (n : Nat) (src : List Byte) :
    (copy (List.replicate n 0) src).length = n := by
  simp only [copy, List.length_append, List.length_take, List.length_drop,
    List.length_replicate]
  omega

theorem ReadFull_loop_succ (bufLen fuel : Nat) (r : Reader) (acc : List Byte) (err : Option Err) :
    ReadFull.loop bufLen (fuel + 1) r acc err =
      if acc.length < bufLen ∧ err = none then
        ReadFull.loop bufLen fuel (Reader.Read r (bufLen - acc.length)).2.2
          (acc ++ (Reader.Read r (bufLen - acc.length)).1) (Reader.Read r (bufLen - acc.length)).2.1
      else some (acc, err, r) := rfl

/-- `io.ReadFull` on a source read in full buffers that holds enough bytes. -/
theorem ReadFull_ofBytes_ge (x : List Byte) (n : Nat) (hn : 0 < n) (h : n ≤ x.length) :
    ReadFull (Reader.ofBytes x) n =
      some (x.take n, none, if x.length = n then [] else Reader.ofBytes (x.drop n)) := by
  have hacc : (x.take n).length = n := by rw [List.length_take]; omega
  unfold ReadFull
  rw [fuel_ofBytes, ReadFull_loop_succ, if_pos ⟨by simpa using hn, rfl⟩]
  simp only [List.length_nil, Nat.sub_zero, List.nil_append]
  by_cases he : x.length = n
  · subst he
    rw [Read_ofBytes_le x _ (Nat.le_refl _), ReadFull_loop_succ, if_neg (by simp)]
    simp only [ge_iff_le, le_refl, if_true, List.take_length]
    rw [copy_replicate _ _ rfl]
  · rw [Read_ofBytes_gt x n (by omega), ReadFull_loop_succ,
      if_neg (by simp only [hacc]; omega)]
    simp only [hacc, ge_iff_le, le_refl, if_true, if_neg he]
    rw [copy_replicate _ _ hacc]

/-- `io.ReadFull` on a source read in full buffers that holds too few bytes:
`io.EOF` if it holds none, `io.ErrUnexpectedEOF` otherwise. -/
theorem ReadFull_ofBytes_lt (x : List Byte) (n : Nat) (h : x.length < n) :
    ∃ buf, ReadFull (Reader.ofBytes x) n =
      some (buf, some (if x = [] then Err.EOF else Err.ErrUnexpectedEOF), []) := by
  unfold ReadFull
  rw [fuel_ofBytes, ReadFull_loop_succ, if_pos ⟨by simp only [List.length_nil]; omega, rfl⟩]
  simp only [List.length_nil, Nat.sub_zero, List.nil_append]
  rw [Read_ofBytes_le x n (by omega), ReadFull_loop_succ, if_pos ⟨h, rfl⟩, Read_nil,
    ReadFull_loop_succ, if_neg (by simp)]
  simp only [List.append_nil, ge_iff_le, if_neg (Nat.not_le.mpr h)]
  by_cases hx : x = []
  · subst hx; exact ⟨copy (List.replicate n 0) [], by simp⟩
  · have : 0 < x.length := List.length_pos.mpr hx
    exact ⟨copy (List.replicate n 0) x, by simp [hx, this]⟩

/-- `io.ReadFull` on a source that is used up. -/
theorem ReadFull_nil (n : Nat) (hn : 0 < n) :
    ∃ buf, ReadFull [] n = some (buf, some Err.EOF, []) := by
  unfold ReadFull
  rw [fuel_nil, ReadFull_loop_succ, if_pos ⟨by simpa using hn, rfl⟩, Read_nil,
    ReadFull_loop_succ, if_neg (by simp)]
  simp only [List.append_nil, List.length_nil, ge_iff_le]
  exact ⟨copy (List.replicate n 0) [], by simp [Nat.not_le.mpr hn]⟩

/-- The loop of `io.ReadFull` on a source whose only error is end of input ends,
keeps the bytes in order, and ends without error only with a full buffer. -/
theorem ReadFull_loop_clean (bufLen : Nat) :
    ∀ (fuel : Nat) (r : Reader) (acc : List Byte) (err : Option Err),
      (∀ e ∈ r, e.err = none ∨ e.err = some Err.EOF) →
      (err = none ∨ err = some Err.EOF) →
      acc.length ≤ bufLen →
      (err = none → Reader.fuel r + 1 ≤ fuel) → 1 ≤ fuel →
      ∃ acc1 err1 r1, ReadFull.loop bufLen fuel r acc err = some (acc1, err1, r1) ∧
        acc1 ++ Reader.bytes r1 = acc ++ Reader.bytes r ∧ acc1.length ≤ bufLen ∧
        (err1 = none → acc1.length = bufLen) ∧ (err1 = none ∨ err1 = some Err.EOF) ∧
        (∀ e ∈ r1, e.err = none ∨ e.err = some Err.EOF) := by
  intro fuel
  induction fuel with
  | zero => intro r acc err _ _ _ _ h; omega
  | succ n ih =>
    intro r acc err hr herr hacc hfuel _
    rw [ReadFull_loop_succ]
    by_cases hc : acc.length < bufLen ∧ err = none
    · rw [if_pos hc]
      obtain ⟨hlt, he⟩ := hc
      have hb := Read_bytes r (bufLen - acc.length)
      have hcl := Read_clean r (bufLen - acc.length) hr
      have hfu := Read_fuel r (bufLen - acc.length) (by omega)
      have hf := hfuel he
      obtain ⟨acc1, err1, r1, hloop, hbytes, hlen, hnone, herr1, hr1⟩ :=
        ih (Reader.Read r (bufLen - acc.length)).2.2
          (acc ++ (Reader.Read r (bufLen - acc.length)).1)
          (Reader.Read r (bufLen - acc.length)).2.1 hcl.2 hcl.1
          (by rw [List.length_append]; omega)
          (fun h0 => by have := hfu h0; omega)
          (by unfold Reader.fuel at hf; omega)
      refine ⟨acc1, err1, r1, hloop, ?_, hlen, hnone, herr1, hr1⟩
      rw [hbytes, List.append_assoc, hb.1]
    · rw [if_neg hc]
      refine ⟨acc, err, r, rfl, rfl, hacc, ?_, herr, hr⟩
      intro h0
      have : ¬ acc.length < bufLen := fun h1 => hc ⟨h1, h0⟩
      omega

/-- `io.ReadFull` on a source whose only error is end of input: either the
buffer is filled, or the source held too few bytes and the error is `io.EOF` or
`io.ErrUnexpectedEOF`. -/
theorem ReadFull_clean (r : Reader) (bufLen : Nat)
    (hr : ∀ e ∈ r, e.err = none ∨ e.err = some Err.EOF) :
    (∃ buf r1, ReadFull r bufLen = some (buf, none, r1) ∧
      bufLen + (Reader.bytes r1).length = (Reader.bytes r).length ∧
      (∀ e ∈ r1, e.err = none ∨ e.err = some Err.EOF)) ∨
    (∃ buf err r1, ReadFull r bufLen = some (buf, some err, r1) ∧
      (err = Err.EOF ∨ err = Err.ErrUnexpectedEOF)) := by
  obtain ⟨acc1, err1, r1, hloop, hbytes, hlen, hnone, herr1, hr1⟩ :=
    ReadFull_loop_clean bufLen (Reader.fuel r + 1) r [] none hr (Or.inl rfl) (Nat.zero_le _)
      (fun _ => Nat.le_refl _) (by omega)
  have hb := congrArg List.length hbytes
  simp only [List.length_append, List.length_nil, Nat.zero_add] at hb
  unfold ReadFull
  rw [hloop]
  dsimp only
  by_cases hfull : acc1.length ≥ bufLen
  · rw [if_pos hfull]
    exact Or.inl ⟨_, r1, rfl, by omega, hr1⟩
  · rw [if_neg hfull]
    have hne : err1 ≠ none := fun h0 => hfull (by rw [hnone h0])
    have he : err1 = some Err.EOF := by
      rcases herr1 with h0 | h0
      · exact absurd h0 hne
      · exact h0
    right
    subst he
    by_cases hpos : acc1.length > 0
    · exact ⟨copy (List.replicate bufLen 0) acc1, Err.ErrUnexpectedEOF, r1, by simp [hpos],
        Or.inr rfl⟩
    · exact ⟨copy (List.replicate bufLen 0) acc1, Err.EOF, r1, by simp [hpos], Or.inl rfl⟩

theorem ReadFull_length (r : Reader) (n : Nat) (buf : List Byte) (err : Option Err)
    (r1 : Reader) (h : ReadFull r n = some (buf, err, r1)) : buf.length = n := by
  unfold ReadFull at h
  split at h
  · cases h
  · dsimp only at h
    split at h
    · injection h with h; injection h with h; rw [← h]; exact copy_length _ _
    · split at h
      · injection h with h; injection h with h; rw [← h]; exact copy_length _ _
      · injection h with h; injection h with h; rw [← h]; exact copy_length _ _

/-- The loop of `io.ReadFull` ends within the fuel `ReadFull` gives it. -/
theorem ReadFull_loop_total (bufLen : Nat) :
    ∀ (fuel : Nat) (r : Reader) (acc : List Byte) (err : Option Err),
      (err = none → Reader.fuel r + 1 ≤ fuel) → 1 ≤ fuel →
      ∃ res, ReadFull.loop bufLen fuel r acc err = some res := by
  intro fuel
  induction fuel with
  | zero => intro r acc err _ h; omega
  | succ n ih =>
    intro r acc err hfuel _
    rw [ReadFull_loop_succ]
    by_cases hc : acc.length < bufLen ∧ err = none
    · rw [if_pos hc]
      have hfu := Read_fuel r (bufLen - acc.length) (by omega)
      have hf := hfuel hc.2
      exact ih _ _ _ (fun h0 => by have := hfu h0; omega) (by unfold Reader.fuel at hf; omega)
    · rw [if_neg hc]
      exact ⟨_, rfl⟩

/-- `io.ReadFull` returns, with a buffer of the length asked for. -/
theorem ReadFull_total (r : Reader) (n : Nat) :
    ∃ buf err r1, ReadFull r n = some (buf, err, r1) ∧ buf.length = n := by
  obtain ⟨⟨acc, err, r1⟩, h⟩ := ReadFull_loop_total n (Reader.fuel r + 1) r [] none
    (fun _ => Nat.le_refl _) (by omega)
  have : ∃ res, ReadFull r n = some res := by
    unfold ReadFull
    rw [h]
    dsimp only
    split
    · exact ⟨_, rfl⟩
    · split
      · exact ⟨_, rfl⟩
      · exact ⟨_, rfl⟩
  obtain ⟨⟨buf, err1, r2⟩, hres⟩ := this
  exact ⟨buf, err1, r2, hres, ReadFull_length _ _ _ _ _ hres⟩

theorem NewX_ok (key aead : List Byte) (h : NewX key = .ok aead) :
    aead = key ∧ key.length = 32 := by
  unfold NewX at h
  split at h
  · cases h
  · rename_i hk
    simp only [KeySize, ne_eq, Decidable.not_not] at hk
    injection h with h
    exact ⟨h.symm, hk⟩

theorem NewX_of_length (key : List Byte) (h : key.length = 32) : NewX key = .ok key := by
  simp [NewX, KeySize, h]

/-! ### The chunk loops -/

theorem ChunkSize_pos : 0 < ChunkSize := by decide

theorem encryptLoop_succ (L : CryptoLib) (aead : List Byte) (fuel : Nat) (s : State) :
    encryptLoop L aead (fuel + 1) s =
      match encryptChunk L aead ⟨(Reader.Read s.inp ChunkSize).2.2, s.out, s.chunkNonce, s.calls⟩
          (Reader.Read s.inp ChunkSize).1 with
      | .error r => r
      | .ok s1 =>
        match (Reader.Read s.inp ChunkSize).2.1 with
        | some err =>
          if err = Err.EOF then s1.finish (.returned none)
          else s1.finish (.returned (some err))
        | none => encryptLoop L aead fuel s1 := rfl

theorem decryptLoop_succ (L : CryptoLib) (aead : List Byte) (cap fuel : Nat) (s : State) :
    decryptLoop L aead cap (fuel + 1) s =
      match decryptChunk L aead ⟨(Reader.Read s.inp cap).2.2, s.out, s.chunkNonce, s.calls⟩
          (Reader.Read s.inp cap).1 with
      | .error r => r
      | .ok s1 =>
        match (Reader.Read s.inp cap).2.1 with
        | some err =>
          if err = Err.EOF then s1.finish (.returned none)
          else s1.finish (.returned (some err))
        | none => decryptLoop L aead cap fuel s1 := rfl

theorem encryptChunk_nil (L : CryptoLib) (aead : List Byte) (s : State) :
    encryptChunk L aead s [] = .ok s := rfl

theorem decryptChunk_nil (L : CryptoLib) (aead : List Byte) (s : State) :
    decryptChunk L aead s [] = .ok s := rfl

/-- The two ways the block `if n > 0` of the encrypt loop ends for a non-empty
read and a nonce of 24 bytes: the write fails and the call returns its error, or
the chunk is written whole and the nonce advanced. -/
theorem encryptChunk_cases (L : CryptoLib) (aead base : List Byte) (hb : 24 ≤ base.length)
    (inp : Reader) (out : Writer) (k : Nat) (calls : List (List Byte × List Byte))
    (data : List Byte) (hd : data ≠ []) :
    (∃ err out1, out.Write (L.Seal aead (chunkNonceAt base k) data []) = (out1, some err) ∧
      encryptChunk L aead ⟨inp, out, chunkNonceAt base k, calls⟩ data =
        .error ⟨.returned (some err), inp, out1, chunkNonceAt base k,
          calls ++ [(chunkNonceAt base k, data)]⟩) ∨
    (∃ out1, out.Write (L.Seal aead (chunkNonceAt base k) data []) = (out1, none) ∧
      encryptChunk L aead ⟨inp, out, chunkNonceAt base k, calls⟩ data =
        .ok ⟨inp, out1, chunkNonceAt base (k + 1), calls ++ [(chunkNonceAt base k, data)]⟩) := by
  have hlen : data.length > 0 := List.length_pos.mpr hd
  have hinc := incrementNonce_chunkNonceAt base hb k
  rcases hw : out.Write (L.Seal aead (chunkNonceAt base k) data []) with ⟨out1, _ | err⟩
  · right
    exact ⟨out1, rfl, by simp only [encryptChunk, if_pos hlen, hw, hinc]⟩
  · left
    exact ⟨err, out1, rfl, by simp only [encryptChunk, if_pos hlen, hw]⟩

/-- The three ways the block `if n > 0` of the decrypt loop ends for a non-empty
read and a nonce of 24 bytes: `Open` fails and the call returns the
authentication error, the write fails and the call returns its error, or the
plaintext is written whole and the nonce advanced. -/
theorem decryptChunk_cases (L : CryptoLib) (aead base : List Byte) (hb : 24 ≤ base.length)
    (inp : Reader) (out : Writer) (k : Nat) (calls : List (List Byte × List Byte))
    (data : List Byte) (hd : data ≠ []) :
    (L.Open aead (chunkNonceAt base k) data [] = none ∧
      decryptChunk L aead ⟨inp, out, chunkNonceAt base k, calls⟩ data =
        .error ⟨.returned (some authError), inp, out, chunkNonceAt base k,
          calls ++ [(chunkNonceAt base k, data)]⟩) ∨
    (∃ p err out1, L.Open aead (chunkNonceAt base k) data [] = some p ∧
      out.Write p = (out1, some err) ∧
      decryptChunk L aead ⟨inp, out, chunkNonceAt base k, calls⟩ data =
        .error ⟨.returned (some err), inp, out1, chunkNonceAt base k,
          calls ++ [(chunkNonceAt base k, data)]⟩) ∨
    (∃ p out1, L.Open aead (chunkNonceAt base k) data [] = some p ∧
      out.Write p = (out1, none) ∧
      decryptChunk L aead ⟨inp, out, chunkNonceAt base k, calls⟩ data =
        .ok ⟨inp, out1, chunkNonceAt base (k + 1), calls ++ [(chunkNonceAt base k, data)]⟩) := by
  have hlen : data.length > 0 := List.length_pos.mpr hd
  have hinc := incrementNonce_chunkNonceAt base hb k
  rcases ho : L.Open aead (chunkNonceAt base k) data [] with _ | p
  · left
    exact ⟨rfl, by simp only [decryptChunk, if_pos hlen, ho]⟩
  · right
    rcases hw : out.Write p with ⟨out1, _ | err⟩
    · right
      exact ⟨p, out1, rfl, hw, by simp only [decryptChunk, if_pos hlen, ho, hw, hinc]⟩
    · left
      exact ⟨p, err, out1, rfl, hw, by simp only [decryptChunk, if_pos hlen, ho, hw]⟩

/-- The block `if n > 0` of the decrypt loop for a non-empty read, a nonce of 24
bytes and a sink that takes every write. -/
theorem decryptChunk_new (L : CryptoLib) (aead base : List Byte) (hb : 24 ≤ base.length)
    (inp : Reader) (d : List Byte) (k : Nat) (calls : List (List Byte × List Byte))
    (data : List Byte) (hd : data ≠ []) :
    decryptChunk L aead ⟨inp, ⟨d, []⟩, chunkNonceAt base k, calls⟩ data =
      match L.Open aead (chunkNonceAt base k) data [] with
      | none => .error ⟨.returned (some authError), inp, ⟨d, []⟩, chunkNonceAt base k,
          calls ++ [(chunkNonceAt base k, data)]⟩
      | some p => .ok ⟨inp, ⟨d ++ p, []⟩, chunkNonceAt base (k + 1),
          calls ++ [(chunkNonceAt base k, data)]⟩ := by
  have hlen : data.length > 0 := List.length_pos.mpr hd
  have hinc := incrementNonce_chunkNonceAt base hb k
  simp only [decryptChunk, if_pos hlen]
  cases L.Open aead (chunkNonceAt base k) data [] with
  | none => rfl
  | some p => simp only [Write_new, hinc]

theorem encryptLoop_nil (L : CryptoLib) (aead : List Byte) (fuel : Nat) (s : State)
    (h : s.inp = []) :
    encryptLoop L aead (fuel + 1) s = s.finish (.returned none) := by
  rw [encryptLoop_succ, h, Read_nil]
  simp only [encryptChunk_nil]
  cases s
  simp_all [State.finish]

theorem decryptLoop_nil (L : CryptoLib) (aead : List Byte) (cap fuel : Nat) (s : State)
    (h : s.inp = []) :
    decryptLoop L aead cap (fuel + 1) s = s.finish (.returned none) := by
  rw [decryptLoop_succ, h, Read_nil]
  simp only [decryptChunk_nil]
  cases s
  simp_all [State.finish]

/-- The encrypt loop returns: with the fuel `encryptStream` gives it, it neither
runs out of fuel nor panics. -/
theorem encryptLoop_returned (L : CryptoLib) (aead base : List Byte) (hb : 24 ≤ base.length) :
    ∀ (fuel : Nat) (inp : Reader) (out : Writer) (k : Nat)
      (calls : List (List Byte × List Byte)), Reader.fuel inp ≤ fuel →
      ∃ err, (encryptLoop L aead fuel ⟨inp, out, chunkNonceAt base k, calls⟩).ret =
        .returned err := by
  intro fuel
  induction fuel with
  | zero => intro inp _ _ _ h; unfold Reader.fuel at h; omega
  | succ n ih =>
    intro inp out k calls hf
    rw [encryptLoop_succ]
    dsimp only
    have hfu := Read_fuel inp ChunkSize ChunkSize_pos
    by_cases hd : (Reader.Read inp ChunkSize).1 = []
    · rw [hd, encryptChunk_nil]
      dsimp only
      rcases hr : (Reader.Read inp ChunkSize).2.1 with _ | err
      · exact ih _ out k calls (by have := hfu hr; omega)
      · dsimp only
        split
        · exact ⟨_, rfl⟩
        · exact ⟨_, rfl⟩
    · rcases encryptChunk_cases L aead base hb (Reader.Read inp ChunkSize).2.2 out k calls _ hd
        with ⟨err, out1, _, hc⟩ | ⟨out1, _, hc⟩
      · rw [hc]
        exact ⟨_, rfl⟩
      · rw [hc]
        dsimp only
        rcases hr : (Reader.Read inp ChunkSize).2.1 with _ | err
        · exact ih _ out1 (k + 1) _ (by have := hfu hr; omega)
        · dsimp only
          split
          · exact ⟨_, rfl⟩
          · exact ⟨_, rfl⟩

/-- The decrypt loop returns: with the fuel `decryptStream` gives it, it neither
runs out of fuel nor panics. -/
theorem decryptLoop_returned (L : CryptoLib) (aead base : List Byte) (hb : 24 ≤ base.length)
    (cap : Nat) (hcap : 0 < cap) :
    ∀ (fuel : Nat) (inp : Reader) (out : Writer) (k : Nat)
      (calls : List (List Byte × List Byte)), Reader.fuel inp ≤ fuel →
      ∃ err, (decryptLoop L aead cap fuel ⟨inp, out, chunkNonceAt base k, calls⟩).ret =
        .returned err := by
  intro fuel
  induction fuel with
  | zero => intro inp _ _ _ h; unfold Reader.fuel at h; omega
  | succ n ih =>
    intro inp out k calls hf
    rw [decryptLoop_succ]
    dsimp only
    have hfu := Read_fuel inp cap hcap
    by_cases hd : (Reader.Read inp cap).1 = []
    · rw [hd, decryptChunk_nil]
      dsimp only
      rcases hr : (Reader.Read inp cap).2.1 with _ | err
      · exact ih _ out k calls (by have := hfu hr; omega)
      · dsimp only
        split
        · exact ⟨_, rfl⟩
        · exact ⟨_, rfl⟩
    · rcases decryptChunk_cases L aead base hb (Reader.Read inp cap).2.2 out k calls _ hd
        with ⟨_, hc⟩ | ⟨p, err, out1, _, _, hc⟩ | ⟨p, out1, _, _, hc⟩
      · rw [hc]
        exact ⟨_, rfl⟩
      · rw [hc]
        exact ⟨_, rfl⟩
      · rw [hc]
        dsimp only
        rcases hr : (Reader.Read inp cap).2.1 with _ | err
        · exact ih _ out1 (k + 1) _ (by have := hfu hr; omega)
        · dsimp only
          split
          · exact ⟨_, rfl⟩
          · exact ⟨_, rfl⟩

/-- The nonces of the `Seal` calls of the encrypt loop are the nonces of chunks
0, 1, 2, ... in this order. -/
theorem encryptLoop_calls (L : CryptoLib) (aead base : List Byte) (hb : 24 ≤ base.length) :
    ∀ (fuel : Nat) (inp : Reader) (out : Writer) (k : Nat)
      (calls : List (List Byte × List Byte)),
      calls.map Prod.fst = (List.range k).map (chunkNonceAt base) →
      (encryptLoop L aead fuel ⟨inp, out, chunkNonceAt base k, calls⟩).calls.map Prod.fst =
        (List.range (encryptLoop L aead fuel ⟨inp, out, chunkNonceAt base k, calls⟩).calls.length).map
          (chunkNonceAt base) := by
  intro fuel
  induction fuel with
  | zero =>
    intro inp out k calls h
    have hl : calls.length = k := by simpa using congrArg List.length h
    simp only [encryptLoop, State.finish, hl, h]
  | succ n ih =>
    intro inp out k calls h
    have hl : calls.length = k := by simpa using congrArg List.length h
    have hnext : (calls ++ [(chunkNonceAt base k, (Reader.Read inp ChunkSize).1)]).map Prod.fst =
        (List.range (k + 1)).map (chunkNonceAt base) := by
      rw [List.map_append, h, List.range_succ, List.map_append]
      rfl
    rw [encryptLoop_succ]
    dsimp only
    by_cases hd : (Reader.Read inp ChunkSize).1 = []
    · rw [hd, encryptChunk_nil]
      dsimp only
      rcases (Reader.Read inp ChunkSize).2.1 with _ | err
      · exact ih _ out k calls h
      · dsimp only
        split <;> simp only [State.finish, hl, h]
    · rcases encryptChunk_cases L aead base hb (Reader.Read inp ChunkSize).2.2 out k calls _ hd
        with ⟨err, out1, _, hc⟩ | ⟨out1, _, hc⟩
      · rw [hc]
        dsimp only
        rw [hnext, List.length_append, hl]
        rfl
      · rw [hc]
        dsimp only
        rcases (Reader.Read inp ChunkSize).2.1 with _ | err
        · exact ih _ out1 (k + 1) _ hnext
        · dsimp only
          split <;> simp only [State.finish, hnext, List.length_append, hl] <;> rfl

/-- The nonces of the `Open` calls of the decrypt loop are the nonces of chunks
0, 1, 2, ... in this order. -/
theorem decryptLoop_calls (L : CryptoLib) (aead base : List Byte) (hb : 24 ≤ base.length)
    (cap : Nat) :
    ∀ (fuel : Nat) (inp : Reader) (out : Writer) (k : Nat)
      (calls : List (List Byte × List Byte)),
      calls.map Prod.fst = (List.range k).map (chunkNonceAt base) →
      (decryptLoop L aead cap fuel ⟨inp, out, chunkNonceAt base k, calls⟩).calls.map Prod.fst =
        (List.range
          (decryptLoop L aead cap fuel ⟨inp, out, chunkNonceAt base k, calls⟩).calls.length).map
          (chunkNonceAt base) := by
  intro fuel
  induction fuel with
  | zero =>
    intro inp out k calls h
    have hl : calls.length = k := by simpa using congrArg List.length h
    simp only [decryptLoop, State.finish, hl, h]
  | succ n ih =>
    intro inp out k calls h
    have hl : calls.length = k := by simpa using congrArg List.length h
    have hnext : (calls ++ [(chunkNonceAt base k, (Reader.Read inp cap).1)]).map Prod.fst =
        (List.range (k + 1)).map (chunkNonceAt base) := by
      rw [List.map_append, h, List.range_succ, List.map_append]
      rfl
    rw [decryptLoop_succ]
    dsimp only
    by_cases hd : (Reader.Read inp cap).1 = []
    · rw [hd, decryptChunk_nil]
      dsimp only
      rcases (Reader.Read inp cap).2.1 with _ | err
      · exact ih _ out k calls h
      · dsimp only
        split <;> simp only [State.finish, hl, h]
    · rcases decryptChunk_cases L aead base hb (Reader.Read inp cap).2.2 out k calls _ hd
        with ⟨_, hc⟩ | ⟨p, err, out1, _, _, hc⟩ | ⟨p, out1, _, _, hc⟩
      · rw [hc]
        dsimp only
        rw [hnext, List.length_append, hl]
        rfl
      · rw [hc]
        dsimp only
        rw [hnext, List.length_append, hl]
        rfl
      · rw [hc]
        dsimp only
        rcases (Reader.Read inp cap).2.1 with _ | err
        · exact ih _ out1 (k + 1) _ hnext
        · dsimp only
          split <;> simp only [State.finish, hnext, List.length_append, hl] <;> rfl

/-- The encrypt loop on a source that delivers no byte and no error other than
end of input: it returns `nil`, writes nothing and seals nothing. -/
theorem encryptLoop_empty (L : CryptoLib) (aead : List Byte) :
    ∀ (inp : Reader), (∀ e ∈ inp, e.data = [] ∧ (e.err = none ∨ e.err = some Err.EOF)) →
      ∀ (fuel : Nat) (out : Writer) (cn : List Byte) (calls : List (List Byte × List Byte)),
        inp.length + 1 ≤ fuel →
        (encryptLoop L aead fuel ⟨inp, out, cn, calls⟩).ret = .returned none ∧
        (encryptLoop L aead fuel ⟨inp, out, cn, calls⟩).out = out ∧
        (encryptLoop L aead fuel ⟨inp, out, cn, calls⟩).calls = calls := by
  intro inp
  induction inp with
  | nil =>
    intro _ fuel out cn calls hf
    obtain ⟨m, rfl⟩ : ∃ m, fuel = m + 1 := ⟨fuel - 1, by simp at hf; omega⟩
    rw [encryptLoop_nil _ _ _ _ rfl]
    exact ⟨rfl, rfl, rfl⟩
  | cons e rest ih =>
    intro he fuel out cn calls hf
    obtain ⟨m, rfl⟩ : ∃ m, fuel = m + 1 := ⟨fuel - 1, by simp at hf; omega⟩
    obtain ⟨hdata, herr⟩ := he e (List.mem_cons_self _ _)
    have hread : Reader.Read (e :: rest) ChunkSize = ([], e.err, rest) := by
      simp [Reader.Read, hdata]
    rw [encryptLoop_succ]
    simp only [hread, encryptChunk_nil]
    rcases herr with h0 | h0
    · rw [h0]
      exact ih (fun e he1 => he e (List.mem_cons_of_mem _ he1)) m out cn calls
        (by simp only [List.length_cons] at hf; omega)
    · rw [h0]
      simp [State.finish]

/-- The decrypt loop, with a cipher that refuses what is shorter than its tag and a
sink that takes every write, returns the authentication error when a read of 1 to
15 bytes is ahead. -/
theorem decryptLoop_short (L : CryptoLib)
    (hshort : ∀ k n c, c.length < 16 → L.Open k n c [] = none)
    (aead base : List Byte) (hb : 24 ≤ base.length) (cap : Nat) (hcap : 0 < cap)
    (r : Reader) (h : ShortReadAhead cap r) :
    ∀ (fuel : Nat) (d : List Byte) (k : Nat) (calls : List (List Byte × List Byte)),
      Reader.fuel r ≤ fuel →
      (decryptLoop L aead cap fuel ⟨r, ⟨d, []⟩, chunkNonceAt base k, calls⟩).ret =
        .returned (some authError) := by
  induction h with
  | here r h1 h15 =>
    intro fuel d k calls hf
    obtain ⟨m, rfl⟩ : ∃ m, fuel = m + 1 := ⟨fuel - 1, by unfold Reader.fuel at hf; omega⟩
    have hne : (Reader.Read r cap).1 ≠ [] := List.length_pos.mp h1
    rw [decryptLoop_succ]
    dsimp only
    rw [decryptChunk_new L aead base hb _ _ _ _ _ hne, hshort _ _ _ (by omega)]
  | later r hnone _ ih =>
    intro fuel d k calls hf
    obtain ⟨m, rfl⟩ : ∃ m, fuel = m + 1 := ⟨fuel - 1, by unfold Reader.fuel at hf; omega⟩
    have hfu := Read_fuel r cap hcap hnone
    rw [decryptLoop_succ]
    dsimp only
    by_cases hd : (Reader.Read r cap).1 = []
    · rw [hd, decryptChunk_nil, hnone]
      exact ih m d k calls (by omega)
    · rw [decryptChunk_new L aead base hb _ _ _ _ _ hd]
      rcases L.Open aead (chunkNonceAt base k) (Reader.Read r cap).1 [] with _ | p
      · rfl
      · dsimp only
        rw [hnone]
        exact ih m (d ++ p) (k + 1) _ (by omega)

/-! ### The stream functions on every source and sink -/

/-- `encryptStream` either returns before its loop, with nothing sealed, or runs
the loop from the drawn nonce. -/
theorem encryptStream_cases (L : CryptoLib) (rnd : Rand) (inp : Reader) (out : Writer)
    (w : List Byte) :
    (∃ err out1, encryptStream L rnd inp out w = ⟨.returned (some err), inp, out1, [], []⟩) ∨
    (∃ aead out2, encryptStream L rnd inp out w =
      encryptLoop L aead (Reader.fuel inp) ⟨inp, out2, drawnNonce rnd, []⟩) := by
  have hn := drawnNonce_length rnd
  unfold encryptStream
  unfold drawnNonce at *
  rcases h1 : rnd.Read SaltSize with ⟨salt, _ | e1, rnd1⟩
  · rw [h1] at hn
    dsimp only at hn ⊢
    rcases h2 : rnd1.Read NonceSize with ⟨nonce, _ | e2, rnd2⟩
    · rw [h2] at hn
      dsimp only at hn ⊢
      rcases h3 : out.Write salt with ⟨out1, _ | e3⟩
      · dsimp only
        rcases h4 : out1.Write nonce with ⟨out2, _ | e4⟩
        · dsimp only
          rcases h5 : NewX (L.IDKey w salt 1 (64 * 1024) 4 32) with e5 | aead
          · exact Or.inl ⟨e5, out2, rfl⟩
          · dsimp only
            rw [copy_replicate NonceSize nonce hn]
            exact Or.inr ⟨aead, out2, rfl⟩
        · exact Or.inl ⟨e4, out2, rfl⟩
      · exact Or.inl ⟨e3, out1, rfl⟩
    · exact Or.inl ⟨e2, out, rfl⟩
  · exact Or.inl ⟨e1, out, rfl⟩

/-- `encryptStream` with a random source that delivers, a key of 32 bytes and a
sink that takes every write: the header is written and the loop runs. -/
theorem encryptStream_new (L : CryptoLib) (rnd : Rand) (inp : Reader) (d w : List Byte)
    (hsalt : (rnd.Read SaltSize).2.1 = none)
    (hnonce : ((rnd.Read SaltSize).2.2.Read NonceSize).2.1 = none)
    (hk : (deriveKey L w (drawnSalt rnd)).length = 32) :
    encryptStream L rnd inp ⟨d, []⟩ w =
      encryptLoop L (deriveKey L w (drawnSalt rnd)) (Reader.fuel inp)
        ⟨inp, ⟨d ++ drawnSalt rnd ++ drawnNonce rnd, []⟩, drawnNonce rnd, []⟩ := by
  have hn := drawnNonce_length rnd
  unfold encryptStream
  unfold drawnSalt drawnNonce deriveKey at *
  rcases h1 : rnd.Read SaltSize with ⟨salt, e1, rnd1⟩
  rw [h1] at hsalt hnonce hn hk
  dsimp only at hsalt hnonce hn hk ⊢
  subst hsalt
  dsimp only
  rcases h2 : rnd1.Read NonceSize with ⟨nonce, e2, rnd2⟩
  rw [h2] at hnonce hn
  dsimp only at hnonce hn ⊢
  subst hnonce
  dsimp only
  rw [Write_new]
  dsimp only
  rw [Write_new]
  dsimp only
  rw [NewX_of_length _ hk]
  dsimp only
  rw [copy_replicate NonceSize nonce hn]

/-- `encryptStream` returns, on every source, sink, random source and passphrase:
the embedding never runs out of fuel and the program never panics. -/
theorem encryptStream_returned (L : CryptoLib) (rnd : Rand) (inp : Reader) (out : Writer)
    (w : List Byte) : ∃ err, (encryptStream L rnd inp out w).ret = .returned err := by
  rcases encryptStream_cases L rnd inp out w with ⟨err, out1, h⟩ | ⟨aead, out2, h⟩
  · rw [h]
    exact ⟨_, rfl⟩
  · rw [h]
    have := encryptLoop_returned L aead (drawnNonce rnd) (by rw [drawnNonce_length])
      (Reader.fuel inp) inp out2 0 [] (Nat.le_refl _)
    rw [chunkNonceAt_zero] at this
    exact this

/-- The nonces of the `Seal` calls of a run of `encryptStream` are the nonces of
chunks 0, 1, 2, ... of the drawn base nonce, in this order. -/
theorem encryptStream_calls (L : CryptoLib) (rnd : Rand) (inp : Reader) (out : Writer)
    (w : List Byte) :
    (encryptStream L rnd inp out w).calls.map Prod.fst =
      (List.range (encryptStream L rnd inp out w).calls.length).map
        (chunkNonceAt (drawnNonce rnd)) := by
  have hb : 24 ≤ (drawnNonce rnd).length := by rw [drawnNonce_length]
  rcases encryptStream_cases L rnd inp out w with ⟨err, out1, h⟩ | ⟨aead, out2, h⟩
  · rw [h]; rfl
  · rw [h]
    have := encryptLoop_calls L aead (drawnNonce rnd) hb (Reader.fuel inp) inp out2 0 [] rfl
    rw [chunkNonceAt_zero] at this
    exact this

/-- `decryptStream` either returns before its loop, with nothing opened, or has read
salt and base nonce and runs the loop from that nonce, which has 24 bytes. -/
theorem decryptStream_cases (L : CryptoLib) (inp : Reader) (out : Writer) (w : List Byte) :
    (∃ err inp1, decryptStream L inp out w = ⟨.returned (some err), inp1, out, [], []⟩ ∧
      ¬ ∃ salt nonce inp1 inp2, ReadFull inp SaltSize = some (salt, none, inp1) ∧
        ReadFull inp1 NonceSize = some (nonce, none, inp2) ∧
        (deriveKey L w salt).length = 32) ∨
    (∃ salt nonce inp1 inp2, ReadFull inp SaltSize = some (salt, none, inp1) ∧
      ReadFull inp1 NonceSize = some (nonce, none, inp2) ∧ nonce.length = 24 ∧
      (deriveKey L w salt).length = 32 ∧
      decryptStream L inp out w =
        decryptLoop L (deriveKey L w salt) (ChunkSize + L.Overhead) (Reader.fuel inp2)
          ⟨inp2, out, nonce, []⟩) := by
  unfold decryptStream
  obtain ⟨salt, e1, inp1, h1, _⟩ := ReadFull_total inp SaltSize
  rw [h1]
  rcases e1 with _ | e1
  · dsimp only
    obtain ⟨nonce, e2, inp2, h2, hn⟩ := ReadFull_total inp1 NonceSize
    rw [h2]
    rcases e2 with _ | e2
    · dsimp only
      rcases h3 : NewX (L.IDKey w salt 1 (64 * 1024) 4 32) with e3 | aead
      · refine Or.inl ⟨e3, inp2, rfl, ?_⟩
        rintro ⟨salt1, nonce1, inp3, inp4, hs1, _, hk1⟩
        cases hs1
        have := NewX_of_length _ hk1
        rw [deriveKey, h3] at this
        cases this
      · dsimp only
        obtain ⟨ha, hk⟩ := NewX_ok _ _ h3
        subst ha
        rw [copy_replicate NonceSize nonce hn]
        exact Or.inr ⟨salt, nonce, inp1, inp2, rfl, h2, hn, hk, rfl⟩
    · refine Or.inl ⟨e2, inp2, rfl, ?_⟩
      rintro ⟨salt1, nonce1, inp3, inp4, hs1, hn1, _⟩
      cases hs1
      rw [h2] at hn1
      cases hn1
  · refine Or.inl ⟨e1, inp1, rfl, ?_⟩
    rintro ⟨salt1, nonce1, inp3, inp4, hs1, _, _⟩
    cases hs1

/-- `decryptStream` returns, on every source, sink and passphrase: the embedding
never runs out of fuel and the program never panics. -/
theorem decryptStream_returned (L : CryptoLib) (inp : Reader) (out : Writer) (w : List Byte) :
    ∃ err, (decryptStream L inp out w).ret = .returned err := by
  rcases decryptStream_cases L inp out w with
    ⟨err, inp1, h, _⟩ | ⟨salt, nonce, inp1, inp2, _, _, hn, _, h⟩
  · rw [h]
    exact ⟨_, rfl⟩
  · rw [h]
    have := decryptLoop_returned L (deriveKey L w salt) nonce (by omega) (ChunkSize + L.Overhead)
      (Nat.add_pos_left ChunkSize_pos _) (Reader.fuel inp2) inp2 out 0 [] (Nat.le_refl _)
    rw [chunkNonceAt_zero] at this
    exact this

/-- The nonces of the `Open` calls of a run of `decryptStream` are the nonces of
chunks 0, 1, 2, ... of the base nonce read from the header, in this order. -/
theorem decryptStream_calls (L : CryptoLib) (inp : Reader) (out : Writer) (w : List Byte)
    (salt nonce : List Byte) (inp1 inp2 : Reader)
    (hsalt : ReadFull inp SaltSize = some (salt, none, inp1))
    (hnonce : ReadFull inp1 NonceSize = some (nonce, none, inp2)) :
    (decryptStream L inp out w).calls.map Prod.fst =
      (List.range (decryptStream L inp out w).calls.length).map (chunkNonceAt nonce) := by
  rcases decryptStream_cases L inp out w with
    ⟨err, inp3, h, _⟩ | ⟨salt1, nonce1, inp3, inp4, hs1, hn1, hn, _, h⟩
  · rw [h]; rfl
  · rw [hsalt] at hs1
    cases hs1
    rw [hnonce] at hn1
    cases hn1
    rw [h]
    have := decryptLoop_calls L (deriveKey L w salt) nonce (by omega) (ChunkSize + L.Overhead)
      (Reader.fuel inp2) inp2 out 0 [] rfl
    rw [chunkNonceAt_zero] at this
    exact this

/-! ### The stream functions on a source read in full buffers -/

theorem sealFrom_flatten_cons (L : CryptoLib) (aead base : List Byte) (k : Nat)
    (c : List Byte) (cs : List (List Byte)) :
    (sealFrom L aead base k (c :: cs)).flatten =
      L.Seal aead (chunkNonceAt base k) c [] ++ (sealFrom L aead base (k + 1) cs).flatten := rfl

/-- Encrypt loop on a source read in full buffers: if the call returns `nil`, the
sink has received the sealed chunks of the source's bytes. -/
theorem encryptLoop_ofBytes (L : CryptoLib) (aead base : List Byte) (hb : 24 ≤ base.length) :
    ∀ (fuel : Nat) (p : List Byte) (out : Writer) (k : Nat) (calls : List (List Byte × List Byte)),
      (encryptLoop L aead fuel
        ⟨Reader.ofBytes p, out, chunkNonceAt base k, calls⟩).ret = .returned none →
      (encryptLoop L aead fuel ⟨Reader.ofBytes p, out, chunkNonceAt base k, calls⟩).out.data =
        out.data ++ (sealFrom L aead base k (chunksOf ChunkSize p)).flatten := by
  intro fuel
  induction fuel with
  | zero => intro p out k calls h; simp [encryptLoop, State.finish] at h
  | succ n ih =>
    intro p out k calls
    rw [encryptLoop_succ]
    by_cases hp : p = []
    · subst hp
      simp only [Read_ofBytes_le [] ChunkSize (Nat.zero_le _), encryptChunk_nil, chunksOf_nil]
      cases n with
      | zero => intro h; simp [encryptLoop, State.finish] at h
      | succ m => intro _; rw [encryptLoop_nil _ _ _ _ rfl]; simp [State.finish, sealFrom]
    · by_cases hle : p.length ≤ ChunkSize
      · simp only [Read_ofBytes_le p ChunkSize hle]
        rw [chunksOf_cons _ ChunkSize_pos p hp, List.take_of_length_le hle,
          List.drop_of_length_le hle, chunksOf_nil]
        rcases encryptChunk_cases L aead base hb [] out k calls p hp
          with ⟨err, out1, _, hc⟩ | ⟨out1, hw, hc⟩
        · rw [hc]; intro h; simp at h
        · rw [hc]
          dsimp only
          have hdata := Write_none out _ (by rw [hw])
          rw [hw] at hdata
          cases n with
          | zero => intro h; simp [encryptLoop, State.finish] at h
          | succ m =>
            intro _
            rw [encryptLoop_nil _ _ _ _ rfl]
            simp only [State.finish, sealFrom, List.flatten_cons, List.flatten_nil,
              List.append_nil]
            exact hdata
      · have hgt : ChunkSize < p.length := Nat.not_le.mp hle
        simp only [Read_ofBytes_gt p ChunkSize hgt]
        rw [chunksOf_cons _ ChunkSize_pos p hp]
        have htake : p.take ChunkSize ≠ [] := by
          intro h0
          have h1 := congrArg List.length h0
          simp only [List.length_take, List.length_nil] at h1
          have h2 := ChunkSize_pos
          omega
        rcases encryptChunk_cases L aead base hb
          (Reader.ofBytes (p.drop ChunkSize)) out k calls _ htake
          with ⟨err, out1, _, hc⟩ | ⟨out1, hw, hc⟩
        · rw [hc]; intro h; simp at h
        · rw [hc]
          dsimp only
          have hdata := Write_none out _ (by rw [hw])
          rw [hw] at hdata
          intro h
          have := ih (p.drop ChunkSize) out1 (k + 1) _ h
          simp only at this ⊢
          rw [this, sealFrom_flatten_cons, hdata, List.append_assoc]

/-- A successful `encryptStream` on a source read in full buffers: the key has 32
bytes and the sink has received salt, base nonce and the sealed chunks. -/
theorem encryptStream_ofBytes (L : CryptoLib) (rnd : Rand) (p : List Byte) (out : Writer)
    (password : List Byte)
    (h : (encryptStream L rnd (Reader.ofBytes p) out password).ret = .returned none) :
    (deriveKey L password (drawnSalt rnd)).length = 32 ∧
    (encryptStream L rnd (Reader.ofBytes p) out password).out.data =
      out.data ++ drawnSalt rnd ++ drawnNonce rnd ++
        (sealChunks L (deriveKey L password (drawnSalt rnd)) (drawnNonce rnd)
          (chunksOf ChunkSize p)).flatten := by
  have hn := drawnNonce_length rnd
  unfold encryptStream at h ⊢
  unfold drawnSalt drawnNonce deriveKey at *
  rcases h1 : rnd.Read SaltSize with ⟨salt, _ | e1, rnd1⟩
  · rw [h1] at h hn
    dsimp only at h hn ⊢
    rcases h2 : rnd1.Read NonceSize with ⟨nonce, _ | e2, rnd2⟩
    · rw [h2] at h hn
      dsimp only at h hn ⊢
      rcases h3 : out.Write salt with ⟨out1, _ | e3⟩
      · rw [h3] at h
        dsimp only at h ⊢
        rcases h4 : out1.Write nonce with ⟨out2, _ | e4⟩
        · rw [h4] at h
          dsimp only at h ⊢
          rcases h5 : NewX (L.IDKey password salt 1 (64 * 1024) 4 32) with e5 | aead
          · rw [h5] at h; simp at h
          · rw [h5] at h
            dsimp only at h ⊢
            obtain ⟨ha, hk⟩ := NewX_ok _ _ h5
            subst ha
            refine ⟨hk, ?_⟩
            rw [copy_replicate NonceSize nonce hn] at h ⊢
            have hd1 := Write_none out salt (by rw [h3])
            have hd2 := Write_none out1 nonce (by rw [h4])
            rw [h3] at hd1
            rw [h4] at hd2
            have := encryptLoop_ofBytes L _ nonce (by omega) _ p out2 0 [] h
            rw [chunkNonceAt_zero] at this
            rw [this, hd2, hd1, sealChunks]
        · rw [h4] at h; simp at h
      · rw [h3] at h; simp at h
    · rw [h2] at h; simp at h
  · rw [h1] at h; simp at h

/-- Decrypt loop on a source read in full buffers, with a sink that takes every
write: the blocks of the source are opened in order up to the first that fails. -/
theorem decryptLoop_ofBytes (L : CryptoLib) (aead base : List Byte) (hb : 24 ≤ base.length)
    (cap : Nat) (hcap : 0 < cap) :
    ∀ (fuel : Nat) (x d : List Byte) (k : Nat) (calls : List (List Byte × List Byte)),
      x.length + 2 ≤ fuel →
      (decryptLoop L aead cap fuel ⟨Reader.ofBytes x, ⟨d, []⟩, chunkNonceAt base k, calls⟩).ret =
        (if (openChunks L aead base k (chunksOf cap x)).2 then .returned none
          else .returned (some authError)) ∧
      (decryptLoop L aead cap fuel ⟨Reader.ofBytes x, ⟨d, []⟩, chunkNonceAt base k, calls⟩).out =
        ⟨d ++ (openChunks L aead base k (chunksOf cap x)).1.flatten, []⟩ := by
  intro fuel
  induction fuel with
  | zero => intro x d k calls h; omega
  | succ n ih =>
    intro x d k calls hfuel
    obtain ⟨m, rfl⟩ : ∃ m, n = m + 1 := ⟨n - 1, by omega⟩
    rw [decryptLoop_succ]
    by_cases hx : x = []
    · subst hx
      simp only [Read_ofBytes_le [] cap (Nat.zero_le _), decryptChunk_nil, chunksOf_nil]
      rw [decryptLoop_nil _ _ _ _ _ rfl]
      simp [State.finish, openChunks]
    · rw [chunksOf_cons cap hcap x hx]
      by_cases hle : x.length ≤ cap
      · simp only [Read_ofBytes_le x cap hle]
        rw [List.take_of_length_le hle, List.drop_of_length_le hle, chunksOf_nil,
          decryptChunk_new L aead base hb _ _ _ _ x hx]
        rcases ho : L.Open aead (chunkNonceAt base k) x [] with _ | p
        · simp [openChunks, ho]
        · simp only [openChunks, ho]
          rw [decryptLoop_nil _ _ _ _ _ rfl]
          simp [State.finish]
      · have hgt : cap < x.length := Nat.not_le.mp hle
        simp only [Read_ofBytes_gt x cap hgt]
        rw [decryptChunk_new L aead base hb _ _ _ _ _ (take_ne_nil x cap hcap hx)]
        rcases ho : L.Open aead (chunkNonceAt base k) (x.take cap) [] with _ | p
        · simp [openChunks, ho]
        · simp only [openChunks, ho]
          have := ih (x.drop cap) (d ++ p) (k + 1) (calls ++ [(chunkNonceAt base k, x.take cap)])
            (by rw [List.length_drop]; omega)
          rw [this.1, this.2]
          simp [List.append_assoc]

/-- `decryptStream` on a source read in full buffers that holds a whole header,
with a key of 32 bytes and a sink that takes every write: the blocks after the
header are opened in order up to the first that fails. -/
theorem decryptStream_ofBytes (L : CryptoLib) (salt nonce body d password : List Byte)
    (hs : salt.length = 32) (hn : nonce.length = 24)
    (hk : (deriveKey L password salt).length = 32) :
    (decryptStream L (Reader.ofBytes (salt ++ nonce ++ body)) ⟨d, []⟩ password).ret =
      (if (openChunks L (deriveKey L password salt) nonce 0
          (chunksOf (ChunkSize + L.Overhead) body)).2 then .returned none
        else .returned (some authError)) ∧
    (decryptStream L (Reader.ofBytes (salt ++ nonce ++ body)) ⟨d, []⟩ password).out =
      ⟨d ++ (openChunks L (deriveKey L password salt) nonce 0
        (chunksOf (ChunkSize + L.Overhead) body)).1.flatten, []⟩ := by
  have hcap : 0 < ChunkSize + L.Overhead := Nat.add_pos_left ChunkSize_pos _
  have hs' : salt.length = SaltSize := hs
  have hn' : nonce.length = NonceSize := hn
  have h1 : ReadFull (Reader.ofBytes (salt ++ nonce ++ body)) SaltSize =
      some (salt, none, Reader.ofBytes (nonce ++ body)) := by
    rw [ReadFull_ofBytes_ge _ SaltSize (by decide)
      (by simp only [List.length_append, SaltSize]; omega)]
    have hne : ¬ (salt ++ nonce ++ body).length = SaltSize := by
      simp only [List.length_append, SaltSize]; omega
    rw [if_neg hne, List.append_assoc, List.take_left' hs', List.drop_left' hs']
  have h2 : ReadFull (Reader.ofBytes (nonce ++ body)) NonceSize =
      some (nonce, none, if body = [] then [] else Reader.ofBytes body) := by
    rw [ReadFull_ofBytes_ge _ NonceSize (by decide)
      (by simp only [List.length_append, NonceSize]; omega)]
    rw [List.take_left' hn', List.drop_left' hn']
    by_cases hb : body = []
    · subst hb; simp [hn, NonceSize]
    · have : 0 < body.length := List.length_pos.mpr hb
      have hne : ¬ (nonce ++ body).length = NonceSize := by
        simp only [List.length_append, NonceSize]; omega
      rw [if_neg hne, if_neg hb]
  unfold decryptStream
  rw [h1]
  dsimp only
  rw [h2]
  dsimp only
  have hkey : NewX (L.IDKey password salt 1 (64 * 1024) 4 32) =
      .ok (deriveKey L password salt) := NewX_of_length _ hk
  rw [hkey]
  dsimp only
  rw [copy_replicate NonceSize nonce hn]
  by_cases hb : body = []
  · subst hb
    simp only [if_true, fuel_nil, chunksOf_nil, openChunks]
    rw [decryptLoop_nil _ _ _ _ _ rfl]
    simp [State.finish]
  · simp only [if_neg hb, fuel_ofBytes]
    exact decryptLoop_ofBytes L _ nonce (by omega) _ hcap _ body d 0 [] (Nat.le_refl _)

/-- The encrypt loop on a source read in full buffers, with a sink that takes
every write, returns `nil`. -/
theorem encryptLoop_ofBytes_new (L : CryptoLib) (aead base : List Byte) (hb : 24 ≤ base.length) :
    ∀ (fuel : Nat) (p d : List Byte) (k : Nat) (calls : List (List Byte × List Byte)),
      p.length + 2 ≤ fuel →
      (encryptLoop L aead fuel
        ⟨Reader.ofBytes p, ⟨d, []⟩, chunkNonceAt base k, calls⟩).ret = .returned none := by
  intro fuel
  induction fuel with
  | zero => intro p d k calls h; omega
  | succ n ih =>
    intro p d k calls hfuel
    obtain ⟨m, rfl⟩ : ∃ m, n = m + 1 := ⟨n - 1, by omega⟩
    have hinc := incrementNonce_chunkNonceAt base hb k
    rw [encryptLoop_succ]
    by_cases hp : p = []
    · subst hp
      simp only [Read_ofBytes_le [] ChunkSize (Nat.zero_le _), encryptChunk_nil]
      rw [encryptLoop_nil _ _ _ _ rfl]
      rfl
    · have hlen : p.length > 0 := List.length_pos.mpr hp
      by_cases hle : p.length ≤ ChunkSize
      · simp only [Read_ofBytes_le p ChunkSize hle, encryptChunk, if_pos hlen, Write_new, hinc]
        rw [encryptLoop_nil _ _ _ _ rfl]
        rfl
      · have hgt : ChunkSize < p.length := Nat.not_le.mp hle
        have htake : (p.take ChunkSize).length > 0 :=
          List.length_pos.mpr (take_ne_nil p ChunkSize ChunkSize_pos hp)
        simp only [Read_ofBytes_gt p ChunkSize hgt, encryptChunk, if_pos htake, Write_new, hinc]
        exact ih (p.drop ChunkSize) _ (k + 1) _
          (by rw [List.length_drop]; have := ChunkSize_pos; omega)

/-- `encryptStream` succeeds on every source read in full buffers, when the random
source delivers, the key has 32 bytes and the sink takes every write. -/
theorem encryptStream_ofBytes_new (L : CryptoLib) (rnd : Rand) (p d w : List Byte)
    (hsalt : (rnd.Read SaltSize).2.1 = none)
    (hnonce : ((rnd.Read SaltSize).2.2.Read NonceSize).2.1 = none)
    (hk : (deriveKey L w (drawnSalt rnd)).length = 32) :
    (encryptStream L rnd (Reader.ofBytes p) ⟨d, []⟩ w).ret = .returned none := by
  rw [encryptStream_new L rnd _ d w hsalt hnonce hk, fuel_ofBytes]
  have := encryptLoop_ofBytes_new L (deriveKey L w (drawnSalt rnd)) (drawnNonce rnd)
    (by rw [drawnNonce_length]) (p.length + 2) p (d ++ drawnSalt rnd ++ drawnNonce rnd) 0 []
    (Nat.le_refl _)
  rw [chunkNonceAt_zero] at this
  exact this

/-! ### Sealed chunks -/

theorem sealFrom_length (L : CryptoLib) (key base : List Byte) (k : Nat)
    (cs : List (List Byte)) : (sealFrom L key base k cs).length = cs.length := by
  induction cs generalizing k with
  | nil => rfl
  | cons c cs ih => simp [sealFrom, ih]

theorem sealFrom_getElem? (L : CryptoLib) (key base : List Byte) (k : Nat)
    (cs : List (List Byte)) (i : Nat) :
    (sealFrom L key base k cs)[i]? =
      cs[i]?.map (fun c => L.Seal key (chunkNonceAt base (k + i)) c []) := by
  induction cs generalizing k i with
  | nil => simp [sealFrom]
  | cons c cs ih =>
    cases i with
    | zero => simp [sealFrom]
    | succ j =>
      simp only [sealFrom, List.getElem?_cons_succ, ih]
      rw [show k + 1 + j = k + (j + 1) by omega]

/-- Sealed chunks keep the framing, with the buffer enlarged by the overhead. -/
theorem sealFrom_framed (L : CryptoLib)
    (hlen : ∀ k n p, (L.Seal k n p []).length = p.length + L.Overhead)
    (key base : List Byte) (size : Nat) :
    ∀ (k : Nat) (cs : List (List Byte)), Framed size cs →
      Framed (size + L.Overhead) (sealFrom L key base k cs)
  | _, [], _ => trivial
  | k, [c], h => by
    simp only [sealFrom, Framed, hlen]
    have := h.1
    have := h.2
    omega
  | k, c :: d :: rest, h => by
    have ih := sealFrom_framed L hlen key base size (k + 1) (d :: rest) h.2
    simp only [sealFrom, Framed, hlen] at ih ⊢
    exact ⟨by rw [h.1], ih⟩

theorem sealFrom_flatten_length (L : CryptoLib) (ovh : Nat)
    (hlen : ∀ k n p, (L.Seal k n p []).length = p.length + ovh) (key base : List Byte) :
    ∀ (k : Nat) (cs : List (List Byte)),
      (sealFrom L key base k cs).flatten.length = cs.flatten.length + ovh * cs.length
  | _, [] => rfl
  | k, c :: cs => by
    simp only [sealFrom, List.flatten_cons, List.length_append, List.length_cons, hlen,
      sealFrom_flatten_length L ovh hlen key base (k + 1) cs, Nat.mul_succ]
    omega

/-- Every sealed chunk opens under the nonce it was sealed with. -/
theorem openChunks_sealFrom (L : CryptoLib)
    (hopen : ∀ k n p, L.Open k n (L.Seal k n p []) [] = some p) (key base : List Byte) :
    ∀ (k : Nat) (cs : List (List Byte)),
      openChunks L key base k (sealFrom L key base k cs) = (cs, true)
  | _, [] => rfl
  | k, c :: cs => by
    simp only [sealFrom, openChunks, hopen, openChunks_sealFrom L hopen key base (k + 1) cs]

theorem openChunks_sealChunks (L : CryptoLib)
    (hopen : ∀ k n p, L.Open k n (L.Seal k n p []) [] = some p) (key base : List Byte)
    (cs : List (List Byte)) : openChunks L key base 0 (sealChunks L key base cs) = (cs, true) :=
  openChunks_sealFrom L hopen key base 0 cs

/-- The blocks a decoder reads from the sealed chunks of `p` are those chunks. -/
theorem chunksOf_sealChunks (L : CryptoLib)
    (hlen : ∀ k n p, (L.Seal k n p []).length = p.length + L.Overhead)
    (key base p : List Byte) :
    chunksOf (ChunkSize + L.Overhead) (sealChunks L key base (chunksOf ChunkSize p)).flatten =
      sealChunks L key base (chunksOf ChunkSize p) :=
  chunksOf_flatten _ (Nat.add_pos_left ChunkSize_pos _) _
    (sealFrom_framed L hlen key base ChunkSize 0 _ (chunksOf_framed ChunkSize ChunkSize_pos p))

/-- Blocks that differ from the sealed chunks, opened by a cipher that accepts
under the nonce of chunk `i` nothing but the sealed chunk `i`: the blocks before
the first that differs open to their chunks, and that one fails. -/
theorem openChunks_tampered (L : CryptoLib) (key base : List Byte) :
    ∀ (chunks : List (List Byte)) (k : Nat) (blocks : List (List Byte)),
      blocks.length = chunks.length → blocks ≠ sealFrom L key base k chunks →
      (∀ i c pi, chunks[i]? = some pi →
        L.Open key (chunkNonceAt base (k + i)) c [] =
          if c = L.Seal key (chunkNonceAt base (k + i)) pi [] then some pi else none) →
      ∃ j, j < chunks.length ∧ openChunks L key base k blocks = (chunks.take j, false) := by
  intro chunks
  induction chunks with
  | nil =>
    intro k blocks hl hne _
    have : blocks = [] := List.length_eq_zero.mp hl
    exact absurd (by rw [this]; rfl) hne
  | cons c cs ih =>
    intro k blocks hl hne hideal
    cases blocks with
    | nil => simp at hl
    | cons b bs =>
      have h0 := hideal 0 b c (by simp)
      rw [Nat.add_zero] at h0
      by_cases hb : b = L.Seal key (chunkNonceAt base k) c []
      · rw [if_pos hb] at h0
        have hne1 : bs ≠ sealFrom L key base (k + 1) cs := by
          intro h1
          exact hne (by rw [hb, h1]; rfl)
        obtain ⟨j, hj, hopen⟩ := ih (k + 1) bs (by simpa using hl) hne1
          (fun i c1 pi hi => by
            have := hideal (i + 1) c1 pi (by simpa using hi)
            rw [show k + (i + 1) = k + 1 + i by omega] at this
            exact this)
        refine ⟨j + 1, by simp only [List.length_cons]; omega, ?_⟩
        simp only [openChunks, h0, hopen, List.take_succ_cons]
      · rw [if_neg hb] at h0
        exact ⟨0, by simp, by simp only [openChunks, h0, List.take_zero]⟩

/-- Under a key that refuses what the other key sealed, the first sealed chunk
already fails to open. -/
theorem openChunks_wrong_key (L : CryptoLib) (key key1 base : List Byte)
    (hfail : ∀ n c, L.Open key1 n (L.Seal key n c []) [] = none)
    (chunks : List (List Byte)) (hne : chunks ≠ []) :
    openChunks L key1 base 0 (sealChunks L key base chunks) = ([], false) := by
  cases chunks with
  | nil => exact absurd rfl hne
  | cons c cs => simp only [sealChunks, sealFrom, openChunks, hfail]

/-! ### Inverting one bit -/

theorem flip_byte_ne (b k : Nat) (hk : k < 8) (h : (b ^^^ (1 <<< k)) % 256 = b) : False := by
  have h1 := congrArg (fun x => x.testBit k) h
  simp only [show (256 : Nat) = 2 ^ 8 from rfl, Nat.testBit_mod_two_pow, Nat.testBit_xor,
    Nat.testBit_shiftLeft, hk, decide_True, Bool.true_and, ge_iff_le, le_refl, Nat.sub_self,
    Nat.testBit_zero] at h1
  simp at h1

theorem flipBit_length (s : List Byte) (pos bit : Nat) : (flipBit s pos bit).length = s.length := by
  unfold flipBit
  split <;> simp

theorem flipBit_ne (s : List Byte) (pos bit : Nat) (hpos : pos < s.length) (hbit : bit < 8) :
    flipBit s pos bit ≠ s := by
  intro h
  unfold flipBit at h
  rw [List.getElem?_eq_getElem hpos] at h
  dsimp only at h
  have h1 := congrArg (fun l => l[pos]?) h
  simp only [List.getElem?_set_self hpos, List.getElem?_eq_getElem hpos, Option.some.injEq] at h1
  exact flip_byte_ne _ bit hbit (congrArg Fin.val h1)

theorem flipBit_append_right (a s : List Byte) (pos bit : Nat) (h : a.length ≤ pos) :
    flipBit (a ++ s) pos bit = a ++ flipBit s (pos - a.length) bit := by
  unfold flipBit
  rw [List.getElem?_append_right h]
  cases s[pos - a.length]? with
  | none => rfl
  | some b => simp only [List.set_append_right _ _ h]

/-! ### The small ciphers -/

theorem pad16_length (l : List Byte) : (pad16 l).length = 16 := by
  simp [pad16]

theorem toyTag_length (key nonce : List Byte) : (toyTag key nonce).length = 16 := by
  simp [toyTag, pad16_length]

theorem toy_seal_length (k n p : List Byte) :
    (toyLib.Seal k n p []).length = p.length + toyLib.Overhead := by
  simp [toyLib, toySeal, toyTag_length]

theorem toy_seal_length16 (k n p : List Byte) : (toyLib.Seal k n p []).length = p.length + 16 :=
  toy_seal_length k n p

theorem toy_open_seal (k n p : List Byte) : toyLib.Open k n (toyLib.Seal k n p []) [] = some p := by
  have h16 := toyTag_length k n
  simp only [toyLib, toyOpen, toySeal, List.length_append, h16]
  rw [if_neg (by omega), Nat.add_sub_cancel, List.drop_left, if_pos rfl, List.take_left]

theorem toy_open_short (k n c : List Byte) (h : c.length < 16) : toyLib.Open k n c [] = none := by
  simp [toyLib, toyOpen, h]

theorem zipWith_add_cancel :
    ∀ (a b x : List Byte), a.length = b.length → a.length ≤ x.length →
      List.zipWith (fun u v => u + v) a x = List.zipWith (fun u v => u + v) b x → a = b
  | [], [], _, _, _, _ => rfl
  | [], _ :: _, _, h, _, _ => by simp at h
  | _ :: _, [], _, h, _, _ => by simp at h
  | _ :: _, _ :: _, [], _, h, _ => by simp at h
  | u :: a, v :: b, y :: x, hl, hx, h => by
    simp only [List.zipWith_cons_cons, List.cons.injEq] at h
    have h1 : u = v := add_right_cancel h.1
    have h2 := zipWith_add_cancel a b x (by simpa using hl) (by simpa using hx) h.2
    rw [h1, h2]

/-- The small cipher refuses, under a key that differs in its first 16 bytes,
what was sealed under another. -/
theorem toy_open_wrong_key (k k1 : List Byte) (h : pad16 k ≠ pad16 k1) (n c : List Byte) :
    toyLib.Open k1 n (toyLib.Seal k n c []) [] = none := by
  have h16 := toyTag_length k n
  have hne : toyTag k n ≠ toyTag k1 n := by
    intro heq
    apply h
    exact zipWith_add_cancel _ _ _ (by rw [pad16_length, pad16_length])
      (by rw [pad16_length, pad16_length]) heq
  simp only [toyLib, toyOpen, toySeal, List.length_append, h16]
  rw [if_neg (by omega), Nat.add_sub_cancel, List.drop_left, if_neg hne]

theorem ideal_seal_length (table : List (List Byte × List Byte)) (k n p : List Byte) :
    ((idealLib table).Seal k n p []).length = p.length + (idealLib table).Overhead :=
  toy_seal_length k n p

theorem ideal_open_single (key nonce pl c : List Byte) :
    idealOpen [(nonce, pl)] key nonce c [] =
      if c = toySeal key nonce pl [] then some pl else none := by
  by_cases hc : c = toySeal key nonce pl []
  · simp [idealOpen, hc]
  · have hc' : ¬ toySeal key nonce pl [] = c := fun h => hc h.symm
    simp [idealOpen, hc, hc']

/-! ### The chunk loops on a source given by its reads -/

theorem Write_ok (d p : List Byte) (plan : List WriteOutcome) :
    Writer.Write ⟨d, .ok :: plan⟩ p = (⟨d ++ p, plan⟩, none) := rfl

theorem Write_fail (d p : List Byte) (n : Nat) (err : Err) (plan : List WriteOutcome) :
    Writer.Write ⟨d, .fail n err :: plan⟩ p = (⟨d ++ p.take n, plan⟩, some err) := rfl

theorem Read_cons_le (e : ReadEvent) (rest : Reader) (cap : Nat) (h : e.data.length ≤ cap) :
    Reader.Read (e :: rest) cap = (e.data, e.err, rest) := by
  simp [Reader.Read, h]

/-- More fuel does not change a run of the encrypt loop that has returned. -/
theorem encryptLoop_fuel_mono (L : CryptoLib) (aead : List Byte) :
    ∀ (fuel : Nat) (s : State) (j : Nat), (encryptLoop L aead fuel s).ret ≠ .unfinished →
      encryptLoop L aead (fuel + j) s = encryptLoop L aead fuel s := by
  intro fuel
  induction fuel with
  | zero => intro s j h; exact absurd rfl h
  | succ n ih =>
    intro s j h
    rw [show n + 1 + j = (n + j) + 1 by omega, encryptLoop_succ]
    rw [encryptLoop_succ] at h ⊢
    revert h
    rcases encryptChunk L aead ⟨(Reader.Read s.inp ChunkSize).2.2, s.out, s.chunkNonce, s.calls⟩
      (Reader.Read s.inp ChunkSize).1 with r | s1
    · intro _; rfl
    · dsimp only
      rcases (Reader.Read s.inp ChunkSize).2.1 with _ | err
      · exact ih s1 j
      · intro _; rfl

/-- More fuel does not change a run of the decrypt loop that has returned. -/
theorem decryptLoop_fuel_mono (L : CryptoLib) (aead : List Byte) (cap : Nat) :
    ∀ (fuel : Nat) (s : State) (j : Nat), (decryptLoop L aead cap fuel s).ret ≠ .unfinished →
      decryptLoop L aead cap (fuel + j) s = decryptLoop L aead cap fuel s := by
  intro fuel
  induction fuel with
  | zero => intro s j h; exact absurd rfl h
  | succ n ih =>
    intro s j h
    rw [show n + 1 + j = (n + j) + 1 by omega, decryptLoop_succ]
    rw [decryptLoop_succ] at h ⊢
    revert h
    rcases decryptChunk L aead ⟨(Reader.Read s.inp cap).2.2, s.out, s.chunkNonce, s.calls⟩
      (Reader.Read s.inp cap).1 with r | s1
    · intro _; rfl
    · dsimp only
      rcases (Reader.Read s.inp cap).2.1 with _ | err
      · exact ih s1 j
      · intro _; rfl

/-- The encrypt loop over reads that deliver non-empty packets without error, with
a sink that takes the write of each: the packets are sealed and written one per
read, and the loop goes on with what follows. -/
theorem encryptLoop_over_reads (L : CryptoLib) (aead base : List Byte) (hb : 24 ≤ base.length) :
    ∀ (good : List (List Byte)), (∀ g ∈ good, g ≠ [] ∧ g.length ≤ ChunkSize) →
      ∀ (fuel : Nat) (rest : Reader) (d : List Byte) (plan : List WriteOutcome) (k : Nat)
        (calls : List (List Byte × List Byte)),
        encryptLoop L aead (good.length + fuel)
          ⟨Reader.ofReads good ++ rest, ⟨d, List.replicate good.length .ok ++ plan⟩,
            chunkNonceAt base k, calls⟩ =
        encryptLoop L aead fuel
          ⟨rest, ⟨d ++ (sealFrom L aead base k good).flatten, plan⟩,
            chunkNonceAt base (k + good.length), calls ++ callsFrom base k good⟩ := by
  intro good
  induction good with
  | nil =>
    intro _ fuel rest d plan k calls
    simp [Reader.ofReads, sealFrom, callsFrom]
  | cons g gs ih =>
    intro hg fuel rest d plan k calls
    obtain ⟨hne, hle⟩ := hg g (List.mem_cons_self _ _)
    have hlen : g.length > 0 := List.length_pos.mpr hne
    have hinc := incrementNonce_chunkNonceAt base hb k
    rw [show (g :: gs).length + fuel = (gs.length + fuel) + 1 by simp only [List.length_cons]; omega,
      encryptLoop_succ]
    have hread : Reader.Read (Reader.ofReads (g :: gs) ++ rest) ChunkSize =
        (g, none, Reader.ofReads gs ++ rest) := by
      simp only [Reader.ofReads, List.map_cons, List.cons_append]
      exact Read_cons_le ⟨g, none⟩ _ ChunkSize hle
    simp only [hread, encryptChunk, if_pos hlen, List.length_cons, List.replicate_succ,
      List.cons_append, Write_ok, hinc]
    rw [ih (fun x hx => hg x (List.mem_cons_of_mem _ hx))]
    simp only [sealFrom, callsFrom, List.flatten_cons, List.append_assoc, List.singleton_append]
    rw [show k + 1 + gs.length = k + (gs.length + 1) by omega]

/-- The decrypt loop over reads that deliver non-empty blocks without error, every
block opening under its nonce, with a sink that takes the write of each: the
plaintexts are written one per read, and the loop goes on with what follows. -/
theorem decryptLoop_over_reads (L : CryptoLib) (aead base : List Byte) (hb : 24 ≤ base.length)
    (cap : Nat) :
    ∀ (blocks ps : List (List Byte)), (∀ b ∈ blocks, b ≠ [] ∧ b.length ≤ cap) →
      ∀ (k : Nat), openChunks L aead base k blocks = (ps, true) →
      ∀ (fuel : Nat) (rest : Reader) (d : List Byte) (plan : List WriteOutcome)
        (calls : List (List Byte × List Byte)),
        decryptLoop L aead cap (blocks.length + fuel)
          ⟨Reader.ofReads blocks ++ rest, ⟨d, List.replicate blocks.length .ok ++ plan⟩,
            chunkNonceAt base k, calls⟩ =
        decryptLoop L aead cap fuel
          ⟨rest, ⟨d ++ ps.flatten, plan⟩, chunkNonceAt base (k + blocks.length),
            calls ++ callsFrom base k blocks⟩ := by
  intro blocks
  induction blocks with
  | nil =>
    intro ps _ k ho fuel rest d plan calls
    simp only [openChunks, Prod.mk.injEq, and_true] at ho
    subst ho
    simp [Reader.ofReads, callsFrom]
  | cons b bs ih =>
    intro ps hb1 k ho fuel rest d plan calls
    obtain ⟨hne, hle⟩ := hb1 b (List.mem_cons_self _ _)
    have hlen : b.length > 0 := List.length_pos.mpr hne
    have hinc := incrementNonce_chunkNonceAt base hb k
    rcases hop : L.Open aead (chunkNonceAt base k) b [] with _ | p
    · simp [openChunks, hop] at ho
    · simp only [openChunks, hop, Prod.mk.injEq] at ho
      obtain ⟨hps, hok⟩ := ho
      have hrest : openChunks L aead base (k + 1) bs =
          ((openChunks L aead base (k + 1) bs).1, true) := by
        rw [← hok]
      rw [show (b :: bs).length + fuel = (bs.length + fuel) + 1 by
        simp only [List.length_cons]; omega, decryptLoop_succ]
      have hread : Reader.Read (Reader.ofReads (b :: bs) ++ rest) cap =
          (b, none, Reader.ofReads bs ++ rest) := by
        simp only [Reader.ofReads, List.map_cons, List.cons_append]
        exact Read_cons_le ⟨b, none⟩ _ cap hle
      simp only [hread, decryptChunk, if_pos hlen, hop, List.length_cons, List.replicate_succ,
        List.cons_append, Write_ok, hinc]
      rw [ih _ (fun x hx => hb1 x (List.mem_cons_of_mem _ hx)) (k + 1) hrest, ← hps]
      simp only [callsFrom, List.flatten_cons, List.append_assoc, List.singleton_append]
      rw [show k + 1 + bs.length = k + (bs.length + 1) by omega]

/-- `encryptStream` when the random source delivers, the key has 32 bytes and the
sink takes the two writes of the header: the loop runs from the drawn nonce. -/
theorem encryptStream_loop (L : CryptoLib) (rnd : Rand) (inp : Reader) (d w : List Byte)
    (plan : List WriteOutcome)
    (hsalt : (rnd.Read SaltSize).2.1 = none)
    (hnonce : ((rnd.Read SaltSize).2.2.Read NonceSize).2.1 = none)
    (hk : (deriveKey L w (drawnSalt rnd)).length = 32) :
    encryptStream L rnd inp ⟨d, .ok :: .ok :: plan⟩ w =
      encryptLoop L (deriveKey L w (drawnSalt rnd)) (Reader.fuel inp)
        ⟨inp, ⟨d ++ drawnSalt rnd ++ drawnNonce rnd, plan⟩, drawnNonce rnd, []⟩ := by
  have hn := drawnNonce_length rnd
  unfold encryptStream
  unfold drawnSalt drawnNonce deriveKey at *
  rcases h1 : rnd.Read SaltSize with ⟨salt, e1, rnd1⟩
  rw [h1] at hsalt hnonce hn hk
  dsimp only at hsalt hnonce hn hk ⊢
  subst hsalt
  dsimp only
  rcases h2 : rnd1.Read NonceSize with ⟨nonce, e2, rnd2⟩
  rw [h2] at hnonce hn
  dsimp only at hnonce hn ⊢
  subst hnonce
  dsimp only
  rw [Write_ok]
  dsimp only
  rw [Write_ok]
  dsimp only
  rw [NewX_of_length _ hk]
  dsimp only
  rw [copy_replicate NonceSize nonce hn]

/-- `decryptStream` when salt and base nonce are read and the key has 32 bytes:
the loop runs from the nonce read. -/
theorem decryptStream_loop (L : CryptoLib) (inp inp1 inp2 : Reader) (out : Writer)
    (salt nonce w : List Byte)
    (hsalt : ReadFull inp SaltSize = some (salt, none, inp1))
    (hnonce : ReadFull inp1 NonceSize = some (nonce, none, inp2))
    (hk : (deriveKey L w salt).length = 32) :
    decryptStream L inp out w =
      decryptLoop L (deriveKey L w salt) (ChunkSize + L.Overhead) (Reader.fuel inp2)
        ⟨inp2, out, nonce, []⟩ := by
  have hn : nonce.length = NonceSize := ReadFull_length _ _ _ _ _ hnonce
  unfold decryptStream
  rw [hsalt]
  dsimp only
  rw [hnonce]
  dsimp only
  have hkey : NewX (L.IDKey w salt 1 (64 * 1024) 4 32) = .ok (deriveKey L w salt) :=
    NewX_of_length _ hk
  rw [hkey]
  dsimp only
  rw [copy_replicate NonceSize nonce hn]

theorem fuel_append (a b : Reader) : Reader.fuel a + b.length ≤ Reader.fuel (a ++ b) := by
  have := fuel_ge_length b
  unfold Reader.fuel at *
  rw [List.map_append, List.sum_append]
  omega

theorem ofReads_length (packets : List (List Byte)) :
    (Reader.ofReads packets).length = packets.length := by
  simp [Reader.ofReads]

/-- The encrypt loop with fuel to spare, over reads that deliver non-empty packets
without error and a sink that takes the write of each, ends as the loop started
after them ends. -/
theorem encryptLoop_after_reads (L : CryptoLib) (aead base : List Byte) (hb : 24 ≤ base.length)
    (good : List (List Byte)) (hgood : ∀ g ∈ good, g ≠ [] ∧ g.length ≤ ChunkSize)
    (fuel f0 : Nat) (rest : Reader) (d : List Byte) (plan : List WriteOutcome) (k : Nat)
    (calls : List (List Byte × List Byte)) (hfuel : good.length + f0 ≤ fuel)
    (hret : (encryptLoop L aead f0
      ⟨rest, ⟨d ++ (sealFrom L aead base k good).flatten, plan⟩,
        chunkNonceAt base (k + good.length), calls ++ callsFrom base k good⟩).ret ≠ .unfinished) :
    encryptLoop L aead fuel
      ⟨Reader.ofReads good ++ rest, ⟨d, List.replicate good.length .ok ++ plan⟩,
        chunkNonceAt base k, calls⟩ =
    encryptLoop L aead f0
      ⟨rest, ⟨d ++ (sealFrom L aead base k good).flatten, plan⟩,
        chunkNonceAt base (k + good.length), calls ++ callsFrom base k good⟩ := by
  have hp := encryptLoop_over_reads L aead base hb good hgood f0 rest d plan k calls
  obtain ⟨j, rfl⟩ : ∃ j, fuel = good.length + f0 + j := ⟨fuel - (good.length + f0), by omega⟩
  rw [encryptLoop_fuel_mono L aead _ _ j (by rw [hp]; exact hret), hp]

/-- The decrypt loop with fuel to spare, over reads that deliver non-empty blocks
without error, each opening under its nonce, and a sink that takes the write of
each, ends as the loop started after them ends. -/
theorem decryptLoop_after_reads (L : CryptoLib) (aead base : List Byte) (hb : 24 ≤ base.length)
    (cap : Nat) (blocks ps : List (List Byte)) (hblocks : ∀ b ∈ blocks, b ≠ [] ∧ b.length ≤ cap)
    (k : Nat) (hopen : openChunks L aead base k blocks = (ps, true))
    (fuel f0 : Nat) (rest : Reader) (d : List Byte) (plan : List WriteOutcome)
    (calls : List (List Byte × List Byte)) (hfuel : blocks.length + f0 ≤ fuel)
    (hret : (decryptLoop L aead cap f0
      ⟨rest, ⟨d ++ ps.flatten, plan⟩, chunkNonceAt base (k + blocks.length),
        calls ++ callsFrom base k blocks⟩).ret ≠ .unfinished) :
    decryptLoop L aead cap fuel
      ⟨Reader.ofReads blocks ++ rest, ⟨d, List.replicate blocks.length .ok ++ plan⟩,
        chunkNonceAt base k, calls⟩ =
    decryptLoop L aead cap f0
      ⟨rest, ⟨d ++ ps.flatten, plan⟩, chunkNonceAt base (k + blocks.length),
        calls ++ callsFrom base k blocks⟩ := by
  have hp := decryptLoop_over_reads L aead base hb cap blocks ps hblocks k hopen f0 rest d plan calls
  obtain ⟨j, rfl⟩ : ∃ j, fuel = blocks.length + f0 + j := ⟨fuel - (blocks.length + f0), by omega⟩
  rw [decryptLoop_fuel_mono L aead cap _ _ j (by rw [hp]; exact hret), hp]

/-- One turn of the encrypt loop on a read that delivers no byte and an error
other than end of input: the call returns that error. -/
theorem encryptLoop_read_error_nil (L : CryptoLib) (aead : List Byte) (e : Err)
    (he : e ≠ Err.EOF) (rest : Reader) (out : Writer) (cn : List Byte)
    (calls : List (List Byte × List Byte)) :
    encryptLoop L aead 1 ⟨⟨[], some e⟩ :: rest, out, cn, calls⟩ =
      ⟨.returned (some e), rest, out, cn, calls⟩ := by
  rw [encryptLoop_succ, Read_cons_le _ _ _ (Nat.zero_le _)]
  simp only [encryptChunk_nil, if_neg he, State.finish]

/-- One turn of the encrypt loop on a read that delivers bytes and an error other
than end of input, the sink taking the write: the bytes are sealed and written,
the nonce advanced, and the call returns that error. -/
theorem encryptLoop_read_error_cons (L : CryptoLib) (aead base : List Byte)
    (hb : 24 ≤ base.length) (e : Err) (he : e ≠ Err.EOF) (data : List Byte) (hne : data ≠ [])
    (hle : data.length ≤ ChunkSize) (rest : Reader) (d : List Byte) (plan : List WriteOutcome)
    (k : Nat) (calls : List (List Byte × List Byte)) :
    encryptLoop L aead 1 ⟨⟨data, some e⟩ :: rest, ⟨d, .ok :: plan⟩, chunkNonceAt base k, calls⟩ =
      ⟨.returned (some e), rest, ⟨d ++ L.Seal aead (chunkNonceAt base k) data [], plan⟩,
        chunkNonceAt base (k + 1), calls ++ [(chunkNonceAt base k, data)]⟩ := by
  have hlen : data.length > 0 := List.length_pos.mpr hne
  have hinc := incrementNonce_chunkNonceAt base hb k
  rw [encryptLoop_succ, Read_cons_le _ _ _ hle]
  simp only [encryptChunk, if_pos hlen, Write_ok, hinc, if_neg he, State.finish]

/-- One turn of the encrypt loop on a read that delivers bytes, the sink failing
the write: the call returns the error of the sink, whatever the read reported,
and the nonce is not advanced. -/
theorem encryptLoop_write_error (L : CryptoLib) (aead : List Byte) (data : List Byte)
    (hne : data ≠ []) (hle : data.length ≤ ChunkSize) (readErr : Option Err) (rest : Reader)
    (d : List Byte) (n : Nat) (we : Err) (plan : List WriteOutcome) (cn : List Byte)
    (calls : List (List Byte × List Byte)) :
    encryptLoop L aead 1 ⟨⟨data, readErr⟩ :: rest, ⟨d, .fail n we :: plan⟩, cn, calls⟩ =
      ⟨.returned (some we), rest, ⟨d ++ (L.Seal aead cn data []).take n, plan⟩, cn,
        calls ++ [(cn, data)]⟩ := by
  have hlen : data.length > 0 := List.length_pos.mpr hne
  rw [encryptLoop_succ, Read_cons_le _ _ _ hle]
  simp only [encryptChunk, if_pos hlen, Write_fail]

theorem fuel_over_reads (packets : List (List Byte)) (e : ReadEvent) (rest : Reader) :
    packets.length + 1 ≤ Reader.fuel (Reader.ofReads packets ++ e :: rest) := by
  have := fuel_ge_length (Reader.ofReads packets ++ e :: rest)
  rw [List.length_append, ofReads_length, List.length_cons] at this
  omega

/-- One turn of the decrypt loop on a read that delivers no byte and an error
other than end of input: the call returns that error. -/
theorem decryptLoop_read_error_nil (L : CryptoLib) (aead : List Byte) (cap : Nat) (e : Err)
    (he : e ≠ Err.EOF) (rest : Reader) (out : Writer) (cn : List Byte)
    (calls : List (List Byte × List Byte)) :
    decryptLoop L aead cap 1 ⟨⟨[], some e⟩ :: rest, out, cn, calls⟩ =
      ⟨.returned (some e), rest, out, cn, calls⟩ := by
  rw [decryptLoop_succ, Read_cons_le _ _ _ (Nat.zero_le _)]
  simp only [decryptChunk_nil, if_neg he, State.finish]

/-- One turn of the decrypt loop on a read that delivers bytes that open and an
error other than end of input, the sink taking the write: the plaintext is
written, the nonce advanced, and the call returns that error. -/
theorem decryptLoop_read_error_cons (L : CryptoLib) (aead base : List Byte)
    (hb : 24 ≤ base.length) (cap : Nat) (e : Err) (he : e ≠ Err.EOF) (data p : List Byte)
    (hne : data ≠ []) (hle : data.length ≤ cap) (k : Nat)
    (hopen : L.Open aead (chunkNonceAt base k) data [] = some p)
    (rest : Reader) (d : List Byte) (plan : List WriteOutcome)
    (calls : List (List Byte × List Byte)) :
    decryptLoop L aead cap 1
        ⟨⟨data, some e⟩ :: rest, ⟨d, .ok :: plan⟩, chunkNonceAt base k, calls⟩ =
      ⟨.returned (some e), rest, ⟨d ++ p, plan⟩, chunkNonceAt base (k + 1),
        calls ++ [(chunkNonceAt base k, data)]⟩ := by
  have hlen : data.length > 0 := List.length_pos.mpr hne
  have hinc := incrementNonce_chunkNonceAt base hb k
  rw [decryptLoop_succ, Read_cons_le _ _ _ hle]
  simp only [decryptChunk, if_pos hlen, hopen, Write_ok, hinc, if_neg he, State.finish]

/-- One turn of the decrypt loop on a read that delivers bytes that do not open:
the call returns the authentication error, whatever the read reported; nothing
is written and the nonce is not advanced. -/
theorem decryptLoop_open_fails (L : CryptoLib) (aead : List Byte) (cap : Nat)
    (data : List Byte) (hne : data ≠ []) (hle : data.length ≤ cap) (cn : List Byte)
    (hopen : L.Open aead cn data [] = none) (readErr : Option Err) (rest : Reader)
    (out : Writer) (calls : List (List Byte × List Byte)) :
    decryptLoop L aead cap 1 ⟨⟨data, readErr⟩ :: rest, out, cn, calls⟩ =
      ⟨.returned (some authError), rest, out, cn, calls ++ [(cn, data)]⟩ := by
  have hlen : data.length > 0 := List.length_pos.mpr hne
  rw [decryptLoop_succ, Read_cons_le _ _ _ hle]
  simp only [decryptChunk, if_pos hlen, hopen]

/-- One turn of the decrypt loop on a read that delivers bytes that open and an
error other than end of input, when the sink takes the write of the plaintext:
the plaintext is written, the nonce advanced, and the call returns that error. -/
theorem decryptLoop_read_error_written (L : CryptoLib) (aead base : List Byte)
    (hb : 24 ≤ base.length) (cap : Nat) (e : Err) (he : e ≠ Err.EOF) (data p : List Byte)
    (hne : data ≠ []) (hle : data.length ≤ cap) (k : Nat)
    (hopen : L.Open aead (chunkNonceAt base k) data [] = some p)
    (rest : Reader) (out : Writer) (hw : (out.Write p).2 = none)
    (calls : List (List Byte × List Byte)) :
    decryptLoop L aead cap 1 ⟨⟨data, some e⟩ :: rest, out, chunkNonceAt base k, calls⟩ =
      ⟨.returned (some e), rest, (out.Write p).1, chunkNonceAt base (k + 1),
        calls ++ [(chunkNonceAt base k, data)]⟩ := by
  have hlen : data.length > 0 := List.length_pos.mpr hne
  have hinc := incrementNonce_chunkNonceAt base hb k
  rw [decryptLoop_succ, Read_cons_le _ _ _ hle]
  rcases hwr : out.Write p with ⟨out1, werr⟩
  rw [hwr] at hw
  dsimp only at hw
  subst hw
  simp only [decryptChunk, if_pos hlen, hopen, hwr, hinc, if_neg he, State.finish]

/-- One turn of the decrypt loop on a read that delivers bytes that open, when the
sink fails the write of the plaintext: the call returns the error of the sink,
whatever the read reported, and the nonce is not advanced. -/
theorem decryptLoop_write_error (L : CryptoLib) (aead : List Byte) (cap : Nat)
    (data p : List Byte) (hne : data ≠ []) (hle : data.length ≤ cap) (cn : List Byte)
    (hopen : L.Open aead cn data [] = some p) (readErr : Option Err) (rest : Reader)
    (out : Writer) (we : Err) (hw : (out.Write p).2 = some we)
    (calls : List (List Byte × List Byte)) :
    decryptLoop L aead cap 1 ⟨⟨data, readErr⟩ :: rest, out, cn, calls⟩ =
      ⟨.returned (some we), rest, (out.Write p).1, cn, calls ++ [(cn, data)]⟩ := by
  have hlen : data.length > 0 := List.length_pos.mpr hne
  rw [decryptLoop_succ, Read_cons_le _ _ _ hle]
  rcases hwr : out.Write p with ⟨out1, werr⟩
  rw [hwr] at hw
  dsimp only at hw
  subst hw
  simp only [decryptChunk, if_pos hlen, hopen, hwr]

/-- `decryptStream` on a source that, after the header, delivers the blocks `blocks`
one per read, each opening under its nonce, and then the packet `tail`, with a
32-byte key, fuel to spare and a sink that takes the writes of the plaintexts:
it ends as one turn of the loop on `tail` ends. -/
theorem decryptStream_after_reads (L : CryptoLib) (inp inp1 : Reader) (salt nonce w : List Byte)
    (blocks ps : List (List Byte)) (tail : ReadEvent) (rest : Reader) (d : List Byte)
    (plan : List WriteOutcome)
    (hsalt : ReadFull inp SaltSize = some (salt, none, inp1))
    (hnonce : ReadFull inp1 NonceSize =
      some (nonce, none, Reader.ofReads blocks ++ tail :: rest))
    (hk : (deriveKey L w salt).length = 32)
    (hblocks : ∀ b ∈ blocks, b ≠ [] ∧ b.length ≤ ChunkSize + L.Overhead)
    (hopen : openChunks L (deriveKey L w salt) nonce 0 blocks = (ps, true))
    (hret : (decryptLoop L (deriveKey L w salt) (ChunkSize + L.Overhead) 1
      ⟨tail :: rest, ⟨d ++ ps.flatten, plan⟩, chunkNonceAt nonce blocks.length,
        callsFrom nonce 0 blocks⟩).ret ≠ .unfinished) :
    decryptStream L inp ⟨d, List.replicate blocks.length .ok ++ plan⟩ w =
      decryptLoop L (deriveKey L w salt) (ChunkSize + L.Overhead) 1
        ⟨tail :: rest, ⟨d ++ ps.flatten, plan⟩, chunkNonceAt nonce blocks.length,
          callsFrom nonce 0 blocks⟩ := by
  have hb : 24 ≤ nonce.length := by
    rw [ReadFull_length _ _ _ _ _ hnonce]; exact Nat.le_refl _
  rw [decryptStream_loop L inp inp1 _ _ salt nonce w hsalt hnonce hk]
  have h2 := decryptLoop_after_reads L (deriveKey L w salt) nonce hb (ChunkSize + L.Overhead)
    blocks ps hblocks 0 hopen (Reader.fuel (Reader.ofReads blocks ++ tail :: rest)) 1
    (tail :: rest) d plan [] (fuel_over_reads blocks tail rest)
    (by rw [Nat.zero_add, List.nil_append]; exact hret)
  rw [Nat.zero_add, List.nil_append] at h2
  exact h2

/-- `encryptStream` when the sink fails the write of the salt, or of the base
nonce: the call returns the error of the sink and reads nothing. -/
theorem encryptStream_header_write_error (L : CryptoLib) (rnd : Rand) (inp : Reader)
    (d w : List Byte) (n : Nat) (we : Err) (plan : List WriteOutcome)
    (hsalt : (rnd.Read SaltSize).2.1 = none)
    (hnonce : ((rnd.Read SaltSize).2.2.Read NonceSize).2.1 = none) :
    encryptStream L rnd inp ⟨d, .fail n we :: plan⟩ w =
      ⟨.returned (some we), inp, ⟨d ++ (drawnSalt rnd).take n, plan⟩, [], []⟩ ∧
    encryptStream L rnd inp ⟨d, .ok :: .fail n we :: plan⟩ w =
      ⟨.returned (some we), inp, ⟨d ++ drawnSalt rnd ++ (drawnNonce rnd).take n, plan⟩, [], []⟩ := by
  unfold encryptStream
  unfold drawnSalt drawnNonce at *
  rcases h1 : rnd.Read SaltSize with ⟨salt, e1, rnd1⟩
  rw [h1] at hsalt hnonce
  dsimp only at hsalt hnonce ⊢
  subst hsalt
  dsimp only
  rcases h2 : rnd1.Read NonceSize with ⟨nonce, e2, rnd2⟩
  rw [h2] at hnonce
  dsimp only at hnonce ⊢
  subst hnonce
  dsimp only
  constructor
  · rw [Write_fail]
  · rw [Write_ok]
    dsimp only
    rw [Write_fail]

/-- `io.ReadFull` on a source whose next read delivers exactly the bytes asked for. -/
theorem ReadFull_cons_eq (x : List Byte) (rest : Reader) (n : Nat) (hn : 0 < n)
    (h : x.length = n) : ReadFull (⟨x, none⟩ :: rest) n = some (x, none, rest) := by
  obtain ⟨f, hf⟩ : ∃ f, Reader.fuel (⟨x, none⟩ :: rest) = f + 1 := ⟨_, rfl⟩
  unfold ReadFull
  rw [ReadFull_loop_succ, if_pos ⟨by simpa using hn, rfl⟩]
  simp only [List.length_nil, Nat.sub_zero, List.nil_append]
  rw [Read_cons_le _ _ _ (Nat.le_of_eq h), hf, ReadFull_loop_succ, if_neg (by simp [h])]
  simp only [h, ge_iff_le, le_refl, if_true]
  rw [copy_replicate _ _ h]

theorem bytes_ofReads (packets : List (List Byte)) :
    Reader.bytes (Reader.ofReads packets) = packets.flatten := by
  simp [Reader.bytes, Reader.ofReads, Function.comp_def]

/-- `io.ReadFull` takes a non-empty front part off a source read in full buffers
that holds more. -/
theorem ReadFull_ofBytes_append (a b : List Byte) (ha : 0 < a.length) (hb : b ≠ []) :
    ReadFull (Reader.ofBytes (a ++ b)) a.length = some (a, none, Reader.ofBytes b) := by
  have hbl : 0 < b.length := List.length_pos.mpr hb
  rw [ReadFull_ofBytes_ge _ _ ha (by rw [List.length_append]; omega),
    if_neg (by rw [List.length_append]; omega), List.take_left' rfl, List.drop_left' rfl]

/-- `decryptStream` when the first read after the header delivers bytes that do
not open under the base nonce: it returns the authentication error, with nothing
written. -/
theorem decryptStream_first_block_rejected (L : CryptoLib) (inp inp1 : Reader)
    (salt nonce w data : List Byte) (rest : Reader)
    (hsalt : ReadFull inp SaltSize = some (salt, none, inp1))
    (hnonce : ReadFull inp1 NonceSize = some (nonce, none, ⟨data, none⟩ :: rest))
    (hk : (deriveKey L w salt).length = 32)
    (hne : data ≠ []) (hle : data.length ≤ ChunkSize + L.Overhead)
    (hopen : L.Open (deriveKey L w salt) nonce data [] = none) :
    decryptStream L inp Writer.new w =
      ⟨.returned (some authError), rest, Writer.new, nonce, [(nonce, data)]⟩ := by
  have hl := decryptLoop_open_fails L (deriveKey L w salt) (ChunkSize + L.Overhead) data hne hle
    nonce hopen none rest Writer.new []
  have hpre := decryptStream_after_reads L inp inp1 salt nonce w [] [] ⟨data, none⟩ rest [] []
    hsalt hnonce hk (by intro b hb; cases hb) rfl
    (by
      have : (decryptLoop L (deriveKey L w salt) (ChunkSize + L.Overhead) 1
          ⟨⟨data, none⟩ :: rest, Writer.new, nonce, []⟩).ret ≠ .unfinished := by
        rw [hl]; intro h; cases h
      exact this)
  exact hpre.trans hl

/-! ### Prefixes of a stream -/

/-- A non-empty byte string that fits the buffer is one slice. -/
theorem chunksOf_single (size : Nat) (hs : 0 < size) (x : List Byte) (hx : x ≠ [])
    (hle : x.length ≤ size) : chunksOf size x = [x] := by
  have h := chunksOf_flatten size hs [x] ⟨List.length_pos.mpr hx, hle⟩
  simpa using h

/-- The first `m` slices of a framed list with more than `m` slices are full, and
hold the first `m * size` bytes. -/
theorem Framed_take (size : Nat) (hs : 0 < size) :
    ∀ (cs : List (List Byte)), Framed size cs → ∀ m, m < cs.length →
      Framed size (cs.take m) ∧ (cs.take m).flatten = cs.flatten.take (m * size) ∧
        (cs.take m).flatten.length = m * size
  | [], _, m, hm => by simp at hm
  | [c], _, m, hm => by
    have : m = 0 := by simp at hm; omega
    subst this
    simp [Framed]
  | c :: d :: rest, h, 0, _ => by simp [Framed]
  | c :: d :: rest, h, m + 1, hm => by
    have hm1 : m < (d :: rest).length := by
      simp only [List.length_cons] at hm ⊢; omega
    obtain ⟨ih1, ih2, ih3⟩ := Framed_take size hs (d :: rest) h.2 m hm1
    have hc : c.length = size := h.1
    refine ⟨?_, ?_, ?_⟩
    · rw [List.take_succ_cons]
      cases m with
      | zero =>
        rw [List.take_zero]
        exact ⟨by omega, by omega⟩
      | succ j =>
        rw [List.take_succ_cons] at ih1 ⊢
        exact ⟨hc, ih1⟩
    · rw [List.take_succ_cons, List.flatten_cons, List.flatten_cons, ih2,
        show (m + 1) * size = c.length + m * size by rw [Nat.succ_mul, hc, Nat.add_comm],
        List.take_append]
    · rw [List.take_succ_cons, List.flatten_cons, List.length_append, ih3, hc, Nat.succ_mul,
        Nat.add_comm]

theorem sealFrom_take (L : CryptoLib) (key base : List Byte) (m : Nat) :
    ∀ (k : Nat) (cs : List (List Byte)),
      (sealFrom L key base k cs).take m = sealFrom L key base k (cs.take m) := by
  induction m with
  | zero => intro k cs; simp [sealFrom]
  | succ m ih =>
    intro k cs
    cases cs with
    | nil => simp [sealFrom]
    | cons c cs => simp only [sealFrom, List.take_succ_cons, ih]

/-- With more than `m` slices, `m` full slices do not use up the bytes. -/
theorem chunksOf_take_lt (size : Nat) (hs : 0 < size) (p : List Byte) (m : Nat)
    (hm : m < (chunksOf size p).length) : m * size < p.length := by
  have hf := chunksOf_framed size hs p
  obtain ⟨_, _, h3⟩ := Framed_take size hs _ hf m hm
  have hsplit := List.take_append_drop m (chunksOf size p)
  have hd : (chunksOf size p).drop m ≠ [] := by
    intro h0
    have := congrArg List.length h0
    rw [List.length_drop, List.length_nil] at this
    omega
  rcases hcs : (chunksOf size p).drop m with _ | ⟨c, rest⟩
  · exact absurd hcs hd
  · have hc : c ∈ chunksOf size p := List.mem_of_mem_drop (by rw [hcs]; exact List.mem_cons_self _ _)
    have hpos := (Framed_mem size hs _ hf c hc).1
    have hlen := congrArg (fun x => x.flatten.length) hsplit
    simp only [List.flatten_append, List.length_append, hcs, List.flatten_cons, h3,
      flatten_chunksOf size hs p] at hlen
    omega

theorem chunksOf_twoChunks : chunksOf ChunkSize twoChunks = [List.replicate ChunkSize 7, [8]] := by
  have h := chunksOf_flatten ChunkSize ChunkSize_pos [List.replicate ChunkSize 7, [8]]
    ⟨List.length_replicate _ _, Nat.one_pos, ChunkSize_pos⟩
  simpa [twoChunks] using h

/-- When every block opens, the plaintexts are, index by index, what `Open` gives
for the blocks under their nonces. -/
theorem openChunks_true (L : CryptoLib) (key base : List Byte) :
    ∀ (blocks ps : List (List Byte)) (k : Nat), openChunks L key base k blocks = (ps, true) →
      ps.length = blocks.length ∧
      ∀ j, ps[j]? = blocks[j]?.bind fun b => L.Open key (chunkNonceAt base (k + j)) b []
  | [], ps, k, h => by
    simp only [openChunks, Prod.mk.injEq, and_true] at h
    subst h
    simp
  | b :: bs, ps, k, h => by
    rcases hop : L.Open key (chunkNonceAt base k) b [] with _ | p
    · simp [openChunks, hop] at h
    · simp only [openChunks, hop, Prod.mk.injEq] at h
      obtain ⟨hps, hok⟩ := h
      have hrest : openChunks L key base (k + 1) bs =
          ((openChunks L key base (k + 1) bs).1, true) := by
        rw [← hok]
      obtain ⟨hl, hj⟩ := openChunks_true L key base bs _ (k + 1) hrest
      subst hps
      refine ⟨by simp [hl], ?_⟩
      intro j
      cases j with
      | zero => simp [hop]
      | succ i =>
        simp only [List.getElem?_cons_succ, hj i]
        rw [show k + 1 + i = k + (i + 1) by omega]

/-- What `decryptStream` does with the stream a successful `encryptStream` wrote,
both sources read in full buffers: it returns `nil` and writes the plaintext. -/
theorem decryptStream_encryptStream (L : CryptoLib)
    (hopen : ∀ k n p, L.Open k n (L.Seal k n p []) [] = some p)
    (hlen : ∀ k n p, (L.Seal k n p []).length = p.length + L.Overhead)
    (rnd : Rand) (p w : List Byte) (plan : List WriteOutcome)
    (henc : (encryptStream L rnd (Reader.ofBytes p) ⟨[], plan⟩ w).ret = .returned none) :
    (decryptStream L (Reader.ofBytes (encryptStream L rnd (Reader.ofBytes p) ⟨[], plan⟩ w).out.data)
      Writer.new w).ret = .returned none ∧
    (decryptStream L (Reader.ofBytes (encryptStream L rnd (Reader.ofBytes p) ⟨[], plan⟩ w).out.data)
      Writer.new w).out.data = p := by
  obtain ⟨hk, hdata⟩ := encryptStream_ofBytes L rnd p ⟨[], plan⟩ w henc
  rw [hdata, List.nil_append]
  have hd := decryptStream_ofBytes L (drawnSalt rnd) (drawnNonce rnd)
    (sealChunks L (deriveKey L w (drawnSalt rnd)) (drawnNonce rnd) (chunksOf ChunkSize p)).flatten
    [] w (drawnSalt_length rnd) (drawnNonce_length rnd) hk
  rw [chunksOf_sealChunks L hlen, openChunks_sealChunks L hopen] at hd
  refine ⟨hd.1, ?_⟩
  rw [Writer.new, hd.2]
  exact flatten_chunksOf ChunkSize ChunkSize_pos p

/-- The first 56 bytes of the stream a successful `encryptStream` wrote are the
salt and the base nonce it drew. -/
theorem encryptStream_header (L : CryptoLib) (rnd : Rand) (p w : List Byte)
    (plan : List WriteOutcome)
    (henc : (encryptStream L rnd (Reader.ofBytes p) ⟨[], plan⟩ w).ret = .returned none) :
    (encryptStream L rnd (Reader.ofBytes p) ⟨[], plan⟩ w).out.data.take 56 =
      drawnSalt rnd ++ drawnNonce rnd := by
  obtain ⟨_, hdata⟩ := encryptStream_ofBytes L rnd p ⟨[], plan⟩ w henc
  rw [hdata, List.nil_append]
  exact List.take_left' (by rw [List.length_append, drawnSalt_length, drawnNonce_length])

/-! ### Bounds of the slice accesses -/

/-- `incrementNonce` is in bounds exactly on buffers of at least 24 bytes. -/
theorem incrementNonce_in_bounds (b : List Byte) : incrementNonce b ≠ none ↔ 24 ≤ b.length := by
  constructor
  · intro h
    by_contra hlt
    apply h
    by_cases h16 : b.length < 16
    · simp only [incrementNonce, if_pos h16]
    · have hc : (b.drop 16).length < 8 := by rw [List.length_drop]; omega
      simp only [incrementNonce, if_neg h16, Uint64_eq_none _ hc]
  · intro h
    obtain ⟨_, b1, _, _, hinc, _⟩ := incrementNonce_spec b h
    rw [hinc]
    simp

/-- The nonce of every `Seal` call of a run of `encryptStream` has 24 bytes. -/
theorem encryptStream_calls_length (L : CryptoLib) (rnd : Rand) (inp : Reader) (out : Writer)
    (w : List Byte) : ∀ c ∈ (encryptStream L rnd inp out w).calls, c.1.length = 24 := by
  intro c hc
  have hb : 24 ≤ (drawnNonce rnd).length := by rw [drawnNonce_length]
  have hmem : c.1 ∈ (encryptStream L rnd inp out w).calls.map Prod.fst :=
    List.mem_map_of_mem _ hc
  rw [encryptStream_calls, List.mem_map] at hmem
  obtain ⟨i, _, hi⟩ := hmem
  rw [← hi, chunkNonceAt_length _ hb, drawnNonce_length]

/-- The nonce of every `Open` call of a run of `decryptStream` has 24 bytes. -/
theorem decryptStream_calls_length (L : CryptoLib) (inp : Reader) (out : Writer)
    (w : List Byte) : ∀ c ∈ (decryptStream L inp out w).calls, c.1.length = 24 := by
  intro c hc
  rcases decryptStream_cases L inp out w with
    ⟨err, inp1, h, _⟩ | ⟨salt, nonce, inp1, inp2, hs, hn, hlen, _, _⟩
  · rw [h] at hc
    simp at hc
  · have hmem : c.1 ∈ (decryptStream L inp out w).calls.map Prod.fst :=
      List.mem_map_of_mem _ hc
    rw [decryptStream_calls L inp out w salt nonce inp1 inp2 hs hn, List.mem_map] at hmem
    obtain ⟨i, _, hi⟩ := hmem
    rw [← hi, chunkNonceAt_length _ (by omega), hlen]

/-! ### Round trip and container format -/

/-- C1. Round trip: when `encryptStream` succeeds on a source that holds `p` and
is read in full buffers, `decryptStream` with the same passphrase on the bytes
written (again read in full buffers, into a sink that takes every write) returns
`nil` and writes exactly `p`. Hypotheses on the cipher: `Open` recovers what
`Seal` sealed, and `Seal` adds `Overhead()` bytes. The key derivation is a
function, hence deterministic. -/
theorem round_trip (L : CryptoLib)
    (hopen : ∀ k n p, L.Open k n (L.Seal k n p []) [] = some p)
    (hlen : ∀ k n p, (L.Seal k n p []).length = p.length + L.Overhead)
    (rnd : Rand) (p w : List Byte) (plan : List WriteOutcome)
    (henc : (encryptStream L rnd (Reader.ofBytes p) ⟨[], plan⟩ w).ret = .returned none) :
    (decryptStream L (Reader.ofBytes (encryptStream L rnd (Reader.ofBytes p) ⟨[], plan⟩ w).out.data)
      Writer.new w).ret = .returned none ∧
    (decryptStream L (Reader.ofBytes (encryptStream L rnd (Reader.ofBytes p) ⟨[], plan⟩ w).out.data)
      Writer.new w).out.data = p := by
  obtain ⟨hk, hdata⟩ := encryptStream_ofBytes L rnd p ⟨[], plan⟩ w henc
  rw [hdata, List.nil_append]
  have hd := decryptStream_ofBytes L (drawnSalt rnd) (drawnNonce rnd)
    (sealChunks L (deriveKey L w (drawnSalt rnd)) (drawnNonce rnd) (chunksOf ChunkSize p)).flatten
    [] w (drawnSalt_length rnd) (drawnNonce_length rnd) hk
  rw [chunksOf_sealChunks L hlen, openChunks_sealChunks L hopen] at hd
  refine ⟨hd.1, ?_⟩
  rw [Writer.new, hd.2]
  exact flatten_chunksOf ChunkSize ChunkSize_pos p

theorem round_trip_witness :
    (encryptStream toyLib countingRand (Reader.ofBytes [1, 2, 3]) ⟨[], []⟩ [9]).ret =
      .returned none ∧
    (decryptStream toyLib (Reader.ofBytes
        (encryptStream toyLib countingRand (Reader.ofBytes [1, 2, 3]) ⟨[], []⟩ [9]).out.data)
      Writer.new [9]).ret = .returned none ∧
    (decryptStream toyLib (Reader.ofBytes
        (encryptStream toyLib countingRand (Reader.ofBytes [1, 2, 3]) ⟨[], []⟩ [9]).out.data)
      Writer.new [9]).out.data = [1, 2, 3] :=
  ⟨by decide, round_trip toyLib toy_open_seal toy_seal_length countingRand [1, 2, 3] [9] []
    (by decide)⟩

/-- C2. Container format: when `encryptStream` succeeds on a source that holds `p`
and is read in full buffers, the bytes written are the salt (32 bytes), the base
nonce (24 bytes) and then, for i = 0, 1, ..., `Seal(key, nonce of chunk i, P_i)`
with no associated data, where `key` is derived from passphrase and salt, the
nonce of chunk `i` is the base nonce after `i` calls of `incrementNonce`, and the
`P_i` are the consecutive 65536-byte slices of `p` (none empty, only the last may
be shorter). With a cipher that adds 16 bytes, every chunk occupies
`len(P_i) + 16` bytes, so the stream has `56 + len(p) + 16 * chunks` bytes. -/
theorem container_format (L : CryptoLib)
    (hlen : ∀ k n p, (L.Seal k n p []).length = p.length + 16)
    (rnd : Rand) (p w : List Byte) (plan : List WriteOutcome)
    (henc : (encryptStream L rnd (Reader.ofBytes p) ⟨[], plan⟩ w).ret = .returned none) :
    (encryptStream L rnd (Reader.ofBytes p) ⟨[], plan⟩ w).out.data =
      drawnSalt rnd ++ drawnNonce rnd ++
        (sealChunks L (deriveKey L w (drawnSalt rnd)) (drawnNonce rnd)
          (chunksOf 65536 p)).flatten ∧
    (drawnSalt rnd).length = 32 ∧ (drawnNonce rnd).length = 24 ∧
    (chunksOf 65536 p).flatten = p ∧
    (∀ c ∈ chunksOf 65536 p, 0 < c.length ∧ c.length ≤ 65536) ∧
    (∀ c ∈ (chunksOf 65536 p).dropLast, c.length = 65536) ∧
    (∀ i, (sealChunks L (deriveKey L w (drawnSalt rnd)) (drawnNonce rnd) (chunksOf 65536 p))[i]? =
      (chunksOf 65536 p)[i]?.map fun c =>
        L.Seal (deriveKey L w (drawnSalt rnd)) (chunkNonceAt (drawnNonce rnd) i) c []) ∧
    (∀ i, incrementNonceN i (drawnNonce rnd) = some (chunkNonceAt (drawnNonce rnd) i)) ∧
    (∀ i c, (chunksOf 65536 p)[i]? = some c →
      (L.Seal (deriveKey L w (drawnSalt rnd)) (chunkNonceAt (drawnNonce rnd) i) c []).length =
        c.length + 16) ∧
    (encryptStream L rnd (Reader.ofBytes p) ⟨[], plan⟩ w).out.data.length =
      56 + p.length + 16 * (chunksOf 65536 p).length := by
  obtain ⟨_, hdata⟩ := encryptStream_ofBytes L rnd p ⟨[], plan⟩ w henc
  have hpos : 0 < 65536 := by decide
  have hfr := chunksOf_framed 65536 hpos p
  have hflat := flatten_chunksOf 65536 hpos p
  refine ⟨by rw [hdata]; rfl, drawnSalt_length rnd, drawnNonce_length rnd, hflat,
    Framed_mem 65536 hpos _ hfr, Framed_dropLast 65536 _ hfr, ?_,
    incrementNonceN_chunkNonceAt _ (by rw [drawnNonce_length]), fun _ _ _ => hlen _ _ _, ?_⟩
  · intro i
    rw [sealChunks, sealFrom_getElem?, Nat.zero_add]
  · rw [hdata]
    simp only [List.length_append, List.length_nil, drawnSalt_length, drawnNonce_length]
    have := sealFrom_flatten_length L 16 hlen (deriveKey L w (drawnSalt rnd)) (drawnNonce rnd) 0
      (chunksOf 65536 p)
    rw [hflat] at this
    rw [sealChunks]
    show _ + (sealFrom L _ _ 0 (chunksOf 65536 p)).flatten.length = _
    rw [this]
    omega

theorem container_format_witness :
    (encryptStream toyLib countingRand (Reader.ofBytes [1, 2, 3]) ⟨[], []⟩ [9]).ret =
      .returned none ∧
    (encryptStream toyLib countingRand (Reader.ofBytes [1, 2, 3]) ⟨[], []⟩ [9]).out.data.length =
      56 + [(1 : Byte), 2, 3].length + 16 * (chunksOf 65536 [1, 2, 3]).length :=
  ⟨by decide, (container_format toyLib toy_seal_length16 countingRand [1, 2, 3] [9] []
    (by decide)).2.2.2.2.2.2.2.2.2⟩

/-! ### Truncated streams -/

/-- C3, as stated, fails: on a source that holds no byte `decryptStream` returns
`io.EOF`, and on one that holds 40 bytes `io.ErrUnexpectedEOF`; neither has the
message "truncated header". -/
theorem truncated_header_is_eof :
    (decryptStream toyLib (Reader.ofBytes []) Writer.new [9]).ret = .returned (some Err.EOF) ∧
    Err.EOF.Error = "EOF" ∧ Err.EOF.Error ≠ "truncated header" ∧
    (decryptStream toyLib (Reader.ofBytes (List.replicate 40 0)) Writer.new [9]).ret =
      .returned (some Err.ErrUnexpectedEOF) ∧
    Err.ErrUnexpectedEOF.Error = "unexpected EOF" ∧
    Err.ErrUnexpectedEOF.Error ≠ "truncated header" := by
  decide

/-- C3, amended: for every source that holds fewer than 56 bytes and reports no
error other than end of input, and every passphrase, `decryptStream` fails with
the error of `io.ReadFull`, which is `io.EOF` or `io.ErrUnexpectedEOF`, opens
nothing and leaves the sink as it was. -/
theorem truncated_header (L : CryptoLib) (inp : Reader) (out : Writer) (w : List Byte)
    (hclean : ∀ e ∈ inp, e.err = none ∨ e.err = some Err.EOF)
    (hshort : (Reader.bytes inp).length < 56) :
    ((decryptStream L inp out w).ret = .returned (some Err.EOF) ∨
      (decryptStream L inp out w).ret = .returned (some Err.ErrUnexpectedEOF)) ∧
    (decryptStream L inp out w).out = out ∧ (decryptStream L inp out w).calls = [] := by
  unfold decryptStream
  rcases ReadFull_clean inp SaltSize hclean with ⟨salt, inp1, h1, hb1, hc1⟩ | ⟨_, err, inp1, h1, he⟩
  · rw [h1]
    dsimp only
    rcases ReadFull_clean inp1 NonceSize hc1 with ⟨nonce, inp2, h2, hb2, _⟩ | ⟨_, err, inp2, h2, he⟩
    · simp only [SaltSize, NonceSize] at hb1 hb2
      omega
    · rw [h2]
      dsimp only
      rcases he with rfl | rfl
      · exact ⟨Or.inl rfl, rfl, rfl⟩
      · exact ⟨Or.inr rfl, rfl, rfl⟩
  · rw [h1]
    dsimp only
    rcases he with rfl | rfl
    · exact ⟨Or.inl rfl, rfl, rfl⟩
    · exact ⟨Or.inr rfl, rfl, rfl⟩

theorem truncated_header_witness :
    (∀ e ∈ Reader.ofBytes (List.replicate 40 0), e.err = none ∨ e.err = some Err.EOF) ∧
    (Reader.bytes (Reader.ofBytes (List.replicate 40 0))).length < 56 ∧
    ((decryptStream toyLib (Reader.ofBytes (List.replicate 40 0)) Writer.new [9]).ret =
        .returned (some Err.EOF) ∨
      (decryptStream toyLib (Reader.ofBytes (List.replicate 40 0)) Writer.new [9]).ret =
        .returned (some Err.ErrUnexpectedEOF)) ∧
    (decryptStream toyLib (Reader.ofBytes (List.replicate 40 0)) Writer.new [9]).out =
      Writer.new ∧
    (decryptStream toyLib (Reader.ofBytes (List.replicate 40 0)) Writer.new [9]).calls = [] :=
  ⟨by decide, by decide,
    truncated_header toyLib (Reader.ofBytes (List.replicate 40 0)) Writer.new [9] (by decide)
      (by decide)⟩

/-- C4, as stated, fails: on a stream of a header and 5 more bytes `decryptStream`
returns the error it returns for a chunk that fails authentication, whose message
is not "truncated ciphertext". -/
theorem truncated_chunk_is_auth_error :
    (decryptStream toyLib (Reader.ofBytes (List.replicate 56 0 ++ [1, 2, 3, 4, 5])) Writer.new
      [9]).ret = .returned (some authError) ∧
    authError.Error = "bad password or corrupt data" ∧
    authError.Error ≠ "truncated ciphertext" := by
  decide

/-- C4, amended: for every stream whose reads, after the header and any number of
chunks read without error, reach a read that delivers between 1 and 15 bytes,
`decryptStream` (with a 32-byte key, a cipher that refuses what is shorter than
the 16-byte tag, and a sink that takes every write) fails with the same error as
for a chunk that fails authentication, "bad password or corrupt data"; the
trailing bytes are neither accepted nor dropped silently. -/
theorem truncated_chunk (L : CryptoLib)
    (hshort : ∀ k n c, c.length < 16 → L.Open k n c [] = none)
    (inp inp1 inp2 : Reader) (salt nonce d w : List Byte)
    (hsalt : ReadFull inp SaltSize = some (salt, none, inp1))
    (hnonce : ReadFull inp1 NonceSize = some (nonce, none, inp2))
    (hk : (deriveKey L w salt).length = 32)
    (htail : ShortReadAhead (ChunkSize + L.Overhead) inp2) :
    (decryptStream L inp ⟨d, []⟩ w).ret = .returned (some authError) ∧
    authError.Error = "bad password or corrupt data" := by
  have hn : nonce.length = NonceSize := ReadFull_length _ _ _ _ _ hnonce
  refine ⟨?_, rfl⟩
  unfold decryptStream
  rw [hsalt]
  dsimp only
  rw [hnonce]
  dsimp only
  have hkey : NewX (L.IDKey w salt 1 (64 * 1024) 4 32) = .ok (deriveKey L w salt) :=
    NewX_of_length _ hk
  rw [hkey]
  dsimp only
  rw [copy_replicate NonceSize nonce hn]
  exact decryptLoop_short L hshort _ nonce (by rw [hn]; decide) _
    (Nat.add_pos_left ChunkSize_pos _) inp2 htail _ d 0 [] (Nat.le_refl _)

theorem truncated_chunk_witness :
    ReadFull (Reader.ofBytes (List.replicate 56 0 ++ [1, 2, 3, 4, 5])) SaltSize =
      some (List.replicate 32 0, none, Reader.ofBytes (List.replicate 24 0 ++ [1, 2, 3, 4, 5])) ∧
    ReadFull (Reader.ofBytes (List.replicate 24 0 ++ [1, 2, 3, 4, 5])) NonceSize =
      some (List.replicate 24 0, none, Reader.ofBytes [1, 2, 3, 4, 5]) ∧
    (deriveKey toyLib [9] (List.replicate 32 0)).length = 32 ∧
    (decryptStream toyLib (Reader.ofBytes (List.replicate 56 0 ++ [1, 2, 3, 4, 5])) ⟨[], []⟩
      [9]).ret = .returned (some authError) ∧
    authError.Error = "bad password or corrupt data" :=
  ⟨by decide, by decide, by decide,
    truncated_chunk toyLib toy_open_short (Reader.ofBytes (List.replicate 56 0 ++ [1, 2, 3, 4, 5]))
      (Reader.ofBytes (List.replicate 24 0 ++ [1, 2, 3, 4, 5])) (Reader.ofBytes [1, 2, 3, 4, 5])
      (List.replicate 32 0) (List.replicate 24 0) [] [9] (by decide) (by decide) (by decide)
      (ShortReadAhead.here _ (by decide) (by decide))⟩

/-! ### Tampering and wrong passphrase -/

/-- C5. Tamper detection: when `encryptStream` has succeeded on a source that holds
`p`, read in full buffers, then for every position at or after byte 56 of the
stream it wrote and every bit of that byte, `decryptStream` with the same
passphrase on the stream with that bit inverted returns the authentication error
"bad password or corrupt data", and what it has written to the sink is a prefix of
`p`. Hypotheses on the cipher: `Seal` adds `Overhead()` bytes, and under the nonce
of chunk `i` `Open` accepts the sealed chunk `i`, giving back its plaintext, and
nothing else. (A position at or after byte 56 exists only when `p` is not empty.) -/
theorem tamper_detection (L : CryptoLib)
    (hlen : ∀ k n p, (L.Seal k n p []).length = p.length + L.Overhead)
    (rnd : Rand) (p w : List Byte) (plan : List WriteOutcome)
    (henc : (encryptStream L rnd (Reader.ofBytes p) ⟨[], plan⟩ w).ret = .returned none)
    (hideal : ∀ i c pi, (chunksOf ChunkSize p)[i]? = some pi →
      L.Open (deriveKey L w (drawnSalt rnd)) (chunkNonceAt (drawnNonce rnd) i) c [] =
        if c = L.Seal (deriveKey L w (drawnSalt rnd)) (chunkNonceAt (drawnNonce rnd) i) pi []
        then some pi else none)
    (pos bit : Nat) (hpos : 56 ≤ pos)
    (hlt : pos < (encryptStream L rnd (Reader.ofBytes p) ⟨[], plan⟩ w).out.data.length)
    (hbit : bit < 8) :
    (decryptStream L (Reader.ofBytes
        (flipBit (encryptStream L rnd (Reader.ofBytes p) ⟨[], plan⟩ w).out.data pos bit))
      Writer.new w).ret = .returned (some authError) ∧
    (decryptStream L (Reader.ofBytes
        (flipBit (encryptStream L rnd (Reader.ofBytes p) ⟨[], plan⟩ w).out.data pos bit))
      Writer.new w).out.data <+: p := by
  obtain ⟨hk, hdata⟩ := encryptStream_ofBytes L rnd p ⟨[], plan⟩ w henc
  have hs := drawnSalt_length rnd
  have hn := drawnNonce_length rnd
  have hframe := chunksOf_sealChunks L hlen (deriveKey L w (drawnSalt rnd)) (drawnNonce rnd) p
  have hslen : (sealChunks L (deriveKey L w (drawnSalt rnd)) (drawnNonce rnd)
      (chunksOf ChunkSize p)).length = (chunksOf ChunkSize p).length := sealFrom_length _ _ _ _ _
  generalize (sealChunks L (deriveKey L w (drawnSalt rnd)) (drawnNonce rnd)
    (chunksOf ChunkSize p)).flatten = body at hdata hframe
  rw [hdata] at hlt ⊢
  simp only [List.nil_append, List.length_append, hs, hn] at hlt ⊢
  have h56 : (drawnSalt rnd ++ drawnNonce rnd).length ≤ pos := by
    rw [List.length_append, hs, hn]; exact hpos
  rw [flipBit_append_right _ _ pos bit h56]
  have hoff : pos - (drawnSalt rnd ++ drawnNonce rnd).length = pos - 56 := by
    rw [List.length_append, hs, hn]
  rw [hoff]
  have hcap : 0 < ChunkSize + L.Overhead := Nat.add_pos_left ChunkSize_pos _
  have hbl := flipBit_length body (pos - 56) bit
  have hbne := flipBit_ne body (pos - 56) bit (by omega) hbit
  have hblocks := chunksOf_length_congr (ChunkSize + L.Overhead) hcap _ _ hbl
  rw [hframe, hslen] at hblocks
  obtain ⟨j, _, hopen⟩ := openChunks_tampered L (deriveKey L w (drawnSalt rnd)) (drawnNonce rnd)
    (chunksOf ChunkSize p) 0 _ hblocks
    (by
      intro heq
      apply hbne
      have h1 := congrArg List.flatten heq
      rw [flatten_chunksOf _ hcap] at h1
      rw [h1]
      have h2 := congrArg List.flatten hframe
      rw [flatten_chunksOf _ hcap] at h2
      exact h2.symm)
    (by
      intro i c pi hi
      rw [Nat.zero_add]
      exact hideal i c pi hi)
  have hdec := decryptStream_ofBytes L (drawnSalt rnd) (drawnNonce rnd)
    (flipBit body (pos - 56) bit) [] w hs hn hk
  rw [hopen] at hdec
  refine ⟨hdec.1, ?_⟩
  rw [Writer.new, hdec.2]
  have := take_flatten_prefix (chunksOf ChunkSize p) j
  rw [flatten_chunksOf ChunkSize ChunkSize_pos p] at this
  exact this

theorem tamper_detection_witness :
    (encryptStream (idealLib [(drawnNonce countingRand, [7])]) countingRand (Reader.ofBytes [7])
      ⟨[], []⟩ [9]).ret = .returned none ∧
    56 < (encryptStream (idealLib [(drawnNonce countingRand, [7])]) countingRand
      (Reader.ofBytes [7]) ⟨[], []⟩ [9]).out.data.length ∧
    (decryptStream (idealLib [(drawnNonce countingRand, [7])]) (Reader.ofBytes
        (flipBit (encryptStream (idealLib [(drawnNonce countingRand, [7])]) countingRand
          (Reader.ofBytes [7]) ⟨[], []⟩ [9]).out.data 56 0))
      Writer.new [9]).ret = .returned (some authError) ∧
    (decryptStream (idealLib [(drawnNonce countingRand, [7])]) (Reader.ofBytes
        (flipBit (encryptStream (idealLib [(drawnNonce countingRand, [7])]) countingRand
          (Reader.ofBytes [7]) ⟨[], []⟩ [9]).out.data 56 0))
      Writer.new [9]).out.data <+: [7] :=
  ⟨by decide, by decide,
    tamper_detection (idealLib [(drawnNonce countingRand, [7])]) (ideal_seal_length _)
      countingRand [7] [9] [] (by decide)
      (by
        intro i c pi hi
        have hch : chunksOf ChunkSize [(7 : Byte)] = [[7]] := by decide
        rw [hch] at hi
        cases i with
        | zero =>
          simp only [List.getElem?_cons_zero, Option.some.injEq] at hi
          subst hi
          exact ideal_open_single _ _ _ _
        | succ n => simp at hi)
      56 0 (by decide) (by decide) (by decide)⟩

/-- C6, as stated, fails for the empty plaintext: the stream is the bare header,
and `decryptStream` with another passphrase (another key, under which `Open`
refuses every chunk sealed under the first) returns `nil`. -/
theorem wrong_passphrase_empty_accepted :
    (encryptStream toyLib countingRand (Reader.ofBytes []) Writer.new [1]).ret = .returned none ∧
    deriveKey toyLib [2] (drawnSalt countingRand) ≠ deriveKey toyLib [1] (drawnSalt countingRand) ∧
    (∀ n c, toyLib.Open (deriveKey toyLib [2] (drawnSalt countingRand)) n
      (toyLib.Seal (deriveKey toyLib [1] (drawnSalt countingRand)) n c []) [] = none) ∧
    (decryptStream toyLib
      (Reader.ofBytes (encryptStream toyLib countingRand (Reader.ofBytes []) Writer.new [1]).out.data)
      Writer.new [2]).ret = .returned none :=
  ⟨by decide, by decide, toy_open_wrong_key _ _ (by decide), by decide⟩

/-- C6, amended: for every plaintext `p` that is not empty and passphrases `w` and
`w1`, when `encryptStream` has succeeded with `w` on a source that holds `p`, read
in full buffers, `decryptStream` with `w1` on the stream written fails with the
authentication error "bad password or corrupt data", the very error value returned
for a tampered chunk, and writes nothing. Hypotheses: the key derived from `w1`
has 32 bytes, `Open` under it refuses what was sealed under the key derived from
`w` (so the keys differ), and `Seal` adds `Overhead()` bytes. -/
theorem wrong_passphrase (L : CryptoLib)
    (hlen : ∀ k n p, (L.Seal k n p []).length = p.length + L.Overhead)
    (rnd : Rand) (p w w1 : List Byte) (plan : List WriteOutcome)
    (henc : (encryptStream L rnd (Reader.ofBytes p) ⟨[], plan⟩ w).ret = .returned none)
    (hp : p ≠ [])
    (hk1 : (deriveKey L w1 (drawnSalt rnd)).length = 32)
    (hfail : ∀ n c, L.Open (deriveKey L w1 (drawnSalt rnd)) n
      (L.Seal (deriveKey L w (drawnSalt rnd)) n c []) [] = none) :
    (decryptStream L (Reader.ofBytes (encryptStream L rnd (Reader.ofBytes p) ⟨[], plan⟩ w).out.data)
      Writer.new w1).ret = .returned (some authError) ∧
    (decryptStream L (Reader.ofBytes (encryptStream L rnd (Reader.ofBytes p) ⟨[], plan⟩ w).out.data)
      Writer.new w1).out.data = [] ∧
    authError.Error = "bad password or corrupt data" := by
  obtain ⟨_, hdata⟩ := encryptStream_ofBytes L rnd p ⟨[], plan⟩ w henc
  rw [hdata, List.nil_append]
  have hd := decryptStream_ofBytes L (drawnSalt rnd) (drawnNonce rnd)
    (sealChunks L (deriveKey L w (drawnSalt rnd)) (drawnNonce rnd) (chunksOf ChunkSize p)).flatten
    [] w1 (drawnSalt_length rnd) (drawnNonce_length rnd) hk1
  have hne : chunksOf ChunkSize p ≠ [] := by
    rw [chunksOf_cons ChunkSize ChunkSize_pos p hp]
    exact List.cons_ne_nil _ _
  rw [chunksOf_sealChunks L hlen, openChunks_wrong_key L _ _ _ hfail _ hne] at hd
  exact ⟨hd.1, by rw [Writer.new, hd.2]; rfl, rfl⟩

theorem wrong_passphrase_witness :
    (encryptStream toyLib countingRand (Reader.ofBytes [1, 2, 3]) ⟨[], []⟩ [1]).ret =
      .returned none ∧
    [(1 : Byte), 2, 3] ≠ [] ∧
    (deriveKey toyLib [2] (drawnSalt countingRand)).length = 32 ∧
    (decryptStream toyLib (Reader.ofBytes
        (encryptStream toyLib countingRand (Reader.ofBytes [1, 2, 3]) ⟨[], []⟩ [1]).out.data)
      Writer.new [2]).ret = .returned (some authError) ∧
    (decryptStream toyLib (Reader.ofBytes
        (encryptStream toyLib countingRand (Reader.ofBytes [1, 2, 3]) ⟨[], []⟩ [1]).out.data)
      Writer.new [2]).out.data = [] ∧
    authError.Error = "bad password or corrupt data" :=
  ⟨by decide, by decide, by decide,
    wrong_passphrase toyLib toy_seal_length countingRand [1, 2, 3] [1] [2] [] (by decide)
      (by decide) (by decide) (toy_open_wrong_key _ _ (by decide))⟩

/-! ### Empty input -/

/-- C7. Empty input: for every passphrase, with a random source that delivers, a
key of 32 bytes and sinks that take every write, `encryptStream` on a source
that delivers no byte returns `nil`, seals no chunk and writes exactly the 56
bytes of salt and base nonce; `decryptStream` on those 56 bytes returns `nil`
and writes nothing. -/
theorem empty_input (L : CryptoLib) (rnd : Rand) (inp : Reader) (w : List Byte)
    (hinp : ∀ e ∈ inp, e.data = [] ∧ (e.err = none ∨ e.err = some Err.EOF))
    (hsalt : (rnd.Read SaltSize).2.1 = none)
    (hnonce : ((rnd.Read SaltSize).2.2.Read NonceSize).2.1 = none)
    (hk : (deriveKey L w (drawnSalt rnd)).length = 32) :
    (encryptStream L rnd inp Writer.new w).ret = .returned none ∧
    (encryptStream L rnd inp Writer.new w).calls = [] ∧
    (encryptStream L rnd inp Writer.new w).out.data = drawnSalt rnd ++ drawnNonce rnd ∧
    (drawnSalt rnd).length = 32 ∧ (drawnNonce rnd).length = 24 ∧
    (encryptStream L rnd inp Writer.new w).out.data.length = 56 ∧
    (decryptStream L (Reader.ofBytes (encryptStream L rnd inp Writer.new w).out.data)
      Writer.new w).ret = .returned none ∧
    (decryptStream L (Reader.ofBytes (encryptStream L rnd inp Writer.new w).out.data)
      Writer.new w).out.data = [] := by
  have henc := encryptStream_new L rnd inp [] w hsalt hnonce hk
  obtain ⟨hret, hout, hcalls⟩ := encryptLoop_empty L (deriveKey L w (drawnSalt rnd)) inp hinp
    (Reader.fuel inp) ⟨[] ++ drawnSalt rnd ++ drawnNonce rnd, []⟩ (drawnNonce rnd) []
    (fuel_ge_length inp)
  have hdata : (encryptStream L rnd inp Writer.new w).out.data =
      drawnSalt rnd ++ drawnNonce rnd := by
    rw [Writer.new, henc, hout, List.nil_append]
  have hdec := decryptStream_ofBytes L (drawnSalt rnd) (drawnNonce rnd) [] [] w
    (drawnSalt_length rnd) (drawnNonce_length rnd) hk
  rw [List.append_nil, chunksOf_nil] at hdec
  refine ⟨by rw [Writer.new, henc, hret], by rw [Writer.new, henc, hcalls], hdata,
    drawnSalt_length rnd, drawnNonce_length rnd, ?_, ?_, ?_⟩
  · rw [hdata, List.length_append, drawnSalt_length, drawnNonce_length]
  · rw [hdata]; exact hdec.1
  · rw [hdata, Writer.new, hdec.2]; rfl

theorem empty_input_witness :
    (encryptStream toyLib countingRand (Reader.ofBytes []) Writer.new [9]).ret = .returned none ∧
    (encryptStream toyLib countingRand (Reader.ofBytes []) Writer.new [9]).calls = [] ∧
    (encryptStream toyLib countingRand (Reader.ofBytes []) Writer.new [9]).out.data =
      drawnSalt countingRand ++ drawnNonce countingRand ∧
    (drawnSalt countingRand).length = 32 ∧ (drawnNonce countingRand).length = 24 ∧
    (encryptStream toyLib countingRand (Reader.ofBytes []) Writer.new [9]).out.data.length = 56 ∧
    (decryptStream toyLib
      (Reader.ofBytes (encryptStream toyLib countingRand (Reader.ofBytes []) Writer.new [9]).out.data)
      Writer.new [9]).ret = .returned none ∧
    (decryptStream toyLib
      (Reader.ofBytes (encryptStream toyLib countingRand (Reader.ofBytes []) Writer.new [9]).out.data)
      Writer.new [9]).out.data = [] :=
  empty_input toyLib countingRand (Reader.ofBytes []) [9] (by decide) (by decide) (by decide)
    (by decide)

/-! ### The nonce counter -/

/-- C8. `incrementNonce` arithmetic: for every 24-byte nonce `b`, the call returns
normally and the little-endian unsigned 64-bit value of bytes 16..23 afterwards is
the value before plus one, modulo `2 ^ 64`. -/
theorem incrementNonce_counter (b : List Byte) (hb : b.length = 24) :
    ∃ v b1, counterOf b = some v ∧ incrementNonce b = some b1 ∧
      counterOf b1 = some ((v + 1) % 2 ^ 64) := by
  obtain ⟨v, b1, hv, _, hinc, _, _, hcnt⟩ := incrementNonce_spec b (by omega)
  exact ⟨v, b1, hv, hinc, hcnt⟩

theorem incrementNonce_counter_witness :
    (List.replicate 24 (255 : Byte)).length = 24 ∧
    ∃ v b1, counterOf (List.replicate 24 (255 : Byte)) = some v ∧
      incrementNonce (List.replicate 24 (255 : Byte)) = some b1 ∧
      counterOf b1 = some ((v + 1) % 2 ^ 64) :=
  ⟨by decide, incrementNonce_counter (List.replicate 24 (255 : Byte)) (by decide)⟩

/-- C9. Nonce uniqueness: in every run of `encryptStream`, the `Seal` call of chunk
`i` uses the drawn base nonce after exactly `i` calls of `incrementNonce`, and if
the run seals fewer than `2 ^ 64` chunks, no two of its `Seal` calls use the same
nonce. -/
theorem nonce_uniqueness (L : CryptoLib) (rnd : Rand) (inp : Reader) (out : Writer)
    (w : List Byte)
    (hlt : (encryptStream L rnd inp out w).calls.length < 2 ^ 64) :
    (encryptStream L rnd inp out w).calls.map Prod.fst =
      (List.range (encryptStream L rnd inp out w).calls.length).map
        (chunkNonceAt (drawnNonce rnd)) ∧
    (∀ i, incrementNonceN i (drawnNonce rnd) = some (chunkNonceAt (drawnNonce rnd) i)) ∧
    ((encryptStream L rnd inp out w).calls.map Prod.fst).Nodup ∧
    (∀ i j, i < (encryptStream L rnd inp out w).calls.length →
      j < (encryptStream L rnd inp out w).calls.length → i ≠ j →
      ((encryptStream L rnd inp out w).calls.map Prod.fst)[i]? ≠
        ((encryptStream L rnd inp out w).calls.map Prod.fst)[j]?) := by
  have hb : 24 ≤ (drawnNonce rnd).length := by rw [drawnNonce_length]
  have hcalls := encryptStream_calls L rnd inp out w
  have hnd : ((encryptStream L rnd inp out w).calls.map Prod.fst).Nodup := by
    rw [hcalls]
    exact chunkNonceAt_nodup _ hb _ (Nat.le_of_lt hlt)
  refine ⟨hcalls, incrementNonceN_chunkNonceAt _ hb, hnd, ?_⟩
  intro i j hi hj hij heq
  have hi' : i < ((encryptStream L rnd inp out w).calls.map Prod.fst).length := by
    rw [List.length_map]; exact hi
  have hj' : j < ((encryptStream L rnd inp out w).calls.map Prod.fst).length := by
    rw [List.length_map]; exact hj
  rw [List.getElem?_eq_getElem hi', List.getElem?_eq_getElem hj'] at heq
  exact hij ((List.Nodup.getElem_inj_iff hnd).mp (Option.some.inj heq))

theorem nonce_uniqueness_witness :
    (encryptStream toyLib countingRand [⟨[1], none⟩, ⟨[2], none⟩] Writer.new [9]).calls.length
      < 2 ^ 64 ∧
    (encryptStream toyLib countingRand [⟨[1], none⟩, ⟨[2], none⟩] Writer.new [9]).calls.length
      = 2 ∧
    ((encryptStream toyLib countingRand [⟨[1], none⟩, ⟨[2], none⟩] Writer.new [9]).calls.map
      Prod.fst).Nodup :=
  ⟨by decide, by decide, (nonce_uniqueness toyLib countingRand [⟨[1], none⟩, ⟨[2], none⟩] Writer.new [9]
    (by decide)).2.2.1⟩

/-- C10, as stated, fails: with a base nonce whose counter is `2 ^ 64 - 1` the
counter of the second chunk is 0, `incrementNonce` returns normally and
`encryptStream` returns `nil`. -/
theorem counter_wraps_silently :
    counterOf (drawnNonce onesRand) = some (2 ^ 64 - 1) ∧
    (incrementNonce (drawnNonce onesRand)).bind counterOf = some 0 ∧
    (encryptStream toyLib onesRand [⟨[1], none⟩, ⟨[2], none⟩] Writer.new [9]).ret =
      .returned none ∧
    (encryptStream toyLib onesRand [⟨[1], none⟩, ⟨[2], none⟩] Writer.new [9]).calls.map
      (fun c => counterOf c.1) = [some (2 ^ 64 - 1), some 0] := by
  decide

/-- C10, amended: in every run of `encryptStream`, with `v` the counter of the drawn
base nonce, chunk `i` is sealed under the counter value `(v + i) % 2 ^ 64`, and in
every run of `decryptStream` that has read a header, with `v` the counter of the
base nonce read, chunk `i` is opened under the counter value `(v + i) % 2 ^ 64`:
the counter goes up by exactly 1 from chunk to chunk except after `2 ^ 64 - 1`,
where it goes to 0 and the run goes on. -/
theorem counter_mod (L : CryptoLib) (rnd : Rand) (inp : Reader) (out : Writer) (w : List Byte)
    (dinp : Reader) (dout : Writer) (dw salt nonce : List Byte) (inp1 inp2 : Reader)
    (hsalt : ReadFull dinp SaltSize = some (salt, none, inp1))
    (hnonce : ReadFull inp1 NonceSize = some (nonce, none, inp2)) :
    (∃ v, counterOf (drawnNonce rnd) = some v ∧ v < 2 ^ 64 ∧
      (encryptStream L rnd inp out w).calls.map (fun c => counterOf c.1) =
        (List.range (encryptStream L rnd inp out w).calls.length).map
          (fun i => some ((v + i) % 2 ^ 64))) ∧
    (∃ v, counterOf nonce = some v ∧ v < 2 ^ 64 ∧
      (decryptStream L dinp dout dw).calls.map (fun c => counterOf c.1) =
        (List.range (decryptStream L dinp dout dw).calls.length).map
          (fun i => some ((v + i) % 2 ^ 64))) := by
  have hb : 24 ≤ (drawnNonce rnd).length := by rw [drawnNonce_length]
  have hn : 24 ≤ nonce.length := by
    rw [ReadFull_length _ _ _ _ _ hnonce]; exact Nat.le_refl _
  obtain ⟨v, hv, hlt, _⟩ := incrementNonceN_spec (drawnNonce rnd) hb
  obtain ⟨u, hu, hult, _⟩ := incrementNonceN_spec nonce hn
  exact ⟨⟨v, hv, hlt, counters_of_calls _ hb v hv _ (encryptStream_calls L rnd inp out w)⟩,
    ⟨u, hu, hult, counters_of_calls _ hn u hu _
      (decryptStream_calls L dinp dout dw salt nonce inp1 inp2 hsalt hnonce)⟩⟩

theorem counter_mod_witness :
    ReadFull (Reader.ofBytes (List.replicate 56 255 ++ [1, 2, 3])) SaltSize =
      some (List.replicate 32 255, none, Reader.ofBytes (List.replicate 24 255 ++ [1, 2, 3])) ∧
    ReadFull (Reader.ofBytes (List.replicate 24 255 ++ [1, 2, 3])) NonceSize =
      some (List.replicate 24 255, none, Reader.ofBytes [1, 2, 3]) ∧
    (decryptStream toyLib (Reader.ofBytes (List.replicate 56 255 ++ [1, 2, 3])) Writer.new
      [9]).calls.length = 1 ∧
    (∃ v, counterOf (drawnNonce onesRand) = some v ∧ v < 2 ^ 64 ∧
      (encryptStream toyLib onesRand [⟨[1], none⟩, ⟨[2], none⟩] Writer.new [9]).calls.map
          (fun c => counterOf c.1) =
        (List.range
          (encryptStream toyLib onesRand [⟨[1], none⟩, ⟨[2], none⟩] Writer.new [9]).calls.length).map
          (fun i => some ((v + i) % 2 ^ 64))) ∧
    (∃ v, counterOf (List.replicate 24 255) = some v ∧ v < 2 ^ 64 ∧
      (decryptStream toyLib (Reader.ofBytes (List.replicate 56 255 ++ [1, 2, 3])) Writer.new
          [9]).calls.map (fun c => counterOf c.1) =
        (List.range
          (decryptStream toyLib (Reader.ofBytes (List.replicate 56 255 ++ [1, 2, 3])) Writer.new
            [9]).calls.length).map (fun i => some ((v + i) % 2 ^ 64))) :=
  ⟨by decide, by decide, by decide,
    counter_mod toyLib onesRand [⟨[1], none⟩, ⟨[2], none⟩] Writer.new [9]
      (Reader.ofBytes (List.replicate 56 255 ++ [1, 2, 3])) Writer.new [9]
      (List.replicate 32 255) (List.replicate 24 255)
      (Reader.ofBytes (List.replicate 24 255 ++ [1, 2, 3])) (Reader.ofBytes [1, 2, 3])
      (by decide) (by decide)⟩

/-! ### Errors of the source and of the sink -/

/-- C11, as stated, fails: a source delivers the header and then, in one read, the
first 10 bytes of the only chunk together with an I/O error; `decryptStream`
returns the authentication error, not the I/O error. -/
theorem read_error_masked :
    (decryptStream toyLib
      (Reader.ofBytes
          ((encryptStream toyLib countingRand (Reader.ofBytes [1, 2, 3]) Writer.new [9]).out.data.take
            56) ++
        [⟨((encryptStream toyLib countingRand (Reader.ofBytes [1, 2, 3]) Writer.new
            [9]).out.data.drop 56).take 10, some (Err.other 5 "input/output error")⟩])
      Writer.new [9]).ret = .returned (some authError) ∧
    Err.other 5 "input/output error" ≠ Err.EOF ∧
    authError ≠ Err.other 5 "input/output error" ∧
    (encryptStream toyLib countingRand (Reader.ofBytes [1, 2, 3]) Writer.new [9]).ret =
      .returned none := by
  decide

/-- C11, amended: a source delivers the header, then the blocks `blocks` one per
read without error, each opening under its nonce and the sink taking the write
of its plaintext, and then a read that returns the error `e`, not end of input,
together with the bytes `data`; the key has 32 bytes. (1) If `data` is empty,
`decryptStream` returns exactly `e`. (2) If `data` opens under the current nonce
and the sink takes the write of its plaintext, the plaintext is written and
`decryptStream` returns exactly `e`. (3) If `data` opens and the sink fails the
write of its plaintext with `we`, `decryptStream` returns `we` in place of `e`.
(4) If `data` does not open, `decryptStream` returns the authentication error in
place of `e`. The bytes of a read are opened and written before its error is
looked at. -/
theorem decrypt_io_errors (L : CryptoLib) (inp inp1 : Reader) (salt nonce w : List Byte)
    (blocks ps : List (List Byte)) (data : List Byte) (e : Err) (rest : Reader) (d : List Byte)
    (plan : List WriteOutcome)
    (hsalt : ReadFull inp SaltSize = some (salt, none, inp1))
    (hnonce : ReadFull inp1 NonceSize =
      some (nonce, none, Reader.ofReads blocks ++ ⟨data, some e⟩ :: rest))
    (hk : (deriveKey L w salt).length = 32)
    (hblocks : ∀ b ∈ blocks, b ≠ [] ∧ b.length ≤ ChunkSize + L.Overhead)
    (hopen : openChunks L (deriveKey L w salt) nonce 0 blocks = (ps, true))
    (he : e ≠ Err.EOF) (hle : data.length ≤ ChunkSize + L.Overhead) :
    (data = [] →
      decryptStream L inp ⟨d, List.replicate blocks.length .ok ++ plan⟩ w =
        ⟨.returned (some e), rest, ⟨d ++ ps.flatten, plan⟩, chunkNonceAt nonce blocks.length,
          callsFrom nonce 0 blocks⟩) ∧
    (∀ p, data ≠ [] →
      L.Open (deriveKey L w salt) (chunkNonceAt nonce blocks.length) data [] = some p →
      (Writer.Write ⟨d ++ ps.flatten, plan⟩ p).2 = none →
      decryptStream L inp ⟨d, List.replicate blocks.length .ok ++ plan⟩ w =
        ⟨.returned (some e), rest, (Writer.Write ⟨d ++ ps.flatten, plan⟩ p).1,
          chunkNonceAt nonce (blocks.length + 1),
          callsFrom nonce 0 blocks ++ [(chunkNonceAt nonce blocks.length, data)]⟩) ∧
    (∀ p we, data ≠ [] →
      L.Open (deriveKey L w salt) (chunkNonceAt nonce blocks.length) data [] = some p →
      (Writer.Write ⟨d ++ ps.flatten, plan⟩ p).2 = some we →
      decryptStream L inp ⟨d, List.replicate blocks.length .ok ++ plan⟩ w =
        ⟨.returned (some we), rest, (Writer.Write ⟨d ++ ps.flatten, plan⟩ p).1,
          chunkNonceAt nonce blocks.length,
          callsFrom nonce 0 blocks ++ [(chunkNonceAt nonce blocks.length, data)]⟩) ∧
    (data ≠ [] →
      L.Open (deriveKey L w salt) (chunkNonceAt nonce blocks.length) data [] = none →
      decryptStream L inp ⟨d, List.replicate blocks.length .ok ++ plan⟩ w =
        ⟨.returned (some authError), rest, ⟨d ++ ps.flatten, plan⟩,
          chunkNonceAt nonce blocks.length,
          callsFrom nonce 0 blocks ++ [(chunkNonceAt nonce blocks.length, data)]⟩) := by
  have hb : 24 ≤ nonce.length := by
    rw [ReadFull_length _ _ _ _ _ hnonce]; exact Nat.le_refl _
  refine ⟨?_, ?_, ?_, ?_⟩
  · intro h0
    subst h0
    have h1 := decryptLoop_read_error_nil L (deriveKey L w salt) (ChunkSize + L.Overhead) e he
      rest ⟨d ++ ps.flatten, plan⟩ (chunkNonceAt nonce blocks.length) (callsFrom nonce 0 blocks)
    rw [decryptStream_after_reads L inp inp1 salt nonce w blocks ps _ rest d plan hsalt hnonce
      hk hblocks hopen (by rw [h1]; simp), h1]
  · intro p hne hop hw
    have h1 := decryptLoop_read_error_written L (deriveKey L w salt) nonce hb
      (ChunkSize + L.Overhead) e he data p hne hle blocks.length hop rest
      ⟨d ++ ps.flatten, plan⟩ hw (callsFrom nonce 0 blocks)
    rw [decryptStream_after_reads L inp inp1 salt nonce w blocks ps _ rest d plan hsalt
      hnonce hk hblocks hopen (by rw [h1]; simp), h1]
  · intro p we hne hop hw
    have h1 := decryptLoop_write_error L (deriveKey L w salt) (ChunkSize + L.Overhead) data p
      hne hle (chunkNonceAt nonce blocks.length) hop (some e) rest ⟨d ++ ps.flatten, plan⟩ we hw
      (callsFrom nonce 0 blocks)
    rw [decryptStream_after_reads L inp inp1 salt nonce w blocks ps _ rest d plan hsalt
      hnonce hk hblocks hopen (by rw [h1]; simp), h1]
  · intro hne hop
    have h1 := decryptLoop_open_fails L (deriveKey L w salt) (ChunkSize + L.Overhead) data hne
      hle (chunkNonceAt nonce blocks.length) hop (some e) rest ⟨d ++ ps.flatten, plan⟩
      (callsFrom nonce 0 blocks)
    rw [decryptStream_after_reads L inp inp1 salt nonce w blocks ps _ rest d plan hsalt hnonce
      hk hblocks hopen (by rw [h1]; simp), h1]

theorem decrypt_io_errors_witness :
    ReadFull (sampleSource (sampleReadErrorWith sampleBlock2)) SaltSize =
      some (sampleSalt, none, Reader.ofBytes sampleNonce ++ sampleReadErrorWith sampleBlock2) ∧
    ReadFull (Reader.ofBytes sampleNonce ++ sampleReadErrorWith sampleBlock2) NonceSize =
      some (sampleNonce, none, sampleReadErrorWith sampleBlock2) ∧
    (deriveKey toyLib [9] sampleSalt).length = 32 ∧
    (∀ b ∈ [sampleBlock], b ≠ [] ∧ b.length ≤ ChunkSize + toyLib.Overhead) ∧
    openChunks toyLib (deriveKey toyLib [9] sampleSalt) sampleNonce 0 [sampleBlock] =
      ([[7]], true) ∧
    ioError ≠ Err.EOF ∧ sampleBlock2.length ≤ ChunkSize + toyLib.Overhead ∧
    toyLib.Open (deriveKey toyLib [9] sampleSalt) (chunkNonceAt sampleNonce 1) sampleBlock2 [] =
      some [8] ∧
    decryptStream toyLib (sampleSource (sampleReadErrorWith sampleBlock2)) ⟨[], [.ok, .ok]⟩ [9] =
      ⟨.returned (some ioError), [⟨[4], none⟩], ⟨[7, 8], []⟩, chunkNonceAt sampleNonce 2,
        [(sampleNonce, sampleBlock), (chunkNonceAt sampleNonce 1, sampleBlock2)]⟩ ∧
    decryptStream toyLib (sampleSource (sampleReadErrorWith sampleBlock2))
        ⟨[], [.ok, .fail 0 diskFull]⟩ [9] =
      ⟨.returned (some diskFull), [⟨[4], none⟩], ⟨[7], []⟩, chunkNonceAt sampleNonce 1,
        [(sampleNonce, sampleBlock), (chunkNonceAt sampleNonce 1, sampleBlock2)]⟩ ∧
    decryptStream toyLib (sampleSource (sampleReadErrorWith [1, 2, 3])) ⟨[], [.ok, .ok]⟩ [9] =
      ⟨.returned (some authError), [⟨[4], none⟩], ⟨[7], [.ok]⟩, chunkNonceAt sampleNonce 1,
        [(sampleNonce, sampleBlock), (chunkNonceAt sampleNonce 1, [1, 2, 3])]⟩ ∧
    decryptStream toyLib (sampleSource sampleReadError) ⟨[], [.ok]⟩ [9] =
      ⟨.returned (some ioError), [⟨[4], none⟩], ⟨[7], []⟩, chunkNonceAt sampleNonce 1,
        [(sampleNonce, sampleBlock)]⟩ :=
  ⟨by decide, by decide, by decide, by decide, by decide, by decide, by decide, by decide,
    (decrypt_io_errors toyLib (sampleSource (sampleReadErrorWith sampleBlock2))
      (Reader.ofBytes sampleNonce ++ sampleReadErrorWith sampleBlock2) sampleSalt sampleNonce [9]
      [sampleBlock] [[7]] sampleBlock2 ioError [⟨[4], none⟩] [] [.ok] (by decide) (by decide)
      (by decide) (by decide) (by decide) (by decide) (by decide)).2.1 [8] (by decide)
      (by decide) rfl,
    (decrypt_io_errors toyLib (sampleSource (sampleReadErrorWith sampleBlock2))
      (Reader.ofBytes sampleNonce ++ sampleReadErrorWith sampleBlock2) sampleSalt sampleNonce [9]
      [sampleBlock] [[7]] sampleBlock2 ioError [⟨[4], none⟩] [] [.fail 0 diskFull] (by decide)
      (by decide) (by decide) (by decide) (by decide) (by decide) (by decide)).2.2.1 [8]
      diskFull (by decide) (by decide) rfl,
    (decrypt_io_errors toyLib (sampleSource (sampleReadErrorWith [1, 2, 3]))
      (Reader.ofBytes sampleNonce ++ sampleReadErrorWith [1, 2, 3]) sampleSalt sampleNonce [9]
      [sampleBlock] [[7]] [1, 2, 3] ioError [⟨[4], none⟩] [] [.ok] (by decide) (by decide)
      (by decide) (by decide) (by decide) (by decide) (by decide)).2.2.2 (by decide) (by decide),
    (decrypt_io_errors toyLib (sampleSource sampleReadError)
      (Reader.ofBytes sampleNonce ++ sampleReadError) sampleSalt sampleNonce [9]
      [sampleBlock] [[7]] [] ioError [⟨[4], none⟩] [] [] (by decide) (by decide) (by decide)
      (by decide) (by decide) (by decide) (by decide)).1 rfl⟩

/-- C12. Encrypt I/O errors abort and propagate. The random source delivers and the
key has 32 bytes; the source delivers the non-empty packets `good` one per read
without error, the sink taking the writes of the header and of their chunks.
(1) If the next read delivers no byte and an error `re` other than end of input,
`encryptStream` returns exactly `re`. (2) If it delivers the bytes `data` with
`re`, and the sink takes their write, they are sealed and written and
`encryptStream` returns exactly `re`. (3) If the sink fails the write of the
chunk sealed from `data` with `we`, `encryptStream` returns exactly `we`,
whatever the read reported. (4), (5) If the sink fails the write of the salt or
of the base nonce with `we`, `encryptStream` returns exactly `we`. In every
case the source is left at `rest` (or untouched) and the sink at `plan`: no
further read or write is performed. -/
theorem encrypt_io_errors (L : CryptoLib) (rnd : Rand) (w : List Byte)
    (hsalt : (rnd.Read SaltSize).2.1 = none)
    (hnonce : ((rnd.Read SaltSize).2.2.Read NonceSize).2.1 = none)
    (hk : (deriveKey L w (drawnSalt rnd)).length = 32)
    (good : List (List Byte)) (hgood : ∀ g ∈ good, g ≠ [] ∧ g.length ≤ ChunkSize)
    (data : List Byte) (hne : data ≠ []) (hle : data.length ≤ ChunkSize)
    (re : Err) (hre : re ≠ Err.EOF) (readErr : Option Err) (we : Err) (n : Nat)
    (inp rest : Reader) (d : List Byte) (plan : List WriteOutcome) :
    encryptStream L rnd (Reader.ofReads good ++ ⟨[], some re⟩ :: rest)
        ⟨d, .ok :: .ok :: (List.replicate good.length .ok ++ plan)⟩ w =
      ⟨.returned (some re), rest,
        ⟨d ++ drawnSalt rnd ++ drawnNonce rnd ++
          (sealChunks L (deriveKey L w (drawnSalt rnd)) (drawnNonce rnd) good).flatten, plan⟩,
        chunkNonceAt (drawnNonce rnd) good.length, callsFrom (drawnNonce rnd) 0 good⟩ ∧
    encryptStream L rnd (Reader.ofReads good ++ ⟨data, some re⟩ :: rest)
        ⟨d, .ok :: .ok :: (List.replicate good.length .ok ++ .ok :: plan)⟩ w =
      ⟨.returned (some re), rest,
        ⟨d ++ drawnSalt rnd ++ drawnNonce rnd ++
          (sealChunks L (deriveKey L w (drawnSalt rnd)) (drawnNonce rnd) good).flatten ++
          L.Seal (deriveKey L w (drawnSalt rnd)) (chunkNonceAt (drawnNonce rnd) good.length)
            data [], plan⟩,
        chunkNonceAt (drawnNonce rnd) (good.length + 1),
        callsFrom (drawnNonce rnd) 0 good ++
          [(chunkNonceAt (drawnNonce rnd) good.length, data)]⟩ ∧
    encryptStream L rnd (Reader.ofReads good ++ ⟨data, readErr⟩ :: rest)
        ⟨d, .ok :: .ok :: (List.replicate good.length .ok ++ .fail n we :: plan)⟩ w =
      ⟨.returned (some we), rest,
        ⟨d ++ drawnSalt rnd ++ drawnNonce rnd ++
          (sealChunks L (deriveKey L w (drawnSalt rnd)) (drawnNonce rnd) good).flatten ++
          (L.Seal (deriveKey L w (drawnSalt rnd)) (chunkNonceAt (drawnNonce rnd) good.length)
            data []).take n, plan⟩,
        chunkNonceAt (drawnNonce rnd) good.length,
        callsFrom (drawnNonce rnd) 0 good ++
          [(chunkNonceAt (drawnNonce rnd) good.length, data)]⟩ ∧
    encryptStream L rnd inp ⟨d, .fail n we :: plan⟩ w =
      ⟨.returned (some we), inp, ⟨d ++ (drawnSalt rnd).take n, plan⟩, [], []⟩ ∧
    encryptStream L rnd inp ⟨d, .ok :: .fail n we :: plan⟩ w =
      ⟨.returned (some we), inp, ⟨d ++ drawnSalt rnd ++ (drawnNonce rnd).take n, plan⟩, [], []⟩ := by
  have hb : 24 ≤ (drawnNonce rnd).length := by rw [drawnNonce_length]
  have hz : chunkNonceAt (drawnNonce rnd) 0 = drawnNonce rnd := rfl
  refine ⟨?_, ?_, ?_, encryptStream_header_write_error L rnd inp d w n we plan hsalt hnonce⟩
  · rw [encryptStream_loop L rnd _ d w _ hsalt hnonce hk]
    have h1 := encryptLoop_read_error_nil L (deriveKey L w (drawnSalt rnd)) re hre rest
      ⟨d ++ drawnSalt rnd ++ drawnNonce rnd ++
        (sealFrom L (deriveKey L w (drawnSalt rnd)) (drawnNonce rnd) 0 good).flatten, plan⟩
      (chunkNonceAt (drawnNonce rnd) (0 + good.length)) ([] ++ callsFrom (drawnNonce rnd) 0 good)
    have h2 := encryptLoop_after_reads L (deriveKey L w (drawnSalt rnd)) (drawnNonce rnd) hb good
      hgood (Reader.fuel (Reader.ofReads good ++ ⟨[], some re⟩ :: rest)) 1
      (⟨[], some re⟩ :: rest) (d ++ drawnSalt rnd ++ drawnNonce rnd) plan 0 []
      (fuel_over_reads good _ rest) (by rw [h1]; simp)
    rw [hz] at h2
    rw [h2, h1, Nat.zero_add, List.nil_append, sealChunks]
  · rw [encryptStream_loop L rnd _ d w _ hsalt hnonce hk]
    have h1 := encryptLoop_read_error_cons L (deriveKey L w (drawnSalt rnd)) (drawnNonce rnd) hb
      re hre data hne hle rest
      (d ++ drawnSalt rnd ++ drawnNonce rnd ++
        (sealFrom L (deriveKey L w (drawnSalt rnd)) (drawnNonce rnd) 0 good).flatten) plan
      (0 + good.length) ([] ++ callsFrom (drawnNonce rnd) 0 good)
    have h2 := encryptLoop_after_reads L (deriveKey L w (drawnSalt rnd)) (drawnNonce rnd) hb good
      hgood (Reader.fuel (Reader.ofReads good ++ ⟨data, some re⟩ :: rest)) 1
      (⟨data, some re⟩ :: rest) (d ++ drawnSalt rnd ++ drawnNonce rnd) (.ok :: plan) 0 []
      (fuel_over_reads good _ rest) (by rw [h1]; simp)
    rw [hz] at h2
    rw [h2, h1, Nat.zero_add, List.nil_append, sealChunks]
  · rw [encryptStream_loop L rnd _ d w _ hsalt hnonce hk]
    have h1 := encryptLoop_write_error L (deriveKey L w (drawnSalt rnd)) data hne hle readErr rest
      (d ++ drawnSalt rnd ++ drawnNonce rnd ++
        (sealFrom L (deriveKey L w (drawnSalt rnd)) (drawnNonce rnd) 0 good).flatten) n we plan
      (chunkNonceAt (drawnNonce rnd) (0 + good.length)) ([] ++ callsFrom (drawnNonce rnd) 0 good)
    have h2 := encryptLoop_after_reads L (deriveKey L w (drawnSalt rnd)) (drawnNonce rnd) hb good
      hgood (Reader.fuel (Reader.ofReads good ++ ⟨data, readErr⟩ :: rest)) 1
      (⟨data, readErr⟩ :: rest) (d ++ drawnSalt rnd ++ drawnNonce rnd) (.fail n we :: plan) 0 []
      (fuel_over_reads good _ rest) (by rw [h1]; simp)
    rw [hz] at h2
    rw [h2, h1, Nat.zero_add, List.nil_append, sealChunks]

theorem encrypt_io_errors_witness :
    (countingRand.Read SaltSize).2.1 = none ∧
    ((countingRand.Read SaltSize).2.2.Read NonceSize).2.1 = none ∧
    (deriveKey toyLib [9] (drawnSalt countingRand)).length = 32 ∧
    (∀ g ∈ [[(1 : Byte)], [2]], g ≠ [] ∧ g.length ≤ ChunkSize) ∧
    [(3 : Byte)] ≠ [] ∧ [(3 : Byte)].length ≤ ChunkSize ∧ ioError ≠ Err.EOF ∧
    (encryptStream toyLib countingRand
      (Reader.ofReads [[1], [2]] ++ ⟨[3], some ioError⟩ :: [⟨[4], none⟩])
      ⟨[], [.ok, .ok, .ok, .ok, .ok]⟩ [9]).ret = .returned (some ioError) ∧
    (encryptStream toyLib countingRand
      (Reader.ofReads [[1], [2]] ++ ⟨[3], some ioError⟩ :: [⟨[4], none⟩])
      ⟨[], [.ok, .ok, .ok, .ok, .ok]⟩ [9]).inp = [⟨[4], none⟩] ∧
    (encryptStream toyLib countingRand
      (Reader.ofReads [[1], [2]] ++ ⟨[3], none⟩ :: [⟨[4], none⟩])
      ⟨[], [.ok, .ok, .ok, .ok, .fail 0 diskFull, .ok]⟩ [9]).ret = .returned (some diskFull) ∧
    (encryptStream toyLib countingRand
      (Reader.ofReads [[1], [2]] ++ ⟨[3], none⟩ :: [⟨[4], none⟩])
      ⟨[], [.ok, .ok, .ok, .ok, .fail 0 diskFull, .ok]⟩ [9]).inp = [⟨[4], none⟩] :=
  ⟨by decide, by decide, by decide, by decide, by decide, by decide, by decide,
    congrArg Run.ret
      (encrypt_io_errors toyLib countingRand [9] (by decide) (by decide) (by decide) [[1], [2]]
        (by decide) [3] (by decide) (by decide) ioError (by decide) none diskFull 0 []
        [⟨[4], none⟩] [] []).2.1,
    congrArg Run.inp
      (encrypt_io_errors toyLib countingRand [9] (by decide) (by decide) (by decide) [[1], [2]]
        (by decide) [3] (by decide) (by decide) ioError (by decide) none diskFull 0 []
        [⟨[4], none⟩] [] []).2.1,
    congrArg Run.ret
      (encrypt_io_errors toyLib countingRand [9] (by decide) (by decide) (by decide) [[1], [2]]
        (by decide) [3] (by decide) (by decide) ioError (by decide) none diskFull 0 []
        [⟨[4], none⟩] [] [.ok]).2.2.1,
    congrArg Run.inp
      (encrypt_io_errors toyLib countingRand [9] (by decide) (by decide) (by decide) [[1], [2]]
        (by decide) [3] (by decide) (by decide) ioError (by decide) none diskFull 0 []
        [⟨[4], none⟩] [] [.ok]).2.2.1⟩

/-! ### Fresh header and the prefix of the nonce -/

/-- C13. Fresh header per run: two successful runs of `encryptStream` on the same
plaintext `p` (read in full buffers) and passphrase that draw different
(salt, base nonce) pairs write different streams, which differ within their
first 56 bytes; `decryptStream` with the passphrase returns `nil` and writes `p`
for both. Hypotheses on the cipher as for the round trip. -/
theorem fresh_header (L : CryptoLib)
    (hopen : ∀ k n p, L.Open k n (L.Seal k n p []) [] = some p)
    (hlen : ∀ k n p, (L.Seal k n p []).length = p.length + L.Overhead)
    (rnd1 rnd2 : Rand) (p w : List Byte) (plan1 plan2 : List WriteOutcome)
    (henc1 : (encryptStream L rnd1 (Reader.ofBytes p) ⟨[], plan1⟩ w).ret = .returned none)
    (henc2 : (encryptStream L rnd2 (Reader.ofBytes p) ⟨[], plan2⟩ w).ret = .returned none)
    (hdiff : (drawnSalt rnd1, drawnNonce rnd1) ≠ (drawnSalt rnd2, drawnNonce rnd2)) :
    (encryptStream L rnd1 (Reader.ofBytes p) ⟨[], plan1⟩ w).out.data ≠
      (encryptStream L rnd2 (Reader.ofBytes p) ⟨[], plan2⟩ w).out.data ∧
    (encryptStream L rnd1 (Reader.ofBytes p) ⟨[], plan1⟩ w).out.data.take 56 ≠
      (encryptStream L rnd2 (Reader.ofBytes p) ⟨[], plan2⟩ w).out.data.take 56 ∧
    (decryptStream L
      (Reader.ofBytes (encryptStream L rnd1 (Reader.ofBytes p) ⟨[], plan1⟩ w).out.data)
      Writer.new w).ret = .returned none ∧
    (decryptStream L
      (Reader.ofBytes (encryptStream L rnd1 (Reader.ofBytes p) ⟨[], plan1⟩ w).out.data)
      Writer.new w).out.data = p ∧
    (decryptStream L
      (Reader.ofBytes (encryptStream L rnd2 (Reader.ofBytes p) ⟨[], plan2⟩ w).out.data)
      Writer.new w).ret = .returned none ∧
    (decryptStream L
      (Reader.ofBytes (encryptStream L rnd2 (Reader.ofBytes p) ⟨[], plan2⟩ w).out.data)
      Writer.new w).out.data = p := by
  have h1 := encryptStream_header L rnd1 p w plan1 henc1
  have h2 := encryptStream_header L rnd2 p w plan2 henc2
  have hne : (encryptStream L rnd1 (Reader.ofBytes p) ⟨[], plan1⟩ w).out.data.take 56 ≠
      (encryptStream L rnd2 (Reader.ofBytes p) ⟨[], plan2⟩ w).out.data.take 56 := by
    rw [h1, h2]
    intro heq
    have := List.append_inj heq (by rw [drawnSalt_length, drawnSalt_length])
    exact hdiff (by rw [this.1, this.2])
  have d1 := decryptStream_encryptStream L hopen hlen rnd1 p w plan1 henc1
  have d2 := decryptStream_encryptStream L hopen hlen rnd2 p w plan2 henc2
  exact ⟨fun heq => hne (by rw [heq]), hne, d1.1, d1.2, d2.1, d2.2⟩

theorem fresh_header_witness :
    (encryptStream toyLib countingRand (Reader.ofBytes [1, 2, 3]) ⟨[], []⟩ [9]).ret =
      .returned none ∧
    (encryptStream toyLib onesRand (Reader.ofBytes [1, 2, 3]) ⟨[], []⟩ [9]).ret =
      .returned none ∧
    (drawnSalt countingRand, drawnNonce countingRand) ≠ (drawnSalt onesRand, drawnNonce onesRand) ∧
    (encryptStream toyLib countingRand (Reader.ofBytes [1, 2, 3]) ⟨[], []⟩ [9]).out.data ≠
      (encryptStream toyLib onesRand (Reader.ofBytes [1, 2, 3]) ⟨[], []⟩ [9]).out.data ∧
    (decryptStream toyLib
      (Reader.ofBytes (encryptStream toyLib onesRand (Reader.ofBytes [1, 2, 3]) ⟨[], []⟩ [9]).out.data)
      Writer.new [9]).out.data = [1, 2, 3] :=
  ⟨by decide, by decide, by decide,
    (fresh_header toyLib toy_open_seal toy_seal_length countingRand onesRand [1, 2, 3] [9] [] []
      (by decide) (by decide) (by decide)).1,
    (fresh_header toyLib toy_open_seal toy_seal_length countingRand onesRand [1, 2, 3] [9] [] []
      (by decide) (by decide) (by decide)).2.2.2.2.2⟩

/-- C14. `incrementNonce` frame: for every 24-byte nonce `b` the call returns
normally, the buffer still has 24 bytes and bytes 0..15 are unchanged; only
bytes 16..23 can change. -/
theorem incrementNonce_frame (b : List Byte) (hb : b.length = 24) :
    ∃ b1, incrementNonce b = some b1 ∧ b1.length = 24 ∧ b1.take 16 = b.take 16 ∧
      ∀ i, i < 16 → b1[i]? = b[i]? := by
  obtain ⟨_, b1, _, _, hinc, hlen, htake, _⟩ := incrementNonce_spec b (by omega)
  refine ⟨b1, hinc, by omega, htake, ?_⟩
  intro i hi
  have h1 := congrArg (fun l => l[i]?) htake
  simp only [List.getElem?_take, if_pos hi] at h1
  simpa [hi] using h1

theorem incrementNonce_frame_witness :
    (List.replicate 24 (255 : Byte)).length = 24 ∧
    ∃ b1, incrementNonce (List.replicate 24 (255 : Byte)) = some b1 ∧ b1.length = 24 ∧
      b1.take 16 = (List.replicate 24 (255 : Byte)).take 16 ∧
      ∀ i, i < 16 → b1[i]? = (List.replicate 24 (255 : Byte))[i]? :=
  ⟨by decide, incrementNonce_frame (List.replicate 24 (255 : Byte)) (by decide)⟩

/-! ### Chunk boundaries -/

/-- C15. Truncation at a chunk boundary is accepted: when `encryptStream` succeeds
on a plaintext `p` (read in full buffers) of more than `m` chunks, `decryptStream`
on the stream cut off after the header and its first `m` sealed chunks returns
`nil` and writes exactly the first `m` chunks of `p`, its first `m * ChunkSize`
bytes, which are fewer than `p` has. Hypotheses on the cipher as for the round
trip. -/
theorem truncation_accepted (L : CryptoLib)
    (hopen : ∀ k n p, L.Open k n (L.Seal k n p []) [] = some p)
    (hlen : ∀ k n p, (L.Seal k n p []).length = p.length + L.Overhead)
    (rnd : Rand) (p w : List Byte) (plan : List WriteOutcome)
    (henc : (encryptStream L rnd (Reader.ofBytes p) ⟨[], plan⟩ w).ret = .returned none)
    (m : Nat) (hm : m < (chunksOf ChunkSize p).length) :
    (decryptStream L
      (Reader.ofBytes ((encryptStream L rnd (Reader.ofBytes p) ⟨[], plan⟩ w).out.data.take
        (56 + m * (ChunkSize + L.Overhead))))
      Writer.new w).ret = .returned none ∧
    (decryptStream L
      (Reader.ofBytes ((encryptStream L rnd (Reader.ofBytes p) ⟨[], plan⟩ w).out.data.take
        (56 + m * (ChunkSize + L.Overhead))))
      Writer.new w).out.data = ((chunksOf ChunkSize p).take m).flatten ∧
    ((chunksOf ChunkSize p).take m).flatten = p.take (m * ChunkSize) ∧
    m * ChunkSize < p.length := by
  obtain ⟨hk, hdata⟩ := encryptStream_ofBytes L rnd p ⟨[], plan⟩ w henc
  have hcap : 0 < ChunkSize + L.Overhead := Nat.add_pos_left ChunkSize_pos _
  have hf := chunksOf_framed ChunkSize ChunkSize_pos p
  obtain ⟨hf1, hf2, _⟩ := Framed_take ChunkSize ChunkSize_pos _ hf m hm
  have hsf := sealFrom_framed L hlen (deriveKey L w (drawnSalt rnd)) (drawnNonce rnd) ChunkSize 0
    _ hf
  obtain ⟨_, hs2, _⟩ := Framed_take (ChunkSize + L.Overhead) hcap _ hsf m
    (by rw [sealFrom_length]; exact hm)
  have hcut : (encryptStream L rnd (Reader.ofBytes p) ⟨[], plan⟩ w).out.data.take
      (56 + m * (ChunkSize + L.Overhead)) =
      drawnSalt rnd ++ drawnNonce rnd ++
        (sealFrom L (deriveKey L w (drawnSalt rnd)) (drawnNonce rnd) 0
          ((chunksOf ChunkSize p).take m)).flatten := by
    rw [hdata, List.nil_append, sealChunks, ← sealFrom_take, hs2,
      show 56 = (drawnSalt rnd ++ drawnNonce rnd).length by
        rw [List.length_append, drawnSalt_length, drawnNonce_length],
      List.take_append]
  have hd := decryptStream_ofBytes L (drawnSalt rnd) (drawnNonce rnd)
    (sealFrom L (deriveKey L w (drawnSalt rnd)) (drawnNonce rnd) 0
      ((chunksOf ChunkSize p).take m)).flatten
    [] w (drawnSalt_length rnd) (drawnNonce_length rnd) hk
  rw [chunksOf_flatten _ hcap _
    (sealFrom_framed L hlen (deriveKey L w (drawnSalt rnd)) (drawnNonce rnd) ChunkSize 0 _ hf1),
    openChunks_sealFrom L hopen] at hd
  rw [hcut]
  refine ⟨hd.1, ?_, ?_, chunksOf_take_lt ChunkSize ChunkSize_pos p m hm⟩
  · rw [Writer.new, hd.2]
    rfl
  · rw [hf2, flatten_chunksOf ChunkSize ChunkSize_pos p]

theorem truncation_accepted_witness :
    (encryptStream toyLib countingRand (Reader.ofBytes twoChunks) ⟨[], []⟩ [9]).ret =
      .returned none ∧
    1 < (chunksOf ChunkSize twoChunks).length ∧
    (decryptStream toyLib
      (Reader.ofBytes ((encryptStream toyLib countingRand (Reader.ofBytes twoChunks)
        ⟨[], []⟩ [9]).out.data.take (56 + 1 * (ChunkSize + toyLib.Overhead))))
      Writer.new [9]).ret = .returned none ∧
    (decryptStream toyLib
      (Reader.ofBytes ((encryptStream toyLib countingRand (Reader.ofBytes twoChunks)
        ⟨[], []⟩ [9]).out.data.take (56 + 1 * (ChunkSize + toyLib.Overhead))))
      Writer.new [9]).out.data = twoChunks.take (1 * ChunkSize) :=
  have henc : (encryptStream toyLib countingRand (Reader.ofBytes twoChunks) ⟨[], []⟩ [9]).ret =
      .returned none :=
    encryptStream_ofBytes_new toyLib countingRand twoChunks [] [9] (by decide) (by decide)
      (by decide)
  have hm : 1 < (chunksOf ChunkSize twoChunks).length := by
    rw [chunksOf_twoChunks]; decide
  ⟨henc, hm,
    (truncation_accepted toyLib toy_open_seal toy_seal_length countingRand twoChunks [9] []
      henc 1 hm).1,
    (truncation_accepted toyLib toy_open_seal toy_seal_length countingRand twoChunks [9] []
      henc 1 hm).2.1.trans
    (truncation_accepted toyLib toy_open_seal toy_seal_length countingRand twoChunks [9] []
      henc 1 hm).2.2.1⟩

/-- C16. Chunk framing depends on how the source splits its reads. With a random
source that delivers, a 32-byte key, a cipher that opens what it sealed and adds
`Overhead()` bytes, and two non-empty packets `p1`, `p2` that fit one buffer
together with the overhead: (1) on a source that delivers `p1` and `p2` in two
reads, `encryptStream` returns `nil` and seals one chunk per read, `p1` and `p2`
each on its own, never `p1 ++ p2`; (2) `decryptStream` on that output read in
full buffers opens both sealed chunks as one block, and when the cipher rejects
that block returns "bad password or corrupt data" with nothing written; (3) the
stream `encryptStream` writes for `p1` read in one buffer decrypts to `p1`; (4)
the same bytes from a source that splits the sealed chunk after `j` bytes make
`decryptStream` call `Open` on the first `j` bytes alone and, the cipher
rejecting them, return "bad password or corrupt data". -/
theorem framing_depends_on_reads (L : CryptoLib) (rnd : Rand) (w p1 p2 : List Byte)
    (plan : List WriteOutcome)
    (hsalt : (rnd.Read SaltSize).2.1 = none)
    (hnonce : ((rnd.Read SaltSize).2.2.Read NonceSize).2.1 = none)
    (hk : (deriveKey L w (drawnSalt rnd)).length = 32)
    (hopen : ∀ k n p, L.Open k n (L.Seal k n p []) [] = some p)
    (hlen : ∀ k n p, (L.Seal k n p []).length = p.length + L.Overhead)
    (h1 : p1 ≠ []) (h2 : p2 ≠ []) (hfit : p1.length + p2.length + L.Overhead ≤ ChunkSize)
    (hrej : L.Open (deriveKey L w (drawnSalt rnd)) (drawnNonce rnd)
      (L.Seal (deriveKey L w (drawnSalt rnd)) (drawnNonce rnd) p1 [] ++
        L.Seal (deriveKey L w (drawnSalt rnd)) (chunkNonceAt (drawnNonce rnd) 1) p2 []) [] = none)
    (j : Nat) (hj : 0 < j)
    (hjlt : j < (L.Seal (deriveKey L w (drawnSalt rnd)) (drawnNonce rnd) p1 []).length)
    (hcut : L.Open (deriveKey L w (drawnSalt rnd)) (drawnNonce rnd)
      ((L.Seal (deriveKey L w (drawnSalt rnd)) (drawnNonce rnd) p1 []).take j) [] = none) :
    encryptStream L rnd (Reader.ofReads [p1, p2]) ⟨[], .ok :: .ok :: .ok :: .ok :: plan⟩ w =
      ⟨.returned none, [],
        ⟨drawnSalt rnd ++ drawnNonce rnd ++
          (L.Seal (deriveKey L w (drawnSalt rnd)) (drawnNonce rnd) p1 [] ++
            L.Seal (deriveKey L w (drawnSalt rnd)) (chunkNonceAt (drawnNonce rnd) 1) p2 []), plan⟩,
        chunkNonceAt (drawnNonce rnd) 2,
        [(drawnNonce rnd, p1), (chunkNonceAt (drawnNonce rnd) 1, p2)]⟩ ∧
    decryptStream L
        (Reader.ofBytes (encryptStream L rnd (Reader.ofReads [p1, p2])
          ⟨[], .ok :: .ok :: .ok :: .ok :: plan⟩ w).out.data) Writer.new w =
      ⟨.returned (some authError), [], Writer.new, drawnNonce rnd,
        [(drawnNonce rnd,
          L.Seal (deriveKey L w (drawnSalt rnd)) (drawnNonce rnd) p1 [] ++
            L.Seal (deriveKey L w (drawnSalt rnd)) (chunkNonceAt (drawnNonce rnd) 1) p2 [])]⟩ ∧
    (encryptStream L rnd (Reader.ofBytes p1) Writer.new w).ret = .returned none ∧
    (encryptStream L rnd (Reader.ofBytes p1) Writer.new w).out.data =
      drawnSalt rnd ++ drawnNonce rnd ++
        L.Seal (deriveKey L w (drawnSalt rnd)) (drawnNonce rnd) p1 [] ∧
    (decryptStream L
      (Reader.ofBytes (encryptStream L rnd (Reader.ofBytes p1) Writer.new w).out.data)
      Writer.new w).ret = .returned none ∧
    (decryptStream L
      (Reader.ofBytes (encryptStream L rnd (Reader.ofBytes p1) Writer.new w).out.data)
      Writer.new w).out.data = p1 ∧
    Reader.bytes (Reader.ofReads [drawnSalt rnd, drawnNonce rnd,
        (L.Seal (deriveKey L w (drawnSalt rnd)) (drawnNonce rnd) p1 []).take j,
        (L.Seal (deriveKey L w (drawnSalt rnd)) (drawnNonce rnd) p1 []).drop j]) =
      (encryptStream L rnd (Reader.ofBytes p1) Writer.new w).out.data ∧
    decryptStream L
        (Reader.ofReads [drawnSalt rnd, drawnNonce rnd,
          (L.Seal (deriveKey L w (drawnSalt rnd)) (drawnNonce rnd) p1 []).take j,
          (L.Seal (deriveKey L w (drawnSalt rnd)) (drawnNonce rnd) p1 []).drop j])
        Writer.new w =
      ⟨.returned (some authError),
        [⟨(L.Seal (deriveKey L w (drawnSalt rnd)) (drawnNonce rnd) p1 []).drop j, none⟩],
        Writer.new, drawnNonce rnd,
        [(drawnNonce rnd,
          (L.Seal (deriveKey L w (drawnSalt rnd)) (drawnNonce rnd) p1 []).take j)]⟩ := by
  have hcap : 0 < ChunkSize + L.Overhead := Nat.add_pos_left ChunkSize_pos _
  have hp1 : 0 < p1.length := List.length_pos.mpr h1
  have hp2 : 0 < p2.length := List.length_pos.mpr h2
  have hb : 24 ≤ (drawnNonce rnd).length := by rw [drawnNonce_length]
  generalize hkey : deriveKey L w (drawnSalt rnd) = key at *
  generalize hC : L.Seal key (drawnNonce rnd) p1 [] = C at *
  generalize hD : L.Seal key (chunkNonceAt (drawnNonce rnd) 1) p2 [] = D at *
  have hCl : C.length = p1.length + L.Overhead := by rw [← hC, hlen]
  have hDl : D.length = p2.length + L.Overhead := by rw [← hD, hlen]
  have hCne : C ≠ [] := List.length_pos.mp (by omega)
  -- (1) two reads, two chunks
  have e1 : encryptStream L rnd (Reader.ofReads [p1, p2])
      ⟨[], .ok :: .ok :: .ok :: .ok :: plan⟩ w =
      ⟨.returned none, [], ⟨drawnSalt rnd ++ drawnNonce rnd ++ (C ++ D), plan⟩,
        chunkNonceAt (drawnNonce rnd) 2,
        [(drawnNonce rnd, p1), (chunkNonceAt (drawnNonce rnd) 1, p2)]⟩ := by
    rw [encryptStream_loop L rnd _ [] w _ hsalt hnonce (by rw [hkey]; exact hk), hkey]
    have hend : encryptLoop L key 1
        ⟨[], ⟨[] ++ drawnSalt rnd ++ drawnNonce rnd ++
          (sealFrom L key (drawnNonce rnd) 0 [p1, p2]).flatten, plan⟩,
          chunkNonceAt (drawnNonce rnd) (0 + [p1, p2].length),
          [] ++ callsFrom (drawnNonce rnd) 0 [p1, p2]⟩ =
        ⟨.returned none, [], ⟨drawnSalt rnd ++ drawnNonce rnd ++ (C ++ D), plan⟩,
          chunkNonceAt (drawnNonce rnd) 2,
          [(drawnNonce rnd, p1), (chunkNonceAt (drawnNonce rnd) 1, p2)]⟩ := by
      rw [encryptLoop_nil L key 0 _ rfl]
      simp only [State.finish, sealFrom, callsFrom, chunkNonceAt_zero, List.flatten_cons,
        List.flatten_nil, List.append_nil, List.nil_append, List.length_cons, List.length_nil,
        Nat.zero_add, hC, hD]
    have hpre := encryptLoop_after_reads L key (drawnNonce rnd) hb [p1, p2]
      (by
        intro g hg
        simp only [List.mem_cons, List.mem_singleton, List.not_mem_nil, or_false] at hg
        rcases hg with rfl | rfl
        · exact ⟨h1, by omega⟩
        · exact ⟨h2, by omega⟩)
      (Reader.fuel (Reader.ofReads [p1, p2])) 1 [] ([] ++ drawnSalt rnd ++ drawnNonce rnd) plan 0 []
      (by
        have := fuel_ge_length (Reader.ofReads [p1, p2])
        rw [ofReads_length] at this
        exact this)
      (by rw [hend]; intro h; cases h)
    rw [List.append_nil] at hpre
    exact (hpre.trans hend)
  -- (3) the stream for p1 read in one buffer
  have henc : (encryptStream L rnd (Reader.ofBytes p1) Writer.new w).ret = .returned none :=
    encryptStream_ofBytes_new L rnd p1 [] w hsalt hnonce (by rw [hkey]; exact hk)
  have hdata : (encryptStream L rnd (Reader.ofBytes p1) Writer.new w).out.data =
      drawnSalt rnd ++ drawnNonce rnd ++ C := by
    rw [(encryptStream_ofBytes L rnd p1 Writer.new w henc).2, hkey,
      chunksOf_single ChunkSize ChunkSize_pos p1 h1 (by omega)]
    simp only [Writer.new, sealChunks, sealFrom, chunkNonceAt_zero, List.flatten_cons,
      List.flatten_nil, List.append_nil, List.nil_append, hC]
  have hdec := decryptStream_ofBytes L (drawnSalt rnd) (drawnNonce rnd) C [] w
    (drawnSalt_length rnd) (drawnNonce_length rnd) (by rw [hkey]; exact hk)
  rw [hkey, chunksOf_single _ hcap C hCne (by omega)] at hdec
  have hopenC : L.Open key (drawnNonce rnd) C [] = some p1 := by rw [← hC]; exact hopen _ _ _
  simp only [openChunks, chunkNonceAt_zero, hopenC, if_true, List.flatten_cons,
    List.flatten_nil, List.append_nil, List.nil_append] at hdec
  refine ⟨e1, ?_, henc, hdata, ?_, ?_, ?_, ?_⟩
  · -- (2) both sealed chunks are read as one block
    rw [e1]
    have hne : C ++ D ≠ [] := by simp [hCne]
    rw [List.append_assoc]
    exact decryptStream_first_block_rejected L _ (Reader.ofBytes (drawnNonce rnd ++ (C ++ D)))
      (drawnSalt rnd) (drawnNonce rnd) w (C ++ D) []
      (by
        have := ReadFull_ofBytes_append (drawnSalt rnd) (drawnNonce rnd ++ (C ++ D))
          (by rw [drawnSalt_length]; decide) (by simp [hCne])
        rw [drawnSalt_length] at this
        exact this)
      (by
        have := ReadFull_ofBytes_append (drawnNonce rnd) (C ++ D)
          (by rw [drawnNonce_length]; decide) hne
        rw [drawnNonce_length] at this
        exact this)
      (by rw [hkey]; exact hk) hne (by rw [List.length_append]; omega)
      (by rw [hkey]; exact hrej)
  · rw [hdata]; exact hdec.1
  · rw [hdata, Writer.new, hdec.2]
  · rw [hdata, bytes_ofReads]
    simp only [List.flatten_cons, List.flatten_nil, List.append_nil, List.take_append_drop,
      List.append_assoc]
  · have hjl : j < C.length := hjlt
    exact decryptStream_first_block_rejected L _
      (Reader.ofReads [drawnNonce rnd, C.take j, C.drop j])
      (drawnSalt rnd) (drawnNonce rnd) w (C.take j) [⟨C.drop j, none⟩]
      (ReadFull_cons_eq _ _ _ (by decide) (drawnSalt_length rnd))
      (ReadFull_cons_eq _ _ _ (by decide) (drawnNonce_length rnd))
      (by rw [hkey]; exact hk)
      (by
        intro h0
        have := congrArg List.length h0
        rw [List.length_take, List.length_nil] at this
        omega)
      (by rw [List.length_take]; omega)
      (by rw [hkey]; exact hcut)

theorem framing_depends_on_reads_witness :
    toyLib.Open (deriveKey toyLib [9] (drawnSalt countingRand)) (drawnNonce countingRand)
      (toyLib.Seal (deriveKey toyLib [9] (drawnSalt countingRand)) (drawnNonce countingRand)
          tenBytes [] ++
        toyLib.Seal (deriveKey toyLib [9] (drawnSalt countingRand))
          (chunkNonceAt (drawnNonce countingRand) 1) tenMore []) [] = none ∧
    toyLib.Open (deriveKey toyLib [9] (drawnSalt countingRand)) (drawnNonce countingRand)
      ((toyLib.Seal (deriveKey toyLib [9] (drawnSalt countingRand)) (drawnNonce countingRand)
        tenBytes []).take 5) [] = none ∧
    (encryptStream toyLib countingRand (Reader.ofReads [tenBytes, tenMore])
      ⟨[], [.ok, .ok, .ok, .ok]⟩ [9]).ret = .returned none ∧
    (encryptStream toyLib countingRand (Reader.ofReads [tenBytes, tenMore])
      ⟨[], [.ok, .ok, .ok, .ok]⟩ [9]).calls =
        [(drawnNonce countingRand, tenBytes),
          (chunkNonceAt (drawnNonce countingRand) 1, tenMore)] ∧
    (decryptStream toyLib
      (Reader.ofBytes (encryptStream toyLib countingRand (Reader.ofReads [tenBytes, tenMore])
        ⟨[], [.ok, .ok, .ok, .ok]⟩ [9]).out.data) Writer.new [9]).ret =
      .returned (some authError) ∧
    (decryptStream toyLib
      (Reader.ofReads [drawnSalt countingRand, drawnNonce countingRand,
        (toyLib.Seal (deriveKey toyLib [9] (drawnSalt countingRand)) (drawnNonce countingRand)
          tenBytes []).take 5,
        (toyLib.Seal (deriveKey toyLib [9] (drawnSalt countingRand)) (drawnNonce countingRand)
          tenBytes []).drop 5])
      Writer.new [9]).ret = .returned (some authError) :=
  have h := framing_depends_on_reads toyLib countingRand [9] tenBytes tenMore []
    (by decide) (by decide) (by decide) toy_open_seal toy_seal_length (by decide) (by decide)
    (by decide) (by decide) 5 (by decide) (by decide) (by decide)
  ⟨by decide, by decide, congrArg Run.ret h.1, congrArg Run.calls h.1, congrArg Run.ret h.2.1,
    congrArg Run.ret h.2.2.2.2.2.2.2⟩

/-! ### Output on failure and slice bounds -/

/-- C17. Output on failure is not rolled back: a source delivers the header, then
the blocks `blocks` (chunks 0..i-1) one per read without error, each opening
under its nonce, and then the block `bad` (chunk i), which does not open; the
key has 32 bytes and the sink takes the writes of the plaintexts. Then
`decryptStream` returns the authentication error; the sink has received exactly
the plaintexts of chunks 0..i-1, in order; the nonce is the base nonce after
exactly i calls of `incrementNonce`; the source is left at what follows chunk i
and the sink at `plan`, so nothing is read or written after chunk i. -/
theorem no_rollback (L : CryptoLib) (inp inp1 : Reader) (salt nonce w : List Byte)
    (blocks ps : List (List Byte)) (bad : List Byte) (readErr : Option Err) (rest : Reader)
    (d : List Byte) (plan : List WriteOutcome)
    (hsalt : ReadFull inp SaltSize = some (salt, none, inp1))
    (hnonce : ReadFull inp1 NonceSize =
      some (nonce, none, Reader.ofReads blocks ++ ⟨bad, readErr⟩ :: rest))
    (hk : (deriveKey L w salt).length = 32)
    (hblocks : ∀ b ∈ blocks, b ≠ [] ∧ b.length ≤ ChunkSize + L.Overhead)
    (hopen : openChunks L (deriveKey L w salt) nonce 0 blocks = (ps, true))
    (hne : bad ≠ []) (hle : bad.length ≤ ChunkSize + L.Overhead)
    (hfail : L.Open (deriveKey L w salt) (chunkNonceAt nonce blocks.length) bad [] = none) :
    decryptStream L inp ⟨d, List.replicate blocks.length .ok ++ plan⟩ w =
      ⟨.returned (some authError), rest, ⟨d ++ ps.flatten, plan⟩,
        chunkNonceAt nonce blocks.length,
        callsFrom nonce 0 blocks ++ [(chunkNonceAt nonce blocks.length, bad)]⟩ ∧
    ps.length = blocks.length ∧
    (∀ j, ps[j]? = blocks[j]?.bind fun b =>
      L.Open (deriveKey L w salt) (chunkNonceAt nonce j) b []) ∧
    incrementNonceN blocks.length nonce = some (chunkNonceAt nonce blocks.length) := by
  have hb : 24 ≤ nonce.length := by
    rw [ReadFull_length _ _ _ _ _ hnonce]; exact Nat.le_refl _
  have h1 := decryptLoop_open_fails L (deriveKey L w salt) (ChunkSize + L.Overhead) bad hne
    hle (chunkNonceAt nonce blocks.length) hfail readErr rest ⟨d ++ ps.flatten, plan⟩
    (callsFrom nonce 0 blocks)
  obtain ⟨hl, hj⟩ := openChunks_true L (deriveKey L w salt) nonce blocks ps 0 hopen
  refine ⟨?_, hl, ?_, incrementNonceN_chunkNonceAt nonce hb blocks.length⟩
  · rw [decryptStream_after_reads L inp inp1 salt nonce w blocks ps _ rest d plan hsalt hnonce
      hk hblocks hopen (by rw [h1]; simp), h1]
  · intro j
    have := hj j
    rw [Nat.zero_add] at this
    exact this

theorem no_rollback_witness :
    ReadFull (sampleSource sampleBadChunk) SaltSize =
      some (sampleSalt, none, Reader.ofBytes sampleNonce ++ sampleBadChunk) ∧
    ReadFull (Reader.ofBytes sampleNonce ++ sampleBadChunk) NonceSize =
      some (sampleNonce, none, sampleBadChunk) ∧
    (deriveKey toyLib [9] sampleSalt).length = 32 ∧
    (∀ b ∈ [sampleBlock], b ≠ [] ∧ b.length ≤ ChunkSize + toyLib.Overhead) ∧
    openChunks toyLib (deriveKey toyLib [9] sampleSalt) sampleNonce 0 [sampleBlock] =
      ([[7]], true) ∧
    toyLib.Open (deriveKey toyLib [9] sampleSalt) (chunkNonceAt sampleNonce 1) [1, 2, 3] [] =
      none ∧
    (decryptStream toyLib (sampleSource sampleBadChunk) ⟨[], [.ok, .ok]⟩ [9]).ret =
      .returned (some authError) ∧
    (decryptStream toyLib (sampleSource sampleBadChunk) ⟨[], [.ok, .ok]⟩ [9]).out =
      ⟨[7], [.ok]⟩ ∧
    (decryptStream toyLib (sampleSource sampleBadChunk) ⟨[], [.ok, .ok]⟩ [9]).inp =
      [⟨[4], none⟩] ∧
    (decryptStream toyLib (sampleSource sampleBadChunk) ⟨[], [.ok, .ok]⟩ [9]).chunkNonce =
      chunkNonceAt sampleNonce 1 :=
  ⟨by decide, by decide, by decide, by decide, by decide, by decide,
    congrArg Run.ret
      (no_rollback toyLib (sampleSource sampleBadChunk)
        (Reader.ofBytes sampleNonce ++ sampleBadChunk) sampleSalt sampleNonce [9] [sampleBlock]
        [[7]] [1, 2, 3] none [⟨[4], none⟩] [] [.ok] (by decide) (by decide) (by decide)
        (by decide) (by decide) (by decide) (by decide) (by decide)).1,
    congrArg Run.out
      (no_rollback toyLib (sampleSource sampleBadChunk)
        (Reader.ofBytes sampleNonce ++ sampleBadChunk) sampleSalt sampleNonce [9] [sampleBlock]
        [[7]] [1, 2, 3] none [⟨[4], none⟩] [] [.ok] (by decide) (by decide) (by decide)
        (by decide) (by decide) (by decide) (by decide) (by decide)).1,
    congrArg Run.inp
      (no_rollback toyLib (sampleSource sampleBadChunk)
        (Reader.ofBytes sampleNonce ++ sampleBadChunk) sampleSalt sampleNonce [9] [sampleBlock]
        [[7]] [1, 2, 3] none [⟨[4], none⟩] [] [.ok] (by decide) (by decide) (by decide)
        (by decide) (by decide) (by decide) (by decide) (by decide)).1,
    congrArg Run.chunkNonce
      (no_rollback toyLib (sampleSource sampleBadChunk)
        (Reader.ofBytes sampleNonce ++ sampleBadChunk) sampleSalt sampleNonce [9] [sampleBlock]
        [[7]] [1, 2, 3] none [⟨[4], none⟩] [] [.ok] (by decide) (by decide) (by decide)
        (by decide) (by decide) (by decide) (by decide) (by decide)).1⟩

/-- C18. No out-of-bounds access: on every source, read schedule, sink, random draw
and passphrase, `encryptStream` and `decryptStream` return (they do not panic);
the nonce of every cipher call, which is the buffer `incrementNonce` is then
called on, has exactly 24 bytes; every read delivers at most as many bytes as
the buffer holds; and `incrementNonce` is in bounds exactly when its argument
has at least 24 bytes. -/
theorem no_out_of_bounds (L : CryptoLib) (rnd : Rand) (inp : Reader) (out : Writer)
    (w : List Byte) :
    (∃ err, (encryptStream L rnd inp out w).ret = .returned err) ∧
    (∃ err, (decryptStream L inp out w).ret = .returned err) ∧
    (encryptStream L rnd inp out w).ret ≠ .panicked ∧
    (decryptStream L inp out w).ret ≠ .panicked ∧
    (∀ c ∈ (encryptStream L rnd inp out w).calls,
      c.1.length = 24 ∧ incrementNonce c.1 ≠ none) ∧
    (∀ c ∈ (decryptStream L inp out w).calls,
      c.1.length = 24 ∧ incrementNonce c.1 ≠ none) ∧
    (∀ (r : Reader) (cap : Nat), (Reader.Read r cap).1.length ≤ cap) ∧
    (∀ b : List Byte, incrementNonce b ≠ none ↔ 24 ≤ b.length) := by
  obtain ⟨e1, h1⟩ := encryptStream_returned L rnd inp out w
  obtain ⟨e2, h2⟩ := decryptStream_returned L inp out w
  refine ⟨⟨e1, h1⟩, ⟨e2, h2⟩, by rw [h1]; simp, by rw [h2]; simp, ?_, ?_,
    fun r cap => (Read_bytes r cap).2, incrementNonce_in_bounds⟩
  · intro c hc
    have := encryptStream_calls_length L rnd inp out w c hc
    exact ⟨this, (incrementNonce_in_bounds c.1).mpr (by omega)⟩
  · intro c hc
    have := decryptStream_calls_length L inp out w c hc
    exact ⟨this, (incrementNonce_in_bounds c.1).mpr (by omega)⟩

end Sec
